import Mathlib

/-!
# Explicit free-list heap allocator (`explicit.c`)

A shallow embedding of the allocator of `src/explicit.c` and a verification of
its specification.

* Memory is a byte-addressed total map `Nat → Nat`; an 8-byte little-endian
  word is read by `load64` and written by `store64`.
* `size_t` arithmetic is arithmetic modulo `2 ^ 64`.
* Pointers are byte addresses; `NULL` is the address `0`. The address that
  `next_header` computes from a header word is taken modulo `2 ^ 64`.
* The file-scope variables of `explicit.c` together with the memory form the
  record `State`.
* Loops (`while`) are unrolled by a fuel argument; running out of fuel is
  reported as `Outcome.timeout`, never as a result.
-/

namespace ExplicitHeap

/-! ## Machine words and memory -/

/-- The modulus of `size_t` arithmetic, `2 ^ 64`. -/
def SIZE_MOD : Nat := 18446744073709551616

/-- Addition in `size_t` arithmetic. -/
def add64 (a b : Nat) : Nat := (a + b) % SIZE_MOD

/-- Subtraction in `size_t` arithmetic: `a - b` wraps around below zero. -/
def sub64 (a b : Nat) : Nat := if b ≤ a then a - b else SIZE_MOD - (b - a)

/-- Byte-addressed memory. -/
abbrev Mem := Nat → Nat

/-- Read the 8-byte little-endian word stored at address `a`. -/
def load64 (m : Mem) (a : Nat) : Nat :=
  m a % 256 + 256 * (m (a + 1) % 256 + 256 * (m (a + 2) % 256 + 256 * (m (a + 3) % 256
    + 256 * (m (a + 4) % 256 + 256 * (m (a + 5) % 256 + 256 * (m (a + 6) % 256
    + 256 * (m (a + 7) % 256)))))))

/-- Write the low 8 bytes of `v`, little-endian, at address `a`. -/
def store64 (m : Mem) (a v : Nat) : Mem := fun x =>
  if a ≤ x ∧ x < a + 8 then v / 256 ^ (x - a) % 256 else m x

/-- The effect of `memcpy(dst, src, n)` on memory (regions do not overlap). -/
def memcpy (m : Mem) (dst src n : Nat) : Mem := fun x =>
  if dst ≤ x ∧ x < dst + n then m (src + (x - dst)) else m x

/-! ## Constants of `explicit.c` -/

def MINIMUM_BYTES_16 : Nat := 16
def MINIMUM_BYTES_24 : Nat := 24
def HEADER_SIZE : Nat := 8

/-- The file-scope variables of `explicit.c`, together with the memory. -/
structure State where
  mem : Mem
  segment_start : Nat
  segment_size : Nat
  end_heap : Nat
  first_free_ptr : Nat
  count_free : Nat
  count_allocated : Nat

/-! ## Header codec -/

/-- Function `is_free`: `!(*header & 1)`. -/
def is_free (m : Mem) (header : Nat) : Bool :=
  (load64 m header &&& 1) == 0

/-- Function `set_header`: store `size` when `status` (free), `size | 1` otherwise. -/
def set_header (m : Mem) (header size : Nat) (status : Bool) : Mem :=
  if status then store64 m header size else store64 m header (size ||| 1)

/-- Function `get_payload_size`: `*header & ~1`. -/
def get_payload_size (m : Mem) (header : Nat) : Nat :=
  load64 m header &&& (SIZE_MOD - 2)

/-- Function `header_to_payload`. -/
def header_to_payload (header : Nat) : Nat := header + HEADER_SIZE

/-- Function `payload_to_header`. -/
def payload_to_header (payload : Nat) : Nat := payload - HEADER_SIZE

/-- Function `next_header`: the result is a pointer, so the sum is taken
modulo `2 ^ 64`. -/
def next_header (m : Mem) (current : Nat) : Nat :=
  add64 (add64 current HEADER_SIZE) (get_payload_size m current)

/-- Function `roundup`: `(sz + mult - 1) & ~(mult - 1)` in `size_t` arithmetic. -/
def roundup (sz mult : Nat) : Nat :=
  sub64 (add64 sz mult) 1 &&& (SIZE_MOD - 1 - sub64 mult 1)

/-- Function `change_to_allocated`: `*header |= 1`. -/
def change_to_allocated (m : Mem) (header : Nat) : Mem :=
  store64 m header (load64 m header ||| 1)

/-! ## Free-list nodes -/

/-- Function `get_free_block`: the `freeNode` overlaid on the payload. -/
def get_free_block (header : Nat) : Nat := header + HEADER_SIZE

/-- Function `get_prev_free`: the `prev` field is the first word of the node. -/
def get_prev_free (m : Mem) (current : Nat) : Nat :=
  load64 m (get_free_block current)

/-- Function `get_next_free`: the `next` field is the second word of the node. -/
def get_next_free (m : Mem) (current : Nat) : Nat :=
  load64 m (get_free_block current + 8)

/-- Function `set_prev_free`. -/
def set_prev_free (m : Mem) (current previous : Nat) : Mem :=
  store64 m (get_free_block current) previous

/-- Function `set_next_free`. -/
def set_next_free (m : Mem) (current next : Nat) : Mem :=
  store64 m (get_free_block current + 8) next

/-- Function `remove_free_node`. -/
def remove_free_node (s : State) (current_block : Nat) : State :=
  let s1 : State :=
    if get_prev_free s.mem current_block ≠ 0 then
      { s with mem := set_next_free s.mem (get_prev_free s.mem current_block)
                        (get_next_free s.mem current_block) }
    else s
  let s2 : State :=
    if get_next_free s1.mem current_block ≠ 0 then
      { s1 with mem := set_prev_free s1.mem (get_next_free s1.mem current_block)
                        (get_prev_free s1.mem current_block) }
    else s1
  if s2.first_free_ptr = current_block then
    { s2 with first_free_ptr := get_next_free s2.mem current_block }
  else s2

/-- Function `add_free_node`. -/
def add_free_node (s : State) (current_block : Nat) : State :=
  let m1 := set_prev_free s.mem current_block 0
  let m2 := set_next_free m1 current_block s.first_free_ptr
  let m3 := if s.first_free_ptr ≠ 0 then set_prev_free m2 s.first_free_ptr current_block else m2
  { s with mem := m3, first_free_ptr := current_block }

/-! ## Allocator core -/

/-- Function `myinit`: the new state and the returned flag. -/
def myinit (s : State) (heap_start heap_size : Nat) : State × Bool :=
  if heap_size < MINIMUM_BYTES_24 then (s, false)
  else
    let m1 := set_header s.mem heap_start (heap_size - HEADER_SIZE) true
    let m2 := set_next_free m1 heap_start 0
    let m3 := set_prev_free m2 heap_start 0
    ({ mem := m3
       segment_start := heap_start
       segment_size := heap_size
       end_heap := heap_start + heap_size
       first_free_ptr := heap_start
       count_free := 1
       count_allocated := 0 }, true)

/-- Function `split_block`. -/
def split_block (s : State) (current_header rounded_size payload : Nat) : State :=
  let m1 := set_header s.mem current_header rounded_size false
  let new_header := next_header m1 current_header
  let m2 := set_header m1 new_header (sub64 (sub64 payload rounded_size) HEADER_SIZE) true
  let s3 := add_free_node { s with mem := m2 } new_header
  { s3 with count_free := add64 s3.count_free 1 }

/-- Function `coalesce`: the new state and the returned flag. -/
def coalesce (s : State) (currHeader : Nat) : State × Bool :=
  if currHeader = 0 then (s, false)
  else
    let nextHeader := next_header s.mem currHeader
    if nextHeader < s.end_heap ∧ is_free s.mem nextHeader = true then
      let total := add64 (add64 HEADER_SIZE (get_payload_size s.mem currHeader))
                      (get_payload_size s.mem nextHeader)
      let s1 := remove_free_node s nextHeader
      ({ s1 with count_free := sub64 s1.count_free 1
                 mem := set_header s1.mem currHeader total false }, true)
    else (s, false)

/-- The result of running a function that contains a loop or may fault. -/
inductive Outcome (α : Type) where
  /-- The call returns. -/
  | ret : α → Outcome α
  /-- The fuel given to a loop was not enough. -/
  | timeout : Outcome α
  /-- The call writes through a null pointer (`memcpy` to `NULL`). -/
  | fault : Outcome α

/-- The `while (start != NULL)` loop of `mymalloc`. -/
def mymalloc_loop : Nat → State → Nat → Nat → Outcome (State × Nat)
  | 0, _, _, _ => Outcome.timeout
  | fuel + 1, s, rounded_req_size, start =>
    if start = 0 then Outcome.ret (s, 0)
    else
      let payload := get_payload_size s.mem start
      if payload ≥ rounded_req_size ∧ is_free s.mem start = true then
        let s1 : State := { s with mem := change_to_allocated s.mem start
                                   count_allocated := add64 s.count_allocated 1 }
        let s2 := remove_free_node s1 start
        let s3 : State := { s2 with count_free := sub64 s2.count_free 1 }
        let s4 := if payload - rounded_req_size ≥ 24 then
            split_block s3 start rounded_req_size payload else s3
        Outcome.ret (s4, header_to_payload start)
      else mymalloc_loop fuel s rounded_req_size (get_next_free s.mem start)

/-- Function `mymalloc`; `MAX_REQUEST_SIZE` comes from `allocator.h`, which is not part
of the sources, and is a parameter. -/
def mymalloc (MAX_REQUEST_SIZE fuel : Nat) (s : State) (requested_size : Nat) :
    Outcome (State × Nat) :=
  if requested_size = 0 then Outcome.ret (s, 0)
  else if requested_size > MAX_REQUEST_SIZE then Outcome.ret (s, 0)
  else if s.first_free_ptr = 0 then Outcome.ret (s, 0)
  else
    let rounded_req_size := roundup requested_size HEADER_SIZE
    let rounded_req_size := if rounded_req_size < 16 then 16 else rounded_req_size
    mymalloc_loop fuel s rounded_req_size s.first_free_ptr

/-- Function `myfree`. -/
def myfree (s : State) (ptr : Nat) : State :=
  if ptr = 0 then s
  else
    let header := payload_to_header ptr
    let s1 : State := { s with mem := store64 s.mem header (load64 s.mem header &&& (SIZE_MOD - 2)) }
    let s2 := add_free_node s1 header
    let s3 := (coalesce s2 header).1
    { s3 with mem := set_header s3.mem header (get_payload_size s3.mem header) true
              count_allocated := sub64 s3.count_allocated 1
              count_free := add64 s3.count_free 1 }

/-- The `while (keepCoalescing)` loop of `myrealloc`. -/
def coalesce_loop : Nat → State → Nat → Outcome State
  | 0, _, _ => Outcome.timeout
  | fuel + 1, s, old_header =>
    if (coalesce s old_header).2 = true then coalesce_loop fuel (coalesce s old_header).1 old_header
    else Outcome.ret (coalesce s old_header).1

/-- Function `myrealloc`. A failed inner `mymalloc` makes the code call `memcpy` with a
null destination, which is a fault. -/
def myrealloc (MAX_REQUEST_SIZE fuel : Nat) (s : State) (old_ptr new_size : Nat) :
    Outcome (State × Nat) :=
  let rounded_req_size := roundup new_size HEADER_SIZE
  if old_ptr = 0 then mymalloc MAX_REQUEST_SIZE fuel s new_size
  else if new_size = 0 then Outcome.ret (myfree s old_ptr, 0)
  else
    let old_header := payload_to_header old_ptr
    let rounded_req_size := if rounded_req_size < 16 then 16 else rounded_req_size
    match coalesce_loop fuel s old_header with
    | Outcome.timeout => Outcome.timeout
    | Outcome.fault => Outcome.fault
    | Outcome.ret s1 =>
      let old_payload := get_payload_size s1.mem old_header
      if rounded_req_size = old_payload then Outcome.ret (s1, old_ptr)
      else if rounded_req_size < old_payload then
        let s2 : State := { s1 with mem := set_header s1.mem old_header old_payload false }
        let s3 :=
          if add64 rounded_req_size MINIMUM_BYTES_24 ≤ get_payload_size s2.mem old_header then
            split_block s2 old_header rounded_req_size (get_payload_size s2.mem old_header)
          else s2
        Outcome.ret (s3, old_ptr)
      else
        match mymalloc MAX_REQUEST_SIZE fuel s1 new_size with
        | Outcome.timeout => Outcome.timeout
        | Outcome.fault => Outcome.fault
        | Outcome.ret (s2, new_ptr) =>
          if new_ptr = 0 then Outcome.fault
          else
            let s3 : State :=
              { s2 with mem := memcpy s2.mem new_ptr old_ptr
                                (if old_payload < new_size then old_payload else new_size) }
            Outcome.ret (myfree s3 old_ptr, new_ptr)

/-! ## Observations: the physical walk and the free-list traversal -/

/-- The physical walk of `validate_heap` and `dump_heap`: starting at `current`,
advance by `next_header` while `current < heap_end`; returns the headers
visited and the address on which the walk stops, or `none` without fuel. -/
def heap_walk : Nat → Mem → Nat → Nat → Option (List Nat × Nat)
  | 0, _, _, _ => none
  | fuel + 1, m, current, heap_end =>
    if current < heap_end then
      match heap_walk fuel m (next_header m current) heap_end with
      | none => none
      | some (hs, stop) => some (current :: hs, stop)
    else some ([], current)

/-- The chain followed from `head` through the `next` links up to `NULL`, or
`none` without fuel. -/
def free_list : Nat → Mem → Nat → Option (List Nat)
  | 0, _, _ => none
  | fuel + 1, m, head =>
    if head = 0 then some []
    else
      match free_list fuel m (get_next_free m head) with
      | none => none
      | some l => some (head :: l)

/-- Whether `p` is the payload pointer of a block that the physical walk finds
with its allocation bit set. -/
def is_allocated_ptr (s : State) (p : Nat) : Bool :=
  match heap_walk s.segment_size s.mem s.segment_start (s.segment_start + s.segment_size) with
  | some (hs, _) =>
    decide (HEADER_SIZE ≤ p) && hs.contains (payload_to_header p)
      && !is_free s.mem (payload_to_header p)
  | none => false

/-- Whether the byte address `x` lies in the payload of an allocated block. -/
def in_allocated_payload (s : State) (x : Nat) : Bool :=
  match heap_walk s.segment_size s.mem s.segment_start (s.segment_start + s.segment_size) with
  | some (hs, _) =>
    hs.any (fun h => !is_free s.mem h && decide (header_to_payload h ≤ x ∧ x < next_header s.mem h))
  | none => false

/-- The states the allocator can be in: after a successful `myinit` on a
non-null, 8-byte aligned buffer that lies inside the 64-bit address space and
whose size is a multiple of 8, followed by any sequence of returning `mymalloc`,
`myfree` and `myrealloc` calls whose pointer argument is `NULL` or the payload
pointer of a currently allocated block, interleaved with client stores into the
payloads of allocated blocks. -/
inductive Reachable (MAX_REQUEST_SIZE : Nat) : State → Prop where
  | init (s : State) (heap_start heap_size : Nat) :
      heap_start ≠ 0 → heap_start % 8 = 0 → heap_start + heap_size < SIZE_MOD →
      heap_size % 8 = 0 → (myinit s heap_start heap_size).2 = true →
      Reachable MAX_REQUEST_SIZE (myinit s heap_start heap_size).1
  | malloc (s s2 : State) (fuel n p : Nat) :
      Reachable MAX_REQUEST_SIZE s → n < SIZE_MOD →
      mymalloc MAX_REQUEST_SIZE fuel s n = Outcome.ret (s2, p) →
      Reachable MAX_REQUEST_SIZE s2
  | free (s : State) (p : Nat) :
      Reachable MAX_REQUEST_SIZE s → (p = 0 ∨ is_allocated_ptr s p = true) →
      Reachable MAX_REQUEST_SIZE (myfree s p)
  | realloc (s s2 : State) (fuel p n q : Nat) :
      Reachable MAX_REQUEST_SIZE s → (p = 0 ∨ is_allocated_ptr s p = true) → n < SIZE_MOD →
      myrealloc MAX_REQUEST_SIZE fuel s p n = Outcome.ret (s2, q) →
      Reachable MAX_REQUEST_SIZE s2
  | client_store (s : State) (x v : Nat) :
      Reachable MAX_REQUEST_SIZE s → in_allocated_payload s x = true →
      Reachable MAX_REQUEST_SIZE { s with mem := Function.update s.mem x v }

/-! ## Abstract view of a state

A state is described by the list of blocks that tile the segment and by the
list of header addresses on the free list. -/

/-- A block of the segment: header address, payload size and status. -/
structure Block where
  addr : Nat
  size : Nat
  free : Bool

/-- The header word that encodes a block. -/
def Block.word (b : Block) : Nat := if b.free then b.size else b.size + 1

/-- The address just past a block. -/
def Block.stop (b : Block) : Nat := b.addr + 8 + b.size

/-- The blocks of the list follow one another from `a` up to `e`. -/
def Contig : Nat → List Block → Nat → Prop
  | a, [], e => a = e
  | a, b :: bs, e => b.addr = a ∧ Contig b.stop bs e

/-- The header stored in memory encodes the block, whose payload is a multiple
of 8 and at least 16 bytes. -/
def GoodBlock (m : Mem) (b : Block) : Prop :=
  load64 m b.addr = b.word ∧ b.size % 8 = 0 ∧ 16 ≤ b.size

/-- The doubly linked segment: starting at `h`, whose predecessor is `p`, the
`next` links visit exactly the nodes of the list and then reach `t`; every
node is non-null and its `prev` link is its predecessor. -/
def Seg (m : Mem) : Nat → Nat → List Nat → Nat → Prop
  | _, h, [], t => h = t
  | p, h, a :: l, t => h = a ∧ a ≠ 0 ∧ get_prev_free m a = p ∧ Seg m a (get_next_free m a) l t

/-- Two list nodes whose link fields cannot overlap. -/
def Apart (a b : Nat) : Prop := a + 24 ≤ b ∨ b + 24 ≤ a

/-- The last node of a list, or `p` for the empty list. -/
def lastOr : Nat → List Nat → Nat
  | p, [] => p
  | _, a :: l => lastOr a l

/-- The shape of a state: the blocks `bs` tile the segment and the nodes `l`,
all of them block headers, form the free list. -/
structure Geom (s : State) (bs : List Block) (l : List Nat) : Prop where
  start_ge : 8 ≤ s.segment_start
  bound : s.segment_start + s.segment_size < SIZE_MOD
  end_eq : s.end_heap = s.segment_start + s.segment_size
  contig : Contig s.segment_start bs s.end_heap
  good : ∀ b ∈ bs, GoodBlock s.mem b
  chain : Seg s.mem 0 s.first_free_ptr l 0
  nodup : l.Nodup
  sub : ∀ a ∈ l, a ∈ bs.map Block.addr

/-- The full invariant: the shape, the free list holds exactly the free blocks,
and the counters count the free and the allocated blocks. -/
structure Inv (s : State) (bs : List Block) (l : List Nat) : Prop where
  geom : Geom s bs l
  free_iff : ∀ b ∈ bs, (b.addr ∈ l ↔ b.free = true)
  cnt_free : s.count_free = (bs.filter (fun b => b.free)).length
  cnt_alloc : s.count_allocated = (bs.filter (fun b => !b.free)).length

/-- The request size that `mymalloc` and `myrealloc` search for: the request
rounded up to a multiple of `HEADER_SIZE`, and 16 when that is less than 16. -/
def rounded_request (n : Nat) : Nat :=
  if roundup n HEADER_SIZE < 16 then 16 else roundup n HEADER_SIZE

/-- The state after a successful `mymalloc` that selected the free block `b`
for the rounded size `r`: the block is split when `b.size - r ≥ 24`, kept
whole otherwise, and memory changes only inside `b` and in the link fields of
the other free-list nodes. -/
def MallocPost (s : State) (bs1 : List Block) (b : Block) (bs2 : List Block)
    (l1 l2 : List Nat) (r : Nat) (s2 : State) : Prop :=
  (if b.size - r ≥ 24 then
      Inv s2 (bs1 ++ (Block.mk b.addr r false) ::
          (Block.mk (b.addr + 8 + r) (b.size - r - 8) true) :: bs2)
        ((b.addr + 8 + r) :: (l1 ++ l2))
    else Inv s2 (bs1 ++ (Block.mk b.addr b.size false) :: bs2) (l1 ++ l2)) ∧
  (∀ x, (x < b.addr ∨ b.stop ≤ x) → (∀ a ∈ l1 ++ l2, x < a + 8 ∨ a + 24 ≤ x) →
    s2.mem x = s.mem x)

/-! ## Example states

A segment of 1024 bytes at address 4096, with request ceiling `2 ^ 30`. -/

/-- An example value of `MAX_REQUEST_SIZE`. -/
def ex_max : Nat := 1073741824

/-- The state before `myinit`: memory and variables are all zero. -/
def ex_s0 : State := ⟨fun _ => 0, 0, 0, 0, 0, 0, 0⟩

/-- The state after `myinit(4096, 1024)`. -/
def ex_init : State := (myinit ex_s0 4096 1024).1

/-- The state after `mymalloc(n)` with 16 units of fuel. -/
def after_malloc (s : State) (n : Nat) : State :=
  match mymalloc ex_max 16 s n with
  | Outcome.ret (s2, _) => s2
  | _ => s

/-- The state after `myrealloc(p, n)` with 16 units of fuel. -/
def after_realloc (s : State) (p n : Nat) : State :=
  match myrealloc ex_max 16 s p n with
  | Outcome.ret (s2, _) => s2
  | _ => s

/-- The state after `mymalloc(40)` on the fresh segment. -/
def ex_m40 : State := after_malloc ex_init 40

/-- Four allocations of 16, 16, 40 and 16 bytes: blocks at 4096, 4120, 4144
and 4192, and a free remainder at 4216. -/
def ex_four : State := after_malloc (after_malloc (after_malloc (after_malloc ex_init 16) 16) 40) 16

/-- The second and then the third block are released: the free list is
4144, 4120, 4216. -/
def ex_holes : State := myfree (myfree ex_four 4128) 4152

/-- The state after the coalescing loop of `myrealloc` on the first block:
the two free blocks that follow it are absorbed. -/
def ex_coalesced : State :=
  match coalesce_loop 16 ex_holes 4096 with
  | Outcome.ret s1 => s1
  | _ => ex_holes

/-- The first block is resized to 64 bytes. -/
def ex_resized : State := after_realloc ex_holes 4104 64

/-! ## The heap validator -/

/-- The `while ((char*)current < heap_end)` loop of `validate_heap`: `none` when
one of the two checks inside the loop makes the function return false, and
otherwise the address on which the walk stops with the two tallies. -/
def validate_heap_loop : Nat → Mem → Nat → Nat → Nat → Nat → Outcome (Option (Nat × Nat × Nat))
  | 0, _, _, _, _, _ => Outcome.timeout
  | fuel + 1, m, heap_end, current, total_allocated, total_free =>
    if current < heap_end then
      let payload := get_payload_size m current
      if payload < 8 then Outcome.ret none
      else if payload % 8 ≠ 0 then Outcome.ret none
      else if is_free m current = true then
        validate_heap_loop fuel m heap_end (next_header m current) total_allocated
          (add64 total_free 1)
      else
        validate_heap_loop fuel m heap_end (next_header m current) (add64 total_allocated 1)
          total_free
    else Outcome.ret (some (current, total_allocated, total_free))

/-- Function `validate_heap`: the state after the call, the returned flag, and
whether the counter diagnostic was printed. The function writes no file-scope
variable and no byte of the segment. The pointer `heap_end` is
`segment_start + segment_size` modulo `2 ^ 64`. -/
def validate_heap (fuel : Nat) (s : State) : Outcome (State × Bool × Bool) :=
  match validate_heap_loop fuel s.mem (add64 s.segment_start s.segment_size)
      s.segment_start 0 0 with
  | Outcome.timeout => Outcome.timeout
  | Outcome.fault => Outcome.fault
  | Outcome.ret none => Outcome.ret (s, false, false)
  | Outcome.ret (some (current, total_allocated, total_free)) =>
    if current ≠ add64 s.segment_start s.segment_size then
      Outcome.ret (s, false,
        decide (total_free ≠ s.count_free ∨ total_allocated ≠ s.count_allocated))
    else
      Outcome.ret (s, true,
        decide (total_free ≠ s.count_free ∨ total_allocated ≠ s.count_allocated))

/-- The header reached by the physical walk from `start` after `k` steps; every
step is `next_header`, a 64-bit pointer. -/
def walk_at (m : Mem) (start : Nat) : Nat → Nat
  | 0 => start
  | k + 1 => next_header m (walk_at m start k)

/-- The first `k` blocks of the physical walk start before `heap_end` and have
a payload size that is at least 8 and a multiple of 8. -/
def walk_sound (m : Mem) (start heap_end k : Nat) : Prop :=
  ∀ j, j < k → walk_at m start j < heap_end ∧ 8 ≤ get_payload_size m (walk_at m start j) ∧
    get_payload_size m (walk_at m start j) % 8 = 0

/-- A structural defect: after some sound blocks the physical walk meets a block
inside the segment whose payload size is below 8 or not a multiple of 8, or it
steps past the segment end. -/
def structural_defect (m : Mem) (start heap_end : Nat) : Prop :=
  ∃ k, walk_sound m start heap_end k ∧
    ((walk_at m start k < heap_end ∧ (get_payload_size m (walk_at m start k) < 8 ∨
        get_payload_size m (walk_at m start k) % 8 ≠ 0)) ∨
      heap_end < walk_at m start k)

/-- The physical walk stops: after some sound blocks it reaches an address that
is not below `heap_end`, or a block whose payload size is below 8 or not a
multiple of 8. -/
def walk_stops (m : Mem) (start heap_end : Nat) : Prop :=
  ∃ k, walk_sound m start heap_end k ∧
    ¬ (walk_at m start k < heap_end ∧ 8 ≤ get_payload_size m (walk_at m start k) ∧
      get_payload_size m (walk_at m start k) % 8 = 0)

/-- No step of the physical walk wraps around the 64-bit address space: for
every block that the walk visits inside the segment, the header address plus 8
plus the decoded payload size is below `2 ^ 64`. -/
def walk_no_wrap (m : Mem) (start heap_end : Nat) : Prop :=
  ∀ k, walk_sound m start heap_end k → walk_at m start k < heap_end →
    walk_at m start k + 8 + get_payload_size m (walk_at m start k) < SIZE_MOD

/-- The fresh 1024-byte segment at 4096 whose first header has been overwritten
with the word `2 ^ 64 - 8`: the decoded payload size is a multiple of 8, and
the address of the next header wraps around to 4096. -/
def ex_cycle : State := { ex_init with mem := store64 ex_init.mem 4096 18446744073709551608 }

/-! ## The list operations refined by the free list -/

/-- The list operation `insert_head`: the new block becomes the first element. -/
def spec_insert_head (b : Nat) (L : List Nat) : List Nat := b :: L

/-- The list operation `remove`: the block is erased and the order of the
other blocks is kept. -/
def spec_remove (b : Nat) (L : List Nat) : List Nat := L.erase b

/-- The memory reachable from `first_free_ptr` is a well-formed doubly linked
list that represents the sequence `L` of distinct blocks: the `next` links
visit `L` in order and end in `NULL`, the head has no `prev`, the `prev` link
of every successor is its predecessor; the blocks are distinct blocks of a
64-bit address space, so their headers are at least 24 bytes apart. -/
def Represents (s : State) (L : List Nat) : Prop :=
  Seg s.mem 0 s.first_free_ptr L 0 ∧ L.Pairwise Apart ∧ ∀ a ∈ L, a < SIZE_MOD

/-- The state after `myfree` of the first block of the state with two holes:
the block absorbs the hole at 4120 and not the hole at 4144. -/
def ex_released : State := myfree ex_holes 4104

/-- The largest `size_t` value, `2 ^ 64 - 1`. -/
def ex_size_max : Nat := 18446744073709551615

/-- The state after `myrealloc(4104, SIZE_MAX)` on the state after `mymalloc(40)`. -/
def ex_wrapped : State := after_realloc ex_m40 4104 ex_size_max

/-- The state after the coalescing loop of `myrealloc` on the block at 4096 of
the state after `mymalloc(40)`: the free remainder is absorbed. -/
def ex_m40_coalesced : State :=
  match coalesce_loop 16 ex_m40 4096 with
  | Outcome.ret s1 => s1
  | _ => ex_m40

/-- The effect on the allocated block with header `B` of a call that takes the
state `s` to `s2` and returns the pointer `p`: the header and every payload
byte of the block are unchanged, the block is still allocated, and when `p` is
not `NULL` the payload region that `p` designates after the call is disjoint
from the payload of the block. -/
def Undisturbed (s s2 : State) (B p : Nat) : Prop :=
  (∀ x, B ≤ x → x < next_header s.mem B → s2.mem x = s.mem x) ∧
  is_allocated_ptr s2 (header_to_payload B) = true ∧
  (p ≠ 0 → p + get_payload_size s2.mem (payload_to_header p) ≤ header_to_payload B ∨
    next_header s.mem B ≤ p)

/-- The state after `myrealloc(4104, 16)` on the state after `mymalloc(40)`. -/
def ex_shrunk : State := after_realloc ex_m40 4104 16

/-- The state after `myrealloc(4104, 72)` on the state with two holes: the first
block absorbs both holes and keeps the whole payload of 88 bytes. -/
def ex_grown : State := after_realloc ex_holes 4104 72

/-! # Verification

## Memory and machine words -/

theorem load64_lt (m : Mem) (a : Nat) : load64 m a < SIZE_MOD := by
  unfold load64 SIZE_MOD; omega

theorem store64_byte_other (m : Mem) (a v x : Nat) (h : x < a ∨ a + 8 ≤ x) :
    store64 m a v x = m x := by
  unfold store64
  rw [if_neg]; omega

theorem load64_congr (m m2 : Mem) (a : Nat) (h : ∀ i, i < 8 → m2 (a + i) = m (a + i)) :
    load64 m2 a = load64 m a := by
  unfold load64
  have h0 := h 0 (by omega)
  rw [Nat.add_zero] at h0
  rw [h0, h 1 (by omega), h 2 (by omega), h 3 (by omega), h 4 (by omega), h 5 (by omega),
    h 6 (by omega), h 7 (by omega)]

theorem load64_store64_other (m : Mem) (a v b : Nat) (h : b + 8 ≤ a ∨ a + 8 ≤ b) :
    load64 (store64 m a v) b = load64 m b := by
  apply load64_congr
  intro i hi
  apply store64_byte_other
  omega

theorem load64_store64_same (m : Mem) (a v : Nat) :
    load64 (store64 m a v) a = v % SIZE_MOD := by
  unfold load64 store64 SIZE_MOD
  simp only [Nat.le_refl, Nat.le_add_right, true_and, Nat.lt_add_right_iff_pos, Nat.add_lt_add_iff_left,
    Nat.add_sub_cancel_left, Nat.sub_self, Nat.reducePow, Nat.reduceLT, if_true, Nat.pow_zero, Nat.div_one, Nat.lt_add_one, Nat.zero_lt_succ]
  omega


theorem land_one (w : Nat) : w &&& 1 = w % 2 := Nat.and_one_is_mod w

theorem lor_one_even (w : Nat) (h : w % 2 = 0) : w ||| 1 = w + 1 := by
  apply Nat.eq_of_testBit_eq
  intro i
  rw [Nat.testBit_or]
  cases i with
  | zero =>
    simp [Nat.testBit_zero]
    omega
  | succ i =>
    simp only [Nat.testBit_succ]
    have h1 : (w + 1) / 2 = w / 2 := by omega
    rw [h1]
    simp

theorem lor_one_odd (w : Nat) (h : w % 2 = 1) : w ||| 1 = w := by
  apply Nat.eq_of_testBit_eq
  intro i
  rw [Nat.testBit_or]
  cases i with
  | zero => simp [Nat.testBit_zero, h]
  | succ i => simp [Nat.testBit_succ]

/-- Masking with `2 ^ 64 - 2 ^ k` clears the low `k` bits of a 64-bit word. -/
theorem land_mask (w k : Nat) (hk : k ≤ 64) (hw : w < 2 ^ 64) :
    w &&& (2 ^ 64 - 2 ^ k) = w / 2 ^ k * 2 ^ k := by
  apply Nat.eq_of_testBit_eq
  intro i
  have hmask : 2 ^ 64 - 2 ^ k = 2 ^ k * (2 ^ (64 - k) - 1) := by
    rw [Nat.mul_sub, ← Nat.pow_add, Nat.mul_one]
    congr 2
    omega
  rw [Nat.testBit_and, hmask, Nat.testBit_mul_pow_two, Nat.mul_comm (w / 2 ^ k),
    Nat.testBit_mul_pow_two, Nat.testBit_two_pow_sub_one, ← Nat.shiftRight_eq_div_pow,
    Nat.testBit_shiftRight]
  by_cases hik : k ≤ i
  · by_cases hi : i < 64
    · have : i - k < 64 - k := by omega
      have e : k + (i - k) = i := by omega
      simp [hik, this, e]
    · have : ¬ (i - k < 64 - k) := by omega
      have hwi : w.testBit i = false := by
        apply Nat.testBit_lt_two_pow
        calc w < 2 ^ 64 := hw
          _ ≤ 2 ^ i := Nat.pow_le_pow_right (by omega) (by omega)
      simp [hik, this, hwi]
  · simp [hik]

theorem land_not_one (w : Nat) (hw : w < SIZE_MOD) : w &&& (SIZE_MOD - 2) = w - w % 2 := by
  have h := land_mask w 1 (by omega) (by unfold SIZE_MOD at hw; omega)
  simp only [Nat.pow_one] at h
  unfold SIZE_MOD
  have e : (18446744073709551616 : Nat) - 2 = 2 ^ 64 - 2 := by norm_num
  rw [e, h]
  omega

theorem roundup_eight (sz : Nat) :
    roundup sz 8 = (sz + 7) % SIZE_MOD / 8 * 8 := by
  unfold roundup
  have h := land_mask ((sz + 7) % SIZE_MOD) 3 (by omega)
    (by have := Nat.mod_lt (sz + 7) (show 0 < SIZE_MOD by unfold SIZE_MOD; omega)
        unfold SIZE_MOD at this ⊢; omega)
  have e1 : sub64 (add64 sz 8) 1 = (sz + 7) % SIZE_MOD := by
    unfold sub64 add64 SIZE_MOD; split <;> omega
  have e2 : SIZE_MOD - 1 - sub64 8 1 = 2 ^ 64 - 2 ^ 3 := by
    unfold sub64 SIZE_MOD; norm_num
  rw [e1, e2, h]
  norm_num

/-! ## Blocks -/


theorem GoodBlock.word_lt {m : Mem} {b : Block} (h : GoodBlock m b) : b.word < SIZE_MOD := by
  rw [← h.1]; exact load64_lt m b.addr

theorem GoodBlock.size_lt {m : Mem} {b : Block} (h : GoodBlock m b) : b.size + 1 < SIZE_MOD := by
  have h1 := h.word_lt
  have h2 := h.2.1
  unfold Block.word at h1
  unfold SIZE_MOD at h1 ⊢
  split at h1 <;> omega

theorem GoodBlock.is_free_eq {m : Mem} {b : Block} (h : GoodBlock m b) :
    is_free m b.addr = b.free := by
  unfold is_free
  rw [h.1, land_one]
  have h2 := h.2.1
  unfold Block.word
  cases hb : b.free <;> simp <;> omega

theorem GoodBlock.payload_eq {m : Mem} {b : Block} (h : GoodBlock m b) :
    get_payload_size m b.addr = b.size := by
  unfold get_payload_size
  rw [land_not_one _ (load64_lt m b.addr), h.1]
  have h2 := h.2.1
  unfold Block.word
  cases hb : b.free <;> simp <;> omega

/-- Without a wrap-around of the address, `next_header` is the mathematical sum. -/
theorem next_header_eq (m : Mem) (c : Nat)
    (h : c + 8 + get_payload_size m c < SIZE_MOD) :
    next_header m c = c + 8 + get_payload_size m c := by
  unfold next_header HEADER_SIZE add64
  rw [Nat.mod_eq_of_lt (a := c + 8) (by omega), Nat.mod_eq_of_lt h]

theorem GoodBlock.next_eq {m : Mem} {b : Block} (h : GoodBlock m b) (hb : b.stop < SIZE_MOD) :
    next_header m b.addr = b.stop := by
  rw [Block.stop] at hb ⊢
  rw [next_header_eq m b.addr (by rw [h.payload_eq]; exact hb), h.payload_eq]

/-- Storing the header word of a block makes the block good. -/
theorem goodBlock_store (m : Mem) (b : Block) (h8 : b.size % 8 = 0) (h16 : 16 ≤ b.size)
    (hlt : b.size + 1 < SIZE_MOD) : GoodBlock (store64 m b.addr b.word) b := by
  refine ⟨?_, h8, h16⟩
  rw [load64_store64_same]
  apply Nat.mod_eq_of_lt
  unfold Block.word
  split <;> omega

theorem set_header_eq (m : Mem) (a sz : Nat) (fr : Bool) (h : sz % 2 = 0) :
    set_header m a sz fr = store64 m a (Block.word ⟨a, sz, fr⟩) := by
  unfold set_header Block.word
  cases fr
  · simp [lor_one_even sz h]
  · simp

/-! ### Contiguous block lists -/

theorem contig_append (a e : Nat) (bs1 bs2 : List Block) :
    Contig a (bs1 ++ bs2) e ↔ ∃ mid, Contig a bs1 mid ∧ Contig mid bs2 e := by
  induction bs1 generalizing a with
  | nil => simp [Contig]
  | cons b bs ih =>
    show (b.addr = a ∧ Contig b.stop (bs ++ bs2) e) ↔
      ∃ mid, (b.addr = a ∧ Contig b.stop bs mid) ∧ Contig mid bs2 e
    rw [ih]
    constructor
    · rintro ⟨h1, mid, h2, h3⟩
      exact ⟨mid, ⟨h1, h2⟩, h3⟩
    · rintro ⟨mid, ⟨h1, h2⟩, h3⟩
      exact ⟨h1, mid, h2, h3⟩

theorem contig_le {a e : Nat} {bs : List Block} (h : Contig a bs e) : a + 8 * bs.length ≤ e := by
  induction bs generalizing a with
  | nil => simp [Contig] at h; simp [h]
  | cons b bs ih =>
    have h2 := ih h.2
    have h1 := h.1
    simp only [List.length_cons, Block.stop] at h2 ⊢
    omega

theorem contig_mem {a e : Nat} {bs : List Block} (h : Contig a bs e) {b : Block} (hb : b ∈ bs) :
    a ≤ b.addr ∧ b.stop ≤ e := by
  induction bs generalizing a with
  | nil => cases hb
  | cons c bs ih =>
    have hle := contig_le h.2
    rcases List.mem_cons.1 hb with rfl | hb
    · have := h.1
      simp only [Block.stop] at hle ⊢
      omega
    · have := ih h.2 hb
      have h1 := h.1
      simp only [Block.stop] at this ⊢
      omega

theorem contig_mid {a e : Nat} {bs1 bs2 : List Block} {b : Block}
    (h : Contig a (bs1 ++ b :: bs2) e) : Contig a bs1 b.addr ∧ Contig b.stop bs2 e := by
  obtain ⟨mid, h1, h2⟩ := (contig_append a e bs1 (b :: bs2)).1 h
  have := h2.1
  subst this
  exact ⟨h1, h2.2⟩

theorem contig_join {a e : Nat} {bs1 bs2 : List Block} {b : Block}
    (h1 : Contig a bs1 b.addr) (h2 : Contig b.stop bs2 e) : Contig a (bs1 ++ b :: bs2) e :=
  (contig_append a e bs1 (b :: bs2)).2 ⟨b.addr, h1, rfl, h2⟩

/-- Blocks left of the middle block end before it, blocks right of it start after it. -/
theorem contig_sides {a e : Nat} {bs1 bs2 : List Block} {b : Block}
    (h : Contig a (bs1 ++ b :: bs2) e) {c : Block} (hc : c ∈ bs1 ++ b :: bs2) :
    c.stop ≤ b.addr ∨ c = b ∨ b.stop ≤ c.addr := by
  obtain ⟨h1, h2⟩ := contig_mid h
  rcases List.mem_append.1 hc with hc | hc
  · exact Or.inl (contig_mem h1 hc).2
  · rcases List.mem_cons.1 hc with rfl | hc
    · exact Or.inr (Or.inl rfl)
    · exact Or.inr (Or.inr (contig_mem h2 hc).1)


/-! ## The free list -/

theorem get_prev_free_eq (m : Mem) (a : Nat) : get_prev_free m a = load64 m (a + 8) := rfl
theorem get_next_free_eq (m : Mem) (a : Nat) : get_next_free m a = load64 m (a + 16) := rfl
theorem set_prev_free_eq (m : Mem) (a v : Nat) : set_prev_free m a v = store64 m (a + 8) v := rfl
theorem set_next_free_eq (m : Mem) (a v : Nat) : set_next_free m a v = store64 m (a + 16) v := rfl

theorem Apart.symm {a b : Nat} (h : Apart a b) : Apart b a := Or.symm h

theorem lastOr_mem (p : Nat) (l : List Nat) (h : l ≠ []) : lastOr p l ∈ l := by
  induction l generalizing p with
  | nil => exact absurd rfl h
  | cons a l ih =>
    cases l with
    | nil => simp [lastOr]
    | cons b l => exact List.mem_cons_of_mem _ (ih a (by simp))

theorem lastOr_append_cons (p c : Nat) (l1 l2 : List Nat) :
    lastOr p (l1 ++ c :: l2) = lastOr c l2 := by
  induction l1 generalizing p with
  | nil => rfl
  | cons a l ih => exact ih a

/-- A segment only depends on the link fields of its nodes. -/
theorem seg_frame {m m2 : Mem} {p h t : Nat} {l : List Nat}
    (hm : ∀ a ∈ l, ∀ x, a + 8 ≤ x → x < a + 24 → m2 x = m x)
    (hs : Seg m p h l t) : Seg m2 p h l t := by
  induction l generalizing p h with
  | nil => exact hs
  | cons a l ih =>
    obtain ⟨h1, h2, h3, h4⟩ := hs
    have ha := hm a (List.mem_cons_self a l)
    have e1 : get_prev_free m2 a = get_prev_free m a := by
      rw [get_prev_free_eq, get_prev_free_eq]
      exact load64_congr _ _ _ (fun i hi => ha _ (by omega) (by omega))
    have e2 : get_next_free m2 a = get_next_free m a := by
      rw [get_next_free_eq, get_next_free_eq]
      exact load64_congr _ _ _ (fun i hi => ha _ (by omega) (by omega))
    refine ⟨h1, h2, e1.trans h3, ?_⟩
    rw [e2]
    exact ih (fun b hb => hm b (List.mem_cons_of_mem a hb)) h4

theorem seg_store {m : Mem} {p h t : Nat} {l : List Nat} (y v : Nat)
    (hy : ∀ a ∈ l, y + 8 ≤ a + 8 ∨ a + 24 ≤ y)
    (hs : Seg m p h l t) : Seg (store64 m y v) p h l t := by
  apply seg_frame _ hs
  intro a ha x h1 h2
  apply store64_byte_other
  have := hy a ha
  omega

theorem seg_append {m : Mem} {p h t : Nat} {l1 l2 : List Nat} :
    Seg m p h (l1 ++ l2) t ↔ ∃ mid, Seg m p h l1 mid ∧ Seg m (lastOr p l1) mid l2 t := by
  induction l1 generalizing p h with
  | nil => simp [Seg, lastOr]
  | cons a l ih =>
    show (h = a ∧ a ≠ 0 ∧ get_prev_free m a = p ∧ Seg m a (get_next_free m a) (l ++ l2) t) ↔
      ∃ mid, (h = a ∧ a ≠ 0 ∧ get_prev_free m a = p ∧ Seg m a (get_next_free m a) l mid) ∧
        Seg m (lastOr a l) mid l2 t
    rw [ih]
    constructor
    · rintro ⟨h1, h2, h3, mid, h4, h5⟩
      exact ⟨mid, ⟨h1, h2, h3, h4⟩, h5⟩
    · rintro ⟨mid, ⟨h1, h2, h3, h4⟩, h5⟩
      exact ⟨h1, h2, h3, mid, h4, h5⟩

/-- Redirecting the `next` link of the last node of a segment. -/
theorem seg_store_last {m : Mem} {p h t : Nat} {l : List Nat} (v : Nat)
    (hne : l ≠ []) (hap : l.Pairwise Apart) (hv : v < SIZE_MOD)
    (hs : Seg m p h l t) : Seg (store64 m (lastOr p l + 16) v) p h l v := by
  induction l generalizing p h with
  | nil => exact absurd rfl hne
  | cons a l ih =>
    obtain ⟨h1, h2, h3, h4⟩ := hs
    cases l with
    | nil =>
      refine ⟨h1, h2, ?_, ?_⟩
      · rw [get_prev_free_eq] at h3 ⊢
        show load64 (store64 m (a + 16) v) (a + 8) = p
        rw [load64_store64_other _ _ _ _ (by omega)]
        exact h3
      · show get_next_free (store64 m (a + 16) v) a = v
        rw [get_next_free_eq, load64_store64_same]
        exact Nat.mod_eq_of_lt hv
    | cons b l =>
      have hlast : lastOr a (b :: l) ∈ b :: l := lastOr_mem a (b :: l) (by simp)
      have hap1 := (List.pairwise_cons.1 hap).1 _ hlast
      have hap2 := (List.pairwise_cons.1 hap).2
      have ih1 := ih (p := a) (h := get_next_free m a) (by simp) hap2 h4
      show Seg (store64 m (lastOr a (b :: l) + 16) v) p h (a :: b :: l) v
      refine ⟨h1, h2, ?_, ?_⟩
      · rw [get_prev_free_eq] at h3 ⊢
        rw [load64_store64_other _ _ _ _ (by unfold Apart at hap1; omega)]
        exact h3
      · have e : get_next_free (store64 m (lastOr a (b :: l) + 16) v) a = get_next_free m a := by
          rw [get_next_free_eq, get_next_free_eq]
          exact load64_store64_other _ _ _ _ (by unfold Apart at hap1; omega)
        rw [e]
        exact ih1

/-- Redirecting the `prev` link of the first node of a segment. -/
theorem seg_store_head {m : Mem} {p h t a : Nat} {l : List Nat} (q : Nat)
    (hap : ∀ b ∈ l, Apart a b) (hq : q < SIZE_MOD)
    (hs : Seg m p h (a :: l) t) : Seg (store64 m (a + 8) q) q h (a :: l) t := by
  obtain ⟨h1, h2, _, h4⟩ := hs
  refine ⟨h1, h2, ?_, ?_⟩
  · rw [get_prev_free_eq, load64_store64_same]
    exact Nat.mod_eq_of_lt hq
  · have e : get_next_free (store64 m (a + 8) q) a = get_next_free m a := by
      rw [get_next_free_eq, get_next_free_eq]
      exact load64_store64_other _ _ _ _ (by omega)
    rw [e]
    apply seg_store _ _ _ h4
    intro b hb
    have := hap b hb
    unfold Apart at this
    omega


theorem seg_ne_zero {m : Mem} {p h t : Nat} {l : List Nat} (hs : Seg m p h l t) :
    ∀ a ∈ l, a ≠ 0 := by
  induction l generalizing p h with
  | nil => intro a ha; cases ha
  | cons b l ih =>
    intro a ha
    rcases List.mem_cons.1 ha with rfl | ha
    · exact hs.2.1
    · exact ih hs.2.2.2 a ha

theorem seg_head {m : Mem} {p h t a : Nat} {l : List Nat} (hs : Seg m p h (a :: l) t) : h = a :=
  hs.1

/-- What `remove_free_node` computes when the neighbours of the node are apart from it. -/
theorem remove_free_node_eq (s : State) (c : Nat)
    (hq : get_prev_free s.mem c = 0 ∨ Apart (get_prev_free s.mem c) c)
    (hn : get_next_free s.mem c = 0 ∨ Apart (get_next_free s.mem c) c) :
    remove_free_node s c =
      { s with
        mem :=
          if get_next_free s.mem c ≠ 0 then
            store64 (if get_prev_free s.mem c ≠ 0 then
                store64 s.mem (get_prev_free s.mem c + 16) (get_next_free s.mem c) else s.mem)
              (get_next_free s.mem c + 8) (get_prev_free s.mem c)
          else
            (if get_prev_free s.mem c ≠ 0 then
                store64 s.mem (get_prev_free s.mem c + 16) (get_next_free s.mem c) else s.mem)
        first_free_ptr := if s.first_free_ptr = c then get_next_free s.mem c else s.first_free_ptr } := by
  generalize hqd : get_prev_free s.mem c = q at hq ⊢
  generalize hnd : get_next_free s.mem c = n at hn ⊢
  have e1 : ∀ v, q ≠ 0 → get_next_free (store64 s.mem (q + 16) v) c = n := by
    intro v hq0
    have hq := hq.resolve_left hq0
    rw [get_next_free_eq, load64_store64_other _ _ _ _ (by unfold Apart at hq; omega)]
    exact hnd
  have e2 : ∀ v, q ≠ 0 → get_prev_free (store64 s.mem (q + 16) v) c = q := by
    intro v hq0
    have hq := hq.resolve_left hq0
    rw [get_prev_free_eq, load64_store64_other _ _ _ _ (by unfold Apart at hq; omega)]
    exact hqd
  have e3 : ∀ (m : Mem) v, n ≠ 0 → get_next_free m c = n →
      get_next_free (store64 m (n + 8) v) c = n := by
    intro m v hn0 hm
    have hn := hn.resolve_left hn0
    rw [get_next_free_eq, load64_store64_other _ _ _ _ (by unfold Apart at hn; omega)]
    exact hm
  unfold remove_free_node
  simp only [hqd, hnd, set_next_free_eq, set_prev_free_eq]
  by_cases hf : s.first_free_ptr = c <;> by_cases hq0 : q = 0 <;> by_cases hn0 : n = 0
  · subst hq0 hn0; simp [hnd, hf]
  · subst hq0; simp [hnd, hn0, hqd, hf, e3 s.mem 0 hn0 hnd]
  · subst hn0; simp [hq0, e1 0 hq0, hf]
  · simp [hq0, hn0, e1 n hq0, e2 n hq0, e3 _ q hn0 (e1 n hq0), hf]
  · subst hq0 hn0; simp [hnd, hf]
  · subst hq0; simp [hnd, hn0, hqd, hf, e3 s.mem 0 hn0 hnd]
  · subst hn0; simp [hq0, e1 0 hq0, hf]
  · simp [hq0, hn0, e1 n hq0, e2 n hq0, e3 _ q hn0 (e1 n hq0), hf]


theorem remove_free_node_fields (s : State) (c : Nat) :
    (remove_free_node s c).segment_start = s.segment_start ∧
    (remove_free_node s c).segment_size = s.segment_size ∧
    (remove_free_node s c).end_heap = s.end_heap ∧
    (remove_free_node s c).count_free = s.count_free ∧
    (remove_free_node s c).count_allocated = s.count_allocated := by
  unfold remove_free_node
  simp only
  split_ifs <;> exact ⟨rfl, rfl, rfl, rfl, rfl⟩

/-- The effect of `remove_free_node` on a well-formed free list `l1 ++ c :: l2`. -/
theorem remove_free_node_seg (s : State) (l1 l2 : List Nat) (c : Nat)
    (hseg : Seg s.mem 0 s.first_free_ptr (l1 ++ c :: l2) 0)
    (hap : (l1 ++ c :: l2).Pairwise Apart) :
    Seg (remove_free_node s c).mem 0 (remove_free_node s c).first_free_ptr (l1 ++ l2) 0 ∧
    (∀ x, (∀ a ∈ l1 ++ l2, x < a + 8 ∨ a + 24 ≤ x) →
      (remove_free_node s c).mem x = s.mem x) := by
  obtain ⟨mid, hs1, hmid, hc0, hprev, hs2⟩ := seg_append.1 hseg
  subst hmid
  obtain ⟨hap1, hap2, hap12⟩ := List.pairwise_append.1 hap
  obtain ⟨hapc, hap2⟩ := List.pairwise_cons.1 hap2
  have hq : get_prev_free s.mem mid = 0 ∨ Apart (get_prev_free s.mem mid) mid := by
    rw [hprev]
    cases l1 with
    | nil => left; rfl
    | cons a l => right; exact hap12 _ (lastOr_mem 0 _ (by simp)) _ (List.mem_cons_self _ _)
  have hn : get_next_free s.mem mid = 0 ∨ Apart (get_next_free s.mem mid) mid := by
    cases l2 with
    | nil => left; exact hs2
    | cons a l => right; rw [seg_head hs2]; exact (hapc a (List.mem_cons_self _ _)).symm
  have hqlt : get_prev_free s.mem mid < SIZE_MOD := load64_lt _ _
  have hnlt : get_next_free s.mem mid < SIZE_MOD := load64_lt _ _
  rw [remove_free_node_eq s mid hq hn]
  cases l1 with
  | nil =>
    have hp0 : get_prev_free s.mem mid = 0 := hprev
    have hf : s.first_free_ptr = mid := hs1
    cases l2 with
    | nil =>
      have hn0 : get_next_free s.mem mid = 0 := hs2
      simp only [hp0, hn0, hf]
      exact ⟨rfl, fun x _ => rfl⟩
    | cons a2 l3 =>
      have hn2 : get_next_free s.mem mid = a2 := seg_head hs2
      have ha2 : a2 ≠ 0 := hs2.2.1
      rw [hn2] at hs2
      simp only [hp0, hn2, hf, ne_eq, ha2, not_false_eq_true, if_true, not_true_eq_false, if_false,
        List.nil_append]
      refine ⟨seg_store_head 0 (List.pairwise_cons.1 hap2).1 (by unfold SIZE_MOD; omega) hs2, ?_⟩
      intro x hx
      apply store64_byte_other
      have := hx a2 (List.mem_cons_self _ _)
      omega
  | cons a l =>
    have hqm : lastOr 0 (a :: l) ∈ a :: l := lastOr_mem 0 _ (by simp)
    have hq0 : lastOr 0 (a :: l) ≠ 0 := seg_ne_zero hs1 _ hqm
    have hf : s.first_free_ptr ≠ mid := by
      rw [seg_head hs1]
      have := hap12 a (List.mem_cons_self _ _) mid (List.mem_cons_self _ _)
      unfold Apart at this; omega
    rw [hprev] at hqlt
    cases l2 with
    | nil =>
      have hn0 : get_next_free s.mem mid = 0 := hs2
      simp only [hprev, hn0, hf, ne_eq, hq0, not_false_eq_true, if_true, not_true_eq_false,
        if_false, List.append_nil]
      refine ⟨?_, ?_⟩
      · exact seg_store_last 0 (by simp) hap1 (by unfold SIZE_MOD; omega) hs1
      · intro x hx
        apply store64_byte_other
        have := hx _ hqm
        omega
    | cons a2 l3 =>
      have hn2 : get_next_free s.mem mid = a2 := seg_head hs2
      have ha2 : a2 ≠ 0 := hs2.2.1
      rw [hn2] at hs2 hnlt
      simp only [hprev, hn2, hf, ne_eq, hq0, ha2, not_false_eq_true, if_true, if_false]
      refine ⟨seg_append.2 ⟨a2, ?_, ?_⟩, ?_⟩
      · apply seg_store
        · intro b hb
          have := hap12 b hb a2 (List.mem_cons_of_mem _ (List.mem_cons_self _ _))
          unfold Apart at this; omega
        exact seg_store_last a2 (by simp) hap1 hnlt hs1
      · apply seg_store_head _ (List.pairwise_cons.1 hap2).1 hqlt
        apply seg_store _ _ _ hs2
        intro b hb
        have := hap12 _ hqm b (List.mem_cons_of_mem _ hb)
        unfold Apart at this; omega
      · intro x hx
        have h1 := hx _ (List.mem_append_left _ hqm)
        have h2 := hx a2 (List.mem_append_right _ (List.mem_cons_self _ _))
        rw [store64_byte_other _ _ _ _ (by omega), store64_byte_other _ _ _ _ (by omega)]

/-- The effect of `add_free_node` on a well-formed free list. -/
theorem add_free_node_fields (s : State) (c : Nat) :
    (add_free_node s c).first_free_ptr = c ∧
    (add_free_node s c).segment_start = s.segment_start ∧
    (add_free_node s c).segment_size = s.segment_size ∧
    (add_free_node s c).end_heap = s.end_heap ∧
    (add_free_node s c).count_free = s.count_free ∧
    (add_free_node s c).count_allocated = s.count_allocated :=
  ⟨rfl, rfl, rfl, rfl, rfl, rfl⟩

theorem add_free_node_seg (s : State) (l : List Nat) (c : Nat)
    (hseg : Seg s.mem 0 s.first_free_ptr l 0)
    (hap : ∀ a ∈ l, Apart c a) (hapl : l.Pairwise Apart) (hc0 : c ≠ 0) (hc : c < SIZE_MOD) (hl : ∀ a ∈ l, a < SIZE_MOD) :
    Seg (add_free_node s c).mem 0 (add_free_node s c).first_free_ptr (c :: l) 0 ∧
    (∀ x, (∀ a ∈ c :: l, x < a + 8 ∨ a + 24 ≤ x) → (add_free_node s c).mem x = s.mem x) := by
  unfold add_free_node
  simp only [set_prev_free_eq, set_next_free_eq]
  refine ⟨?_, ?_⟩
  · cases l with
    | nil =>
      have h0 : s.first_free_ptr = 0 := hseg
      simp only [h0, ne_eq, not_true_eq_false, if_false]
      refine ⟨rfl, hc0, ?_, ?_⟩
      · rw [get_prev_free_eq, load64_store64_other _ _ _ _ (by omega), load64_store64_same]
        rfl
      · show get_next_free (store64 (store64 s.mem (c + 8) 0) (c + 16) 0) c = 0
        rw [get_next_free_eq, load64_store64_same]
        rfl
    | cons a l =>
      have hf : s.first_free_ptr = a := seg_head hseg
      have ha0 : a ≠ 0 := hseg.2.1
      have hca := hap a (List.mem_cons_self _ _)
      simp only [hf, ne_eq, ha0, not_false_eq_true, if_true]
      refine ⟨rfl, hc0, ?_, ?_⟩
      · rw [get_prev_free_eq, load64_store64_other _ _ _ _ (by unfold Apart at hca; omega),
          load64_store64_other _ _ _ _ (by omega), load64_store64_same]
        rfl
      · have e : get_next_free (store64 (store64 (store64 s.mem (c + 8) 0) (c + 16) a) (a + 8) c) c
            = a := by
          rw [get_next_free_eq, load64_store64_other _ _ _ _ (by unfold Apart at hca; omega),
            load64_store64_same]
          exact Nat.mod_eq_of_lt (hl a (List.mem_cons_self _ _))
        rw [e]
        rw [hf] at hseg
        have h1 : Seg (store64 (store64 s.mem (c + 8) 0) (c + 16) a) 0 a (a :: l) 0 := by
          apply seg_store
          · intro b hb; have := hap b hb; unfold Apart at this; omega
          apply seg_store
          · intro b hb; have := hap b hb; unfold Apart at this; omega
          exact hseg
        exact seg_store_head c (List.pairwise_cons.1 hapl).1 hc h1
  · intro x hx
    have hcx := hx c (List.mem_cons_self _ _)
    have hA : store64 (store64 s.mem (c + 8) 0) (c + 16) s.first_free_ptr x = s.mem x := by
      rw [store64_byte_other _ _ _ _ (by omega), store64_byte_other _ _ _ _ (by omega)]
    by_cases h0 : s.first_free_ptr = 0
    · simp only [h0, ne_eq, not_true_eq_false, if_false]
      rw [h0] at hA
      exact hA
    · simp only [ne_eq, h0, not_false_eq_true, if_true]
      rw [store64_byte_other, hA]
      cases l with
      | nil => exact absurd hseg h0
      | cons a l =>
        rw [seg_head hseg]
        have := hx a (List.mem_cons_of_mem _ (List.mem_cons_self _ _))
        omega



/-! ## The shape invariant -/

theorem Block.stop_eq (b : Block) : b.stop = b.addr + 8 + b.size := rfl

/-- Two blocks of a contiguous list are equal or disjoint. -/
theorem contig_pair {a e : Nat} {bs : List Block} (h : Contig a bs e) {c d : Block}
    (hc : c ∈ bs) (hd : d ∈ bs) : c = d ∨ c.stop ≤ d.addr ∨ d.stop ≤ c.addr := by
  obtain ⟨bs1, bs2, rfl⟩ := List.append_of_mem hc
  rcases contig_sides h hd with h1 | h1 | h1
  · exact Or.inr (Or.inr h1)
  · exact Or.inl h1.symm
  · exact Or.inr (Or.inl h1)

theorem Geom.mem_bounds {s : State} {bs : List Block} {l : List Nat} (g : Geom s bs l)
    {b : Block} (hb : b ∈ bs) :
    8 ≤ b.addr ∧ b.addr + 24 ≤ b.stop ∧ b.stop ≤ s.end_heap ∧ s.end_heap < SIZE_MOD
      ∧ s.segment_start ≤ b.addr := by
  have h1 := contig_mem g.contig hb
  have h2 := g.start_ge
  have h3 := g.bound
  have h4 := g.end_eq
  have h5 := (g.good b hb).2.2
  rw [Block.stop_eq] at h1 ⊢
  omega

theorem Geom.node {s : State} {bs : List Block} {l : List Nat} (g : Geom s bs l)
    {a : Nat} (ha : a ∈ l) : ∃ b ∈ bs, b.addr = a := by
  have := g.sub a ha
  simpa using this

theorem Geom.node_bounds {s : State} {bs : List Block} {l : List Nat} (g : Geom s bs l)
    {a : Nat} (ha : a ∈ l) : a ≠ 0 ∧ a < SIZE_MOD := by
  obtain ⟨b, hb, rfl⟩ := g.node ha
  have := g.mem_bounds hb
  omega

/-- Two block headers of the tiling are equal or apart. -/
theorem Geom.addr_apart {s : State} {bs : List Block} {l : List Nat} (g : Geom s bs l)
    {c d : Block} (hc : c ∈ bs) (hd : d ∈ bs) (hne : c.addr ≠ d.addr) : Apart c.addr d.addr := by
  have h1 := (g.mem_bounds hc).2.1
  have h2 := (g.mem_bounds hd).2.1
  unfold Apart
  rcases contig_pair g.contig hc hd with h | h | h
  · exact absurd (congrArg Block.addr h) hne
  · left; omega
  · right; omega

theorem Geom.apart {s : State} {bs : List Block} {l : List Nat} (g : Geom s bs l) :
    l.Pairwise Apart := by
  have hnd : l.Pairwise (fun a b => a ≠ b) := g.nodup
  refine List.Pairwise.imp_of_mem ?_ hnd
  intro a b ha hb hne
  obtain ⟨c, hc, rfl⟩ := g.node ha
  obtain ⟨d, hd, rfl⟩ := g.node hb
  exact g.addr_apart hc hd hne

/-- The header of a block lies outside the link fields of every node. -/
theorem Geom.header_outside {s : State} {bs : List Block} {l : List Nat} (g : Geom s bs l)
    {b : Block} (hb : b ∈ bs) {a : Nat} (ha : a ∈ bs.map Block.addr) {x : Nat}
    (h1 : b.addr ≤ x) (h2 : x < b.addr + 8) : x < a + 8 ∨ a + 24 ≤ x := by
  obtain ⟨c, hc, rfl⟩ : ∃ c ∈ bs, c.addr = a := by simpa using ha
  have h3 := (g.mem_bounds hc).2.1
  have h4 := (g.mem_bounds hb).2.1
  rcases contig_pair g.contig hb hc with h | h | h
  · subst h; omega
  · omega
  · omega

theorem goodBlock_frame {m m2 : Mem} {b : Block} (h : GoodBlock m b)
    (hm : ∀ x, b.addr ≤ x → x < b.addr + 8 → m2 x = m x) : GoodBlock m2 b := by
  refine ⟨?_, h.2⟩
  rw [← h.1]
  exact load64_congr _ _ _ (fun i hi => hm _ (by omega) (by omega))

/-- A state with the same memory and the same segment and list variables has the same shape. -/
theorem Geom.congr {s s2 : State} {bs : List Block} {l : List Nat} (g : Geom s bs l)
    (h1 : s2.mem = s.mem) (h2 : s2.segment_start = s.segment_start)
    (h3 : s2.segment_size = s.segment_size) (h4 : s2.end_heap = s.end_heap)
    (h5 : s2.first_free_ptr = s.first_free_ptr) : Geom s2 bs l := by
  constructor
  · rw [h2]; exact g.start_ge
  · rw [h2, h3]; exact g.bound
  · rw [h2, h3, h4]; exact g.end_eq
  · rw [h2, h4]; exact g.contig
  · rw [h1]; exact g.good
  · rw [h1, h5]; exact g.chain
  · exact g.nodup
  · exact g.sub

/-- Removing a node from the free list keeps the shape. -/
theorem Geom.remove {s : State} {bs : List Block} {l1 l2 : List Nat} {c : Nat}
    (g : Geom s bs (l1 ++ c :: l2)) :
    Geom (remove_free_node s c) bs (l1 ++ l2) ∧
    (∀ x, (∀ a ∈ l1 ++ l2, x < a + 8 ∨ a + 24 ≤ x) →
      (remove_free_node s c).mem x = s.mem x) := by
  obtain ⟨hseg, hfoot⟩ := remove_free_node_seg s l1 l2 c g.chain g.apart
  obtain ⟨f1, f2, f3, f4, f5⟩ := remove_free_node_fields s c
  have hsub : ∀ a ∈ l1 ++ l2, a ∈ bs.map Block.addr := by
    intro a ha
    apply g.sub
    rcases List.mem_append.1 ha with h | h
    · exact List.mem_append_left _ h
    · exact List.mem_append_right _ (List.mem_cons_of_mem _ h)
  refine ⟨?_, hfoot⟩
  constructor
  · rw [f1]; exact g.start_ge
  · rw [f1, f2]; exact g.bound
  · rw [f1, f2, f3]; exact g.end_eq
  · rw [f1, f3]; exact g.contig
  · intro b hb
    apply goodBlock_frame (g.good b hb)
    intro x h1 h2
    apply hfoot
    intro a ha
    exact g.header_outside hb (hsub a ha) h1 h2
  · exact hseg
  · have := g.nodup
    rw [List.nodup_append] at this ⊢
    obtain ⟨n1, n2, n3⟩ := this
    refine ⟨n1, (List.nodup_cons.1 n2).2, ?_⟩
    intro a h1 h2
    exact n3 h1 (List.mem_cons_of_mem _ h2)
  · exact hsub

/-- Adding a block header to the free list keeps the shape. -/
theorem Geom.add {s : State} {bs : List Block} {l : List Nat} {c : Nat}
    (g : Geom s bs l) (hc : c ∈ bs.map Block.addr) (hcl : c ∉ l) :
    Geom (add_free_node s c) bs (c :: l) ∧
    (∀ x, (∀ a ∈ c :: l, x < a + 8 ∨ a + 24 ≤ x) → (add_free_node s c).mem x = s.mem x) := by
  obtain ⟨b, hb, rfl⟩ : ∃ b ∈ bs, b.addr = c := by simpa using hc
  have hb1 := g.mem_bounds hb
  have hap : ∀ a ∈ l, Apart b.addr a := by
    intro a ha
    obtain ⟨d, hd, rfl⟩ := g.node ha
    apply g.addr_apart hb hd
    intro h
    rw [h] at hcl
    exact hcl ha
  obtain ⟨hseg, hfoot⟩ := add_free_node_seg s l b.addr g.chain hap g.apart (by omega) (by omega)
    (fun a ha => (g.node_bounds ha).2)
  obtain ⟨f0, f1, f2, f3, f4, f5⟩ := add_free_node_fields s b.addr
  have hsub : ∀ a ∈ b.addr :: l, a ∈ bs.map Block.addr := by
    intro a ha
    rcases List.mem_cons.1 ha with rfl | h
    · exact hc
    · exact g.sub a h
  refine ⟨?_, hfoot⟩
  constructor
  · rw [f1]; exact g.start_ge
  · rw [f1, f2]; exact g.bound
  · rw [f1, f2, f3]; exact g.end_eq
  · rw [f1, f3]; exact g.contig
  · intro d hd
    apply goodBlock_frame (g.good d hd)
    intro x h1 h2
    apply hfoot
    intro a ha
    exact g.header_outside hd (hsub a ha) h1 h2
  · exact hseg
  · exact List.nodup_cons.2 ⟨hcl, g.nodup⟩
  · exact hsub


theorem contig_unique {a e e2 : Nat} {bs : List Block} (h1 : Contig a bs e) (h2 : Contig a bs e2) :
    e = e2 := by
  induction bs generalizing a with
  | nil => exact h1.symm.trans h2
  | cons b bs ih => exact ih h1.2 h2.2

/-- Replacing a run of blocks by another run that covers the same bytes keeps
the shape, when memory changes only inside the run and spares the link fields
of the list nodes. -/
theorem Geom.replace {s : State} {bs1 old mid bs2 : List Block} {l : List Nat} {x y : Nat}
    (g : Geom s (bs1 ++ old ++ bs2) l) (m2 : Mem)
    (hx : Contig s.segment_start bs1 x) (hold : Contig x old y) (hmid : Contig x mid y)
    (hmem : ∀ z, z < x ∨ y ≤ z → m2 z = s.mem z)
    (hlinks : ∀ b ∈ old, b.addr ∈ l → ∀ z, b.addr + 8 ≤ z → z < b.addr + 24 → m2 z = s.mem z)
    (hgood : ∀ b ∈ mid, GoodBlock m2 b)
    (hsub : ∀ a ∈ l, a ∈ (bs1 ++ mid ++ bs2).map Block.addr) :
    Geom { s with mem := m2 } (bs1 ++ mid ++ bs2) l := by
  obtain ⟨y2, hc1, hc2⟩ := (contig_append _ _ _ _).1 g.contig
  obtain ⟨x2, hc3, hc4⟩ := (contig_append _ _ _ _).1 hc1
  have ex : x2 = x := contig_unique hc3 hx
  subst ex
  have ey : y2 = y := contig_unique hc4 hold
  subst ey
  have hxy : x2 ≤ y2 := by have := contig_le hold; omega
  constructor
  · exact g.start_ge
  · exact g.bound
  · exact g.end_eq
  · exact (contig_append _ _ _ _).2 ⟨y2, (contig_append _ _ _ _).2 ⟨x2, hx, hmid⟩, hc2⟩
  · intro b hb
    rcases List.mem_append.1 hb with hb | hb
    · rcases List.mem_append.1 hb with hb | hb
      · have hb2 : b ∈ bs1 ++ old ++ bs2 :=
          List.mem_append_left _ (List.mem_append_left _ hb)
        apply goodBlock_frame (g.good b hb2)
        intro z h1 h2
        apply hmem
        have := (contig_mem hx hb).2
        have := (g.mem_bounds hb2).2.1
        omega
      · exact hgood b hb
    · have hb2 : b ∈ bs1 ++ old ++ bs2 := List.mem_append_right _ hb
      apply goodBlock_frame (g.good b hb2)
      intro z h1 h2
      apply hmem
      have := (contig_mem hc2 hb).1
      omega
  · apply seg_frame _ g.chain
    intro a ha z h1 h2
    obtain ⟨b, hb, rfl⟩ := g.node ha
    rcases List.mem_append.1 hb with hb3 | hb3
    · rcases List.mem_append.1 hb3 with hb4 | hb4
      · apply hmem
        have := (contig_mem hx hb4).2
        have := (g.mem_bounds hb).2.1
        rw [Block.stop_eq] at *
        omega
      · exact hlinks b hb4 ha z h1 h2
    · apply hmem
      have := (contig_mem hc2 hb3).1
      omega
  · exact g.nodup
  · exact hsub

/-- Splitting the block list around a member. -/
theorem Geom.split_at {s : State} {bs1 bs2 : List Block} {b : Block} {l : List Nat}
    (g : Geom s (bs1 ++ b :: bs2) l) :
    Contig s.segment_start bs1 b.addr ∧ Contig b.stop bs2 s.end_heap :=
  contig_mid g.contig

theorem mem_map_addr_replace {bs1 bs2 old mid : List Block} {a : Nat}
    (ha : a ∈ (bs1 ++ old ++ bs2).map Block.addr)
    (h : a ∈ old.map Block.addr → a ∈ mid.map Block.addr) :
    a ∈ (bs1 ++ mid ++ bs2).map Block.addr := by
  simp only [List.map_append, List.mem_append] at ha ⊢
  rcases ha with (ha | ha) | ha
  · exact Or.inl (Or.inl ha)
  · exact Or.inl (Or.inr (h ha))
  · exact Or.inr ha

/-- Rewriting the header of a block with the same size (a status change). -/
theorem Geom.set_word {s : State} {bs1 bs2 : List Block} {b : Block} {l : List Nat}
    (g : Geom s (bs1 ++ b :: bs2) l) (fr : Bool) :
    Geom { s with mem := store64 s.mem b.addr (Block.word (Block.mk b.addr b.size fr)) }
      (bs1 ++ (Block.mk b.addr b.size fr) :: bs2) l := by
  have hb : b ∈ bs1 ++ b :: bs2 := List.mem_append_right _ (List.mem_cons_self _ _)
  have hgb := g.good b hb
  have hbb := g.mem_bounds hb
  have e1 : bs1 ++ b :: bs2 = bs1 ++ [b] ++ bs2 := by simp
  have e2 : bs1 ++ (Block.mk b.addr b.size fr) :: bs2 = bs1 ++ [Block.mk b.addr b.size fr] ++ bs2 := by
    simp
  have hx := g.split_at.1
  rw [e1] at g
  rw [e2]
  have hold : Contig b.addr [b] b.stop := ⟨rfl, rfl⟩
  have hmid : Contig b.addr [Block.mk b.addr b.size fr] b.stop := ⟨rfl, rfl⟩
  refine g.replace _ hx hold hmid ?_ ?_ ?_ ?_
  · intro z hz; apply store64_byte_other; omega
  · intro c hc _ z h1 h2
    have : c = b := by simpa using hc
    subst this
    apply store64_byte_other; omega
  · intro c hc
    have : c = Block.mk b.addr b.size fr := by simpa using hc
    subst this
    exact goodBlock_store s.mem (Block.mk b.addr b.size fr) hgb.2.1 hgb.2.2 hgb.size_lt
  · intro a ha
    apply mem_map_addr_replace (g.sub a ha)
    simp


/-- Merging two neighbouring blocks by rewriting the header of the first. -/
theorem Geom.merge {s : State} {bs1 bs2 : List Block} {b c : Block} {l : List Nat}
    (g : Geom s (bs1 ++ b :: c :: bs2) l) (hcl : c.addr ∉ l) (fr : Bool) :
    Geom { s with mem := store64 s.mem b.addr
                    (Block.word (Block.mk b.addr (8 + b.size + c.size) fr)) }
      (bs1 ++ (Block.mk b.addr (8 + b.size + c.size) fr) :: bs2) l := by
  have hb : b ∈ bs1 ++ b :: c :: bs2 := List.mem_append_right _ (List.mem_cons_self _ _)
  have hc : c ∈ bs1 ++ b :: c :: bs2 :=
    List.mem_append_right _ (List.mem_cons_of_mem _ (List.mem_cons_self _ _))
  have hgb := g.good b hb
  have hgc := g.good c hc
  have hbb := g.mem_bounds hb
  have hcb := g.mem_bounds hc
  have hx := g.split_at.1
  have hcadj : c.addr = b.stop := g.split_at.2.1
  have e1 : bs1 ++ b :: c :: bs2 = bs1 ++ [b, c] ++ bs2 := by simp
  have e2 : bs1 ++ (Block.mk b.addr (8 + b.size + c.size) fr) :: bs2
      = bs1 ++ [Block.mk b.addr (8 + b.size + c.size) fr] ++ bs2 := by simp
  rw [e1] at g
  rw [e2]
  have hold : Contig b.addr [b, c] c.stop := ⟨rfl, hcadj, rfl⟩
  have hmid : Contig b.addr [Block.mk b.addr (8 + b.size + c.size) fr] c.stop := by
    refine ⟨rfl, ?_⟩
    show b.addr + 8 + (8 + b.size + c.size) = c.stop
    rw [Block.stop_eq] at hcadj ⊢
    omega
  refine g.replace _ hx hold hmid ?_ ?_ ?_ ?_
  · intro z hz; apply store64_byte_other; rw [Block.stop_eq] at *; omega
  · intro d hd hdl z h1 h2
    have : d = b ∨ d = c := by simpa using hd
    rcases this with rfl | rfl
    · apply store64_byte_other; omega
    · exact absurd hdl hcl
  · intro d hd
    have : d = Block.mk b.addr (8 + b.size + c.size) fr := by simpa using hd
    subst this
    apply goodBlock_store s.mem (Block.mk b.addr (8 + b.size + c.size) fr)
    · have := hgb.2.1; have := hgc.2.1; show (8 + b.size + c.size) % 8 = 0; omega
    · have := hgb.2.2; show 16 ≤ 8 + b.size + c.size; omega
    · show 8 + b.size + c.size + 1 < SIZE_MOD
      rw [Block.stop_eq] at *; omega
  · intro a ha
    apply mem_map_addr_replace (g.sub a ha)
    intro h
    have : a = b.addr ∨ a = c.addr := by simpa using h
    rcases this with rfl | rfl
    · simp
    · exact absurd ha hcl

/-- Splitting a block in two by rewriting its header and writing a new one. -/
theorem Geom.split {s : State} {bs1 bs2 : List Block} {b : Block} {l : List Nat}
    (g : Geom s (bs1 ++ b :: bs2) l) (r : Nat) (hr8 : r % 8 = 0) (hr16 : 16 ≤ r)
    (hr : r + 24 ≤ b.size) (fr1 fr2 : Bool) :
    Geom { s with mem := store64 (store64 s.mem b.addr (Block.word (Block.mk b.addr r fr1)))
                    (b.addr + 8 + r) (Block.word (Block.mk (b.addr + 8 + r) (b.size - r - 8) fr2)) }
      (bs1 ++ (Block.mk b.addr r fr1) :: (Block.mk (b.addr + 8 + r) (b.size - r - 8) fr2) :: bs2) l := by
  have hb : b ∈ bs1 ++ b :: bs2 := List.mem_append_right _ (List.mem_cons_self _ _)
  have hgb := g.good b hb
  have hbb := g.mem_bounds hb
  have hx := g.split_at.1
  have e1 : bs1 ++ b :: bs2 = bs1 ++ [b] ++ bs2 := by simp
  have e2 : bs1 ++ (Block.mk b.addr r fr1) :: (Block.mk (b.addr + 8 + r) (b.size - r - 8) fr2) :: bs2
      = bs1 ++ [Block.mk b.addr r fr1, Block.mk (b.addr + 8 + r) (b.size - r - 8) fr2] ++ bs2 := by
    simp
  rw [e1] at g
  rw [e2]
  have hold : Contig b.addr [b] b.stop := ⟨rfl, rfl⟩
  have hmid : Contig b.addr
      [Block.mk b.addr r fr1, Block.mk (b.addr + 8 + r) (b.size - r - 8) fr2] b.stop := by
    refine ⟨rfl, rfl, ?_⟩
    show b.addr + 8 + r + 8 + (b.size - r - 8) = b.stop
    rw [Block.stop_eq]; omega
  have hsz := hgb.size_lt
  have h8 := hgb.2.1
  refine g.replace _ hx hold hmid ?_ ?_ ?_ ?_
  · intro z hz
    rw [Block.stop_eq] at hz
    rw [store64_byte_other _ _ _ _ (by omega), store64_byte_other _ _ _ _ (by omega)]
  · intro d hd hdl z h1 h2
    have : d = b := by simpa using hd
    subst this
    rw [store64_byte_other _ _ _ _ (by omega), store64_byte_other _ _ _ _ (by omega)]
  · intro d hd
    have : d = Block.mk b.addr r fr1 ∨ d = Block.mk (b.addr + 8 + r) (b.size - r - 8) fr2 := by
      simpa using hd
    rcases this with rfl | rfl
    · apply goodBlock_frame (goodBlock_store s.mem (Block.mk b.addr r fr1) hr8 hr16
        (by show r + 1 < SIZE_MOD; omega))
      intro z h1 h2
      apply store64_byte_other
      have h1 : b.addr ≤ z := h1
      have h2 : z < b.addr + 8 := h2
      omega
    · exact goodBlock_store _ (Block.mk (b.addr + 8 + r) (b.size - r - 8) fr2)
        (by show (b.size - r - 8) % 8 = 0; omega) (by show 16 ≤ b.size - r - 8; omega)
        (by show b.size - r - 8 + 1 < SIZE_MOD; omega)
  · intro a ha
    apply mem_map_addr_replace (g.sub a ha)
    intro h
    have : a = b.addr := by simpa using h
    subst this
    simp

/-- Writing into the payload of a block that is not on the free list. -/
theorem Geom.payload {s : State} {bs1 bs2 : List Block} {b : Block} {l : List Nat}
    (g : Geom s (bs1 ++ b :: bs2) l) (hbl : b.addr ∉ l) (m2 : Mem)
    (hm : ∀ z, z < b.addr + 8 ∨ b.stop ≤ z → m2 z = s.mem z) :
    Geom { s with mem := m2 } (bs1 ++ b :: bs2) l := by
  have hb : b ∈ bs1 ++ b :: bs2 := List.mem_append_right _ (List.mem_cons_self _ _)
  have hgb := g.good b hb
  have hx := g.split_at.1
  have e1 : bs1 ++ b :: bs2 = bs1 ++ [b] ++ bs2 := by simp
  have g0 := g
  rw [e1] at g ⊢
  have hold : Contig b.addr [b] b.stop := ⟨rfl, rfl⟩
  refine g.replace _ hx hold hold ?_ ?_ ?_ ?_
  · intro z hz; apply hm; omega
  · intro d hd hdl z h1 h2
    have : d = b := by simpa using hd
    subst this
    exact absurd hdl hbl
  · intro d hd
    have : d = b := by simpa using hd
    subst this
    apply goodBlock_frame hgb
    intro z h1 h2
    apply hm; omega
  · intro a ha
    exact g.sub a ha



/-! ## Observations of a state that satisfies the invariant -/

theorem heap_walk_of_contig {m : Mem} {a e : Nat} {bs : List Block} (hc : Contig a bs e)
    (hg : ∀ b ∈ bs, GoodBlock m b) (he : e < SIZE_MOD) (fuel : Nat) (hf : bs.length < fuel) :
    heap_walk fuel m a e = some (bs.map Block.addr, e) := by
  induction bs generalizing a fuel with
  | nil =>
    have : a = e := hc
    subst this
    cases fuel with
    | zero => simp at hf
    | succ f => simp [heap_walk]
  | cons b bs ih =>
    cases fuel with
    | zero => simp at hf
    | succ f =>
      obtain ⟨h1, h2⟩ := hc
      subst h1
      have hgb := hg b (List.mem_cons_self _ _)
      have hstop : b.stop < SIZE_MOD := by
        have h3 := contig_le h2
        omega
      have hlt : b.addr < e := by
        have h3 := contig_le h2
        have h4 := hgb.2.2
        rw [Block.stop_eq] at h3
        omega
      have ih1 := ih h2 (fun c hc => hg c (List.mem_cons_of_mem _ hc)) f
        (by simp at hf; omega)
      simp only [heap_walk, hlt, if_true, hgb.next_eq hstop, ih1, List.map_cons]

theorem free_list_of_seg {m : Mem} {p h : Nat} {l : List Nat} (hs : Seg m p h l 0)
    (fuel : Nat) (hf : l.length < fuel) : free_list fuel m h = some l := by
  induction l generalizing p h fuel with
  | nil =>
    have : h = 0 := hs
    subst this
    cases fuel with
    | zero => simp at hf
    | succ f => simp [free_list]
  | cons a l ih =>
    cases fuel with
    | zero => simp at hf
    | succ f =>
      obtain ⟨h1, h2, _, h4⟩ := hs
      subst h1
      have ih1 := ih h4 f (by simp at hf; omega)
      simp only [free_list, h2, if_false, ih1]

theorem filter_is_free_map {m : Mem} {bs : List Block} (hg : ∀ b ∈ bs, GoodBlock m b) :
    (bs.map Block.addr).filter (fun h => is_free m h) = (bs.filter (fun b => b.free)).map Block.addr := by
  induction bs with
  | nil => rfl
  | cons b bs ih =>
    have hb := (hg b (List.mem_cons_self _ _)).is_free_eq
    have ih1 := ih (fun c hc => hg c (List.mem_cons_of_mem _ hc))
    simp only [List.map_cons, List.filter_cons, hb, ih1]
    cases b.free <;> simp

theorem filter_not_is_free_map {m : Mem} {bs : List Block} (hg : ∀ b ∈ bs, GoodBlock m b) :
    (bs.map Block.addr).filter (fun h => !is_free m h)
      = (bs.filter (fun b => !b.free)).map Block.addr := by
  induction bs with
  | nil => rfl
  | cons b bs ih =>
    have hb := (hg b (List.mem_cons_self _ _)).is_free_eq
    have ih1 := ih (fun c hc => hg c (List.mem_cons_of_mem _ hc))
    simp only [List.map_cons, List.filter_cons, hb, ih1]
    cases b.free <;> simp

theorem Geom.blocks_lt {s : State} {bs : List Block} {l : List Nat} (g : Geom s bs l) :
    bs.length < s.segment_size ∨ bs = [] := by
  cases bs with
  | nil => right; rfl
  | cons b bs =>
    left
    have h1 := contig_le g.contig
    have h2 := g.end_eq
    simp only [List.length_cons] at h1 ⊢
    omega

theorem Geom.walk {s : State} {bs : List Block} {l : List Nat} (g : Geom s bs l)
    (fuel : Nat) (hf : bs.length < fuel) :
    heap_walk fuel s.mem s.segment_start (s.segment_start + s.segment_size)
      = some (bs.map Block.addr, s.segment_start + s.segment_size) := by
  rw [← g.end_eq]
  exact heap_walk_of_contig g.contig g.good (by have := g.end_eq; have := g.bound; omega) fuel hf

theorem Geom.list {s : State} {bs : List Block} {l : List Nat} (g : Geom s bs l)
    (fuel : Nat) (hf : l.length < fuel) : free_list fuel s.mem s.first_free_ptr = some l :=
  free_list_of_seg g.chain fuel hf

/-- The sum of the footprints of the blocks of a contiguous list. -/
theorem contig_sum {a e : Nat} {bs : List Block} (hc : Contig a bs e) :
    a + (bs.map (fun b => 8 + b.size)).sum = e := by
  induction bs generalizing a with
  | nil => simpa using hc
  | cons b bs ih =>
    have := ih hc.2
    have h1 := hc.1
    simp only [List.map_cons, List.sum_cons]
    rw [Block.stop_eq] at this
    omega

/-! ## `myinit` -/

theorem myinit_inv (s : State) (heap_start heap_size : Nat) (h0 : 8 ≤ heap_start)
    (hb : heap_start + heap_size < SIZE_MOD) (h8 : heap_size % 8 = 0) (h24 : 24 ≤ heap_size) :
    myinit s heap_start heap_size =
      ((myinit s heap_start heap_size).1, true) ∧
    Inv (myinit s heap_start heap_size).1 [Block.mk heap_start (heap_size - 8) true] [heap_start] := by
  have hn : ¬ heap_size < MINIMUM_BYTES_24 := by unfold MINIMUM_BYTES_24; omega
  unfold myinit
  simp only [hn, if_false, true_and]
  have hw : set_header s.mem heap_start (heap_size - HEADER_SIZE) true
      = store64 s.mem heap_start (Block.word (Block.mk heap_start (heap_size - 8) true)) := by
    rw [set_header_eq _ _ _ _ (by unfold HEADER_SIZE; omega)]
    rfl
  rw [hw, set_next_free_eq, set_prev_free_eq]
  refine ⟨⟨h0, hb, rfl, ⟨rfl, ?_⟩, ?_, ?_, ?_, ?_⟩, ?_, rfl, rfl⟩
  · show heap_start + 8 + (heap_size - 8) = heap_start + heap_size
    omega
  · intro b hb
    have : b = Block.mk heap_start (heap_size - 8) true := by simpa using hb
    subst this
    apply goodBlock_frame (goodBlock_store s.mem (Block.mk heap_start (heap_size - 8) true)
      (by show (heap_size - 8) % 8 = 0; omega) (by show 16 ≤ heap_size - 8; omega)
      (by show heap_size - 8 + 1 < SIZE_MOD; omega))
    intro x h1 h2
    have h1 : heap_start ≤ x := h1
    have h2 : x < heap_start + 8 := h2
    show store64 (store64 _ (heap_start + 16) 0) (heap_start + 8) 0 x = _
    rw [store64_byte_other _ (heap_start + 8) _ _ (by omega),
      store64_byte_other _ (heap_start + 16) _ _ (by omega)]
  · refine ⟨rfl, by omega, ?_, ?_⟩
    · rw [get_prev_free_eq, load64_store64_same]; rfl
    · show get_next_free _ heap_start = 0
      rw [get_next_free_eq, load64_store64_other _ _ _ _ (by omega), load64_store64_same]; rfl
  · simp
  · simp
  · simp



/-! ## `coalesce` -/

theorem add64_eq {a b : Nat} (h : a + b < SIZE_MOD) : add64 a b = a + b :=
  Nat.mod_eq_of_lt h

theorem sub64_eq {a b : Nat} (h : b ≤ a) : sub64 a b = a - b := by
  unfold sub64; rw [if_pos h]

theorem mem_mid {α : Type} (l1 l2 : List α) (a : α) : a ∈ l1 ++ a :: l2 :=
  List.mem_append_right _ (List.mem_cons_self _ _)

theorem mem_mid2 {α : Type} (l1 l2 : List α) (a b : α) : b ∈ l1 ++ a :: b :: l2 :=
  List.mem_append_right _ (List.mem_cons_of_mem _ (List.mem_cons_self _ _))

/-- Nothing follows the block: `coalesce` does nothing. -/
theorem coalesce_last {s : State} {bs1 : List Block} {b : Block} {l : List Nat}
    (g : Geom s (bs1 ++ [b]) l) : coalesce s b.addr = (s, false) := by
  have hb := mem_mid bs1 [] b
  have hgb := g.good b hb
  have hbb := g.mem_bounds hb
  have hstop : b.stop = s.end_heap := g.split_at.2
  have h0 : b.addr ≠ 0 := by omega
  unfold coalesce
  rw [if_neg h0]
  dsimp only
  rw [hgb.next_eq (by omega), hstop, if_neg]
  intro h
  exact absurd h.1 (Nat.lt_irrefl _)

/-- The next block is allocated: `coalesce` does nothing. -/
theorem coalesce_alloc {s : State} {bs1 bs2 : List Block} {b c : Block} {l : List Nat}
    (g : Geom s (bs1 ++ b :: c :: bs2) l) (hc : c.free = false) :
    coalesce s b.addr = (s, false) := by
  have hb := mem_mid bs1 (c :: bs2) b
  have hgb := g.good b hb
  have hgc := g.good c (mem_mid2 bs1 bs2 b c)
  have hbb := g.mem_bounds hb
  have hcadj : c.addr = b.stop := g.split_at.2.1
  have h0 : b.addr ≠ 0 := by omega
  have hf : is_free s.mem b.stop = false := by rw [← hcadj, hgc.is_free_eq, hc]
  unfold coalesce
  rw [if_neg h0]
  dsimp only
  rw [hgb.next_eq (by omega), hf, if_neg]
  intro h
  exact absurd h.2 (by decide)

/-- The next block is free: `coalesce` merges it into the block. -/
theorem coalesce_merge {s : State} {bs1 bs2 : List Block} {b c : Block} {l1 l2 : List Nat}
    (g : Geom s (bs1 ++ b :: c :: bs2) (l1 ++ c.addr :: l2)) (hc : c.free = true) :
    (coalesce s b.addr).2 = true ∧
    Geom (coalesce s b.addr).1
      (bs1 ++ (Block.mk b.addr (8 + b.size + c.size) false) :: bs2) (l1 ++ l2) ∧
    (coalesce s b.addr).1.count_free = sub64 s.count_free 1 ∧
    (coalesce s b.addr).1.count_allocated = s.count_allocated ∧
    (∀ x, (x < b.addr ∨ b.addr + 8 ≤ x) → (∀ a ∈ l1 ++ l2, x < a + 8 ∨ a + 24 ≤ x) →
      (coalesce s b.addr).1.mem x = s.mem x) := by
  have hb := mem_mid bs1 (c :: bs2) b
  have hcm := mem_mid2 bs1 bs2 b c
  have hgb := g.good b hb
  have hgc := g.good c hcm
  have hbb := g.mem_bounds hb
  have hcb := g.mem_bounds hcm
  have hcadj : c.addr = b.stop := g.split_at.2.1
  have h0 : b.addr ≠ 0 := by omega
  have hf : is_free s.mem b.stop = true := by rw [← hcadj, hgc.is_free_eq, hc]
  have hlt : b.stop < s.end_heap := by rw [← hcadj]; omega
  have htot : add64 (add64 HEADER_SIZE (get_payload_size s.mem b.addr))
      (get_payload_size s.mem b.stop) = 8 + b.size + c.size := by
    rw [hgb.payload_eq, ← hcadj, hgc.payload_eq]
    rw [Block.stop_eq] at *
    unfold HEADER_SIZE
    rw [add64_eq (a := 8) (b := b.size) (by omega), add64_eq (by omega)]
  obtain ⟨g1, hfoot⟩ := g.remove
  obtain ⟨f1, f2, f3, f4, f5⟩ := remove_free_node_fields s c.addr
  have hcl : c.addr ∉ l1 ++ l2 := by
    have := g.nodup
    rw [List.nodup_append] at this
    obtain ⟨n1, n2, n3⟩ := this
    intro h
    rcases List.mem_append.1 h with h | h
    · exact n3 h (List.mem_cons_self _ _)
    · exact (List.nodup_cons.1 n2).1 h
  have g2 := g1.merge hcl false
  have hco : coalesce s b.addr =
      ({ remove_free_node s c.addr with
          count_free := sub64 (remove_free_node s c.addr).count_free 1
          mem := store64 (remove_free_node s c.addr).mem b.addr
            (Block.word (Block.mk b.addr (8 + b.size + c.size) false)) }, true) := by
    unfold coalesce
    rw [if_neg h0]
    dsimp only
    rw [hgb.next_eq (by omega), if_pos ⟨hlt, hf⟩, htot,
      set_header_eq _ _ _ _ (by have := hgb.2.1; have := hgc.2.1; omega), hcadj]
  rw [hco]
  dsimp only
  refine ⟨rfl, ?_, ?_, ?_, ?_⟩
  · exact g2.congr rfl rfl rfl rfl rfl
  · rw [f4]
  · exact f5
  · intro x hx hl
    rw [store64_byte_other _ _ _ _ hx]
    exact hfoot x hl



/-! ## Bookkeeping for the full invariant -/

theorem filter_length_mid (p : Block → Bool) (bs1 bs2 x : List Block) :
    ((bs1 ++ x ++ bs2).filter p).length
      = (bs1.filter p).length + (x.filter p).length + (bs2.filter p).length := by
  simp only [List.filter_append, List.length_append]

theorem append_cons_eq {α : Type} (l1 l2 : List α) (a : α) : l1 ++ a :: l2 = l1 ++ [a] ++ l2 := by
  simp

theorem append_cons2_eq {α : Type} (l1 l2 : List α) (a b : α) :
    l1 ++ a :: b :: l2 = l1 ++ [a, b] ++ l2 := by
  simp

/-- Blocks outside a run keep their list membership when only the run changes. -/
theorem free_iff_replace {bs1 old mid bs2 : List Block} {l l2 : List Nat}
    (h : ∀ d ∈ bs1 ++ old ++ bs2, (d.addr ∈ l ↔ d.free = true))
    (hout : ∀ d ∈ bs1 ++ bs2, (d.addr ∈ l2 ↔ d.addr ∈ l))
    (hmid : ∀ d ∈ mid, (d.addr ∈ l2 ↔ d.free = true)) :
    ∀ d ∈ bs1 ++ mid ++ bs2, (d.addr ∈ l2 ↔ d.free = true) := by
  intro d hd
  rcases List.mem_append.1 hd with hd | hd
  · rcases List.mem_append.1 hd with hd | hd
    · rw [hout d (List.mem_append_left _ hd)]
      exact h d (List.mem_append_left _ (List.mem_append_left _ hd))
    · exact hmid d hd
  · rw [hout d (List.mem_append_right _ hd)]
    exact h d (List.mem_append_right _ hd)

/-- A block outside the middle block has another header address. -/
theorem Geom.addr_ne {s : State} {bs1 bs2 : List Block} {b : Block} {l : List Nat}
    (g : Geom s (bs1 ++ b :: bs2) l) {d : Block} (hd : d ∈ bs1 ++ bs2) :
    d.addr + 24 ≤ b.addr ∨ b.stop ≤ d.addr := by
  have hd2 : d ∈ bs1 ++ b :: bs2 := by
    rcases List.mem_append.1 hd with h | h
    · exact List.mem_append_left _ h
    · exact List.mem_append_right _ (List.mem_cons_of_mem _ h)
  have hb := g.mem_bounds hd2
  obtain ⟨h1, h2⟩ := g.split_at
  rcases List.mem_append.1 hd with h | h
  · left; have := (contig_mem h1 h).2; omega
  · right; exact (contig_mem h2 h).1

theorem Geom.count_lt {s : State} {bs : List Block} {l : List Nat} (g : Geom s bs l)
    (p : Block → Bool) : (bs.filter p).length + 1 < SIZE_MOD := by
  have h1 := contig_le g.contig
  have h2 := g.bound
  have h3 := g.end_eq
  have h4 := g.start_ge
  have h5 := List.length_filter_le p bs
  omega

theorem myfree_unfold (s : State) (ptr : Nat) (h : ptr ≠ 0) (s1 s2 s3 : State)
    (h1 : s1 = { s with mem := store64 s.mem (ptr - 8) (load64 s.mem (ptr - 8) &&& (SIZE_MOD - 2)) })
    (h2 : s2 = add_free_node s1 (ptr - 8)) (h3 : s3 = (coalesce s2 (ptr - 8)).1) :
    myfree s ptr =
      { s3 with mem := set_header s3.mem (ptr - 8) (get_payload_size s3.mem (ptr - 8)) true
                count_allocated := sub64 s3.count_allocated 1
                count_free := add64 s3.count_free 1 } := by
  subst h1 h2 h3
  unfold myfree
  rw [if_neg h]
  rfl


/-- The first half of `myfree`: the allocation bit is cleared and the block is
put at the head of the free list. -/
theorem myfree_stage {s : State} {bs1 bs2 : List Block} {b : Block} {l : List Nat}
    (inv : Inv s (bs1 ++ b :: bs2) l) (hb : b.free = false) :
    Geom (add_free_node { s with mem := store64 s.mem b.addr (load64 s.mem b.addr &&& (SIZE_MOD - 2)) } b.addr)
      (bs1 ++ (Block.mk b.addr b.size true) :: bs2) (b.addr :: l) ∧
    (∀ x, (x < b.addr ∨ b.addr + 24 ≤ x) → (∀ a ∈ l, x < a + 8 ∨ a + 24 ≤ x) →
      (add_free_node { s with mem := store64 s.mem b.addr (load64 s.mem b.addr &&& (SIZE_MOD - 2)) } b.addr).mem x = s.mem x) := by
  have g := inv.geom
  have hbm := mem_mid bs1 bs2 b
  have hgb := g.good b hbm
  have hbl : b.addr ∉ l := by
    intro h
    have := (inv.free_iff b hbm).1 h
    rw [hb] at this
    exact absurd this (by decide)
  have hw : load64 s.mem b.addr &&& (SIZE_MOD - 2) = Block.word (Block.mk b.addr b.size true) := by
    have := hgb.payload_eq
    unfold get_payload_size at this
    rw [this]
    rfl
  rw [hw]
  have g1 := g.set_word true
  have hmem : b.addr ∈ (bs1 ++ (Block.mk b.addr b.size true) :: bs2).map Block.addr := by
    simp
  obtain ⟨g2, hfoot⟩ := g1.add hmem hbl
  refine ⟨g2, ?_⟩
  intro x hx hl
  rw [hfoot x]
  · dsimp only
    apply store64_byte_other
    omega
  · intro a ha
    rcases List.mem_cons.1 ha with rfl | ha
    · omega
    · exact hl a ha

/-- The last step of `myfree`: the header is rewritten as free. -/
theorem myfree_final {s3 : State} {bs1 rest : List Block} {x : Block} {l3 : List Nat}
    (g3 : Geom s3 (bs1 ++ x :: rest) l3) (ca cf : Nat) :
    Geom { s3 with mem := set_header s3.mem x.addr (get_payload_size s3.mem x.addr) true
                   count_allocated := ca
                   count_free := cf }
      (bs1 ++ (Block.mk x.addr x.size true) :: rest) l3 := by
  have hgx := g3.good x (mem_mid bs1 rest x)
  have h2 : x.size % 2 = 0 := by have := hgx.2.1; omega
  rw [hgx.payload_eq, set_header_eq _ _ _ _ h2]
  exact (g3.set_word true).congr rfl rfl rfl rfl rfl


theorem filter_length_cons_mid (p : Block → Bool) (bs1 bs2 : List Block) (b : Block) :
    ((bs1 ++ b :: bs2).filter p).length
      = (bs1.filter p).length + (if p b = true then 1 else 0) + (bs2.filter p).length := by
  rw [List.filter_append, List.length_append, List.filter_cons]
  by_cases h : p b = true
  · rw [if_pos h, if_pos h, List.length_cons]; omega
  · rw [if_neg h, if_neg h]; omega

theorem filter_length_cons2_mid (p : Block → Bool) (bs1 bs2 : List Block) (b c : Block) :
    ((bs1 ++ b :: c :: bs2).filter p).length
      = (bs1.filter p).length + (if p b = true then 1 else 0) + (if p c = true then 1 else 0)
        + (bs2.filter p).length := by
  have h1 := filter_length_cons_mid p bs1 (c :: bs2) b
  have h2 := filter_length_cons_mid p [] bs2 c
  simp only [List.nil_append, List.filter_nil, List.length_nil] at h2
  omega

/-- Function `myfree` on an allocated block whose next block is absent or allocated. -/
theorem myfree_plain {s : State} {bs1 bs2 : List Block} {b : Block} {l : List Nat}
    (inv : Inv s (bs1 ++ b :: bs2) l) (hb : b.free = false)
    (hnext : ∀ c bs3, bs2 = c :: bs3 → c.free = false) :
    Inv (myfree s (b.addr + 8)) (bs1 ++ (Block.mk b.addr b.size true) :: bs2) (b.addr :: l) ∧
    (∀ x, (x < b.addr ∨ b.addr + 24 ≤ x) → (∀ a ∈ l, x < a + 8 ∨ a + 24 ≤ x) →
      (myfree s (b.addr + 8)).mem x = s.mem x) := by
  obtain ⟨g2, hfoot2⟩ := myfree_stage inv hb
  have g := inv.geom
  have hbm := mem_mid bs1 bs2 b
  have hptr : b.addr + 8 ≠ 0 := by omega
  have hsub : b.addr + 8 - 8 = b.addr := by omega
  have hcf : (add_free_node { s with mem := store64 s.mem b.addr (load64 s.mem b.addr &&& (SIZE_MOD - 2)) } b.addr).count_free = s.count_free := rfl
  have hca : (add_free_node { s with mem := store64 s.mem b.addr (load64 s.mem b.addr &&& (SIZE_MOD - 2)) } b.addr).count_allocated = s.count_allocated := rfl
  generalize hS2 : add_free_node { s with mem := store64 s.mem b.addr (load64 s.mem b.addr &&& (SIZE_MOD - 2)) } b.addr = s2 at g2 hfoot2 hcf hca
  have hco : coalesce s2 b.addr = (s2, false) := by
    cases bs2 with
    | nil => exact coalesce_last (b := Block.mk b.addr b.size true) g2
    | cons c bs3 => exact coalesce_alloc (b := Block.mk b.addr b.size true) g2 (hnext c bs3 rfl)
  rw [myfree_unfold s (b.addr + 8) hptr _ s2 s2 rfl (by rw [hsub]; exact hS2.symm)
    (by rw [hsub, hco]), hsub, hcf, hca]
  have g4 := myfree_final (x := Block.mk b.addr b.size true) g2
    (sub64 s.count_allocated 1) (add64 s.count_free 1)
  refine ⟨⟨g4, ?_, ?_, ?_⟩, ?_⟩
  · rw [append_cons_eq] at inv ⊢
    apply free_iff_replace inv.free_iff
    · intro d hd
      have := g.addr_ne hd
      have := (g.mem_bounds hbm).2.1
      simp only [List.mem_cons]
      constructor
      · rintro (h | h)
        · omega
        · exact h
      · exact Or.inr
    · intro d hd
      have : d = Block.mk b.addr b.size true := by simpa using hd
      subst this
      simp
  · show add64 s.count_free 1 = _
    rw [inv.cnt_free, add64_eq (g.count_lt _), filter_length_cons_mid, filter_length_cons_mid]
    simp only [hb]
    simp
    omega
  · show sub64 s.count_allocated 1 = _
    rw [inv.cnt_alloc, filter_length_cons_mid, filter_length_cons_mid]
    simp only [hb]
    simp
    rw [sub64_eq (by omega)]
    omega
  · intro x hx hl
    have hx2 : x < b.addr ∨ b.addr + 8 ≤ x := by omega
    have h2 : (2 : Nat) ∣ b.size := by have := (g.good b hbm).2.1; omega
    show set_header _ b.addr _ true x = s.mem x
    unfold set_header
    rw [if_pos rfl, store64_byte_other _ _ _ _ hx2]
    exact hfoot2 x hx hl


/-- Function `myfree` on an allocated block whose next block is free. -/
theorem myfree_merge {s : State} {bs1 bs3 : List Block} {b c : Block} {l1 l2 : List Nat}
    (inv : Inv s (bs1 ++ b :: c :: bs3) (l1 ++ c.addr :: l2)) (hb : b.free = false)
    (hc : c.free = true) :
    Inv (myfree s (b.addr + 8)) (bs1 ++ (Block.mk b.addr (8 + b.size + c.size) true) :: bs3)
      (b.addr :: (l1 ++ l2)) ∧
    (∀ x, (x < b.addr ∨ b.addr + 24 ≤ x) → (∀ a ∈ l1 ++ c.addr :: l2, x < a + 8 ∨ a + 24 ≤ x) →
      (myfree s (b.addr + 8)).mem x = s.mem x) := by
  obtain ⟨g2, hfoot2⟩ := myfree_stage inv hb
  have g := inv.geom
  have hbm := mem_mid bs1 (c :: bs3) b
  have hcm := mem_mid2 bs1 bs3 b c
  have hptr : b.addr + 8 ≠ 0 := by omega
  have hsub : b.addr + 8 - 8 = b.addr := by omega
  have hcf : (add_free_node { s with mem := store64 s.mem b.addr (load64 s.mem b.addr &&& (SIZE_MOD - 2)) } b.addr).count_free = s.count_free := rfl
  have hca : (add_free_node { s with mem := store64 s.mem b.addr (load64 s.mem b.addr &&& (SIZE_MOD - 2)) } b.addr).count_allocated = s.count_allocated := rfl
  generalize hS2 : add_free_node { s with mem := store64 s.mem b.addr (load64 s.mem b.addr &&& (SIZE_MOD - 2)) } b.addr = s2 at g2 hfoot2 hcf hca
  rw [← List.cons_append] at g2
  obtain ⟨_, g3, hcf3, hca3, hfoot3⟩ := coalesce_merge (b := Block.mk b.addr b.size true) g2 hc
  rw [hcf] at hcf3
  rw [hca] at hca3
  generalize hS3 : (coalesce s2 (Block.mk b.addr b.size true).addr).1 = s3 at g3 hcf3 hca3 hfoot3
  rw [myfree_unfold s (b.addr + 8) hptr _ s2 s3 rfl (by rw [hsub]; exact hS2.symm)
    (by rw [hsub]; exact hS3.symm), hsub, hcf3, hca3]
  have g4 := myfree_final (x := Block.mk b.addr (8 + b.size + c.size) false) g3
    (sub64 s.count_allocated 1) (add64 (sub64 s.count_free 1) 1)
  have hbb := g.mem_bounds hbm
  have hcb := g.mem_bounds hcm
  have hcadj : c.addr = b.stop := g.split_at.2.1
  refine ⟨⟨g4, ?_, ?_, ?_⟩, ?_⟩
  · have hfi := inv.free_iff
    rw [append_cons2_eq] at hfi
    rw [append_cons_eq]
    apply free_iff_replace hfi
    · intro d hd
      have h1 : d.addr + 24 ≤ b.addr ∨ c.stop ≤ d.addr := by
        rcases List.mem_append.1 hd with h | h
        · exact Or.inl ((g.addr_ne (List.mem_append_left _ h)).resolve_right (by
            have := (contig_mem g.split_at.1 h).2
            have := (g.mem_bounds (List.mem_append_left _ h)).2.1
            omega))
        · right
          exact (contig_mem g.split_at.2.2 h).1
      simp only [List.mem_cons, List.mem_append]
      constructor
      · rintro (h | h | h)
        · omega
        · exact Or.inl h
        · exact Or.inr (Or.inr h)
      · rintro (h | h | h)
        · exact Or.inr (Or.inl h)
        · omega
        · exact Or.inr (Or.inr h)
    · intro d hd
      have : d = Block.mk b.addr (8 + b.size + c.size) true := by simpa using hd
      subst this
      simp
  · show add64 (sub64 s.count_free 1) 1 = _
    have hlt := g.count_lt (fun b => b.free)
    have e1 := filter_length_cons2_mid (fun b => b.free) bs1 bs3 b c
    have e2 := filter_length_cons_mid (fun b => b.free) bs1 bs3
      (Block.mk b.addr (8 + b.size + c.size) true)
    simp only [hb, hc, if_true, if_false, Bool.false_eq_true] at e1 e2
    rw [inv.cnt_free, e2, e1]
    rw [e1] at hlt
    rw [sub64_eq (by omega), add64_eq (by omega)]
    omega
  · show sub64 s.count_allocated 1 = _
    have e1 := filter_length_cons2_mid (fun b => !b.free) bs1 bs3 b c
    have e2 := filter_length_cons_mid (fun b => !b.free) bs1 bs3
      (Block.mk b.addr (8 + b.size + c.size) true)
    simp only [hb, hc, if_true, if_false, Bool.not_false, Bool.not_true, Bool.false_eq_true] at e1 e2
    rw [inv.cnt_alloc, e2, e1]
    rw [sub64_eq (by omega)]
    omega
  · intro x hx hl
    have hx2 : x < b.addr ∨ b.addr + 8 ≤ x := by omega
    show set_header _ b.addr _ true x = s.mem x
    unfold set_header
    rw [if_pos rfl, store64_byte_other _ _ _ _ hx2, hfoot3 x hx2]
    · exact hfoot2 x hx hl
    · intro a ha
      rcases List.mem_append.1 ha with h | h
      · rcases List.mem_cons.1 h with rfl | h
        · omega
        · exact hl a (List.mem_append_left _ h)
      · exact hl a (List.mem_append_right _ (List.mem_cons_of_mem _ h))



/-! ## `mymalloc` -/

theorem mymalloc_loop_null (fuel : Nat) (s : State) (r : Nat) :
    mymalloc_loop (fuel + 1) s r 0 = Outcome.ret (s, 0) := by
  unfold mymalloc_loop
  rw [if_pos rfl]

theorem mymalloc_loop_miss (fuel : Nat) (s : State) (r start : Nat) (h0 : start ≠ 0)
    (hmiss : ¬ (get_payload_size s.mem start ≥ r ∧ is_free s.mem start = true)) :
    mymalloc_loop (fuel + 1) s r start = mymalloc_loop fuel s r (get_next_free s.mem start) := by
  conv => lhs; unfold mymalloc_loop
  rw [if_neg h0]
  dsimp only
  rw [if_neg hmiss]

theorem mymalloc_loop_hit (fuel : Nat) (s : State) (r start : Nat) (h0 : start ≠ 0)
    (hhit : get_payload_size s.mem start ≥ r ∧ is_free s.mem start = true) (s1 s2 s3 : State)
    (h1 : s1 = { s with mem := change_to_allocated s.mem start, count_allocated := add64 s.count_allocated 1 })
    (h2 : s2 = remove_free_node s1 start)
    (h3 : s3 = { s2 with count_free := sub64 s2.count_free 1 }) :
    mymalloc_loop (fuel + 1) s r start =
      Outcome.ret (if get_payload_size s.mem start - r ≥ 24 then
          split_block s3 start r (get_payload_size s.mem start) else s3, start + 8) := by
  rw [h3, h2, h1]
  conv => lhs; unfold mymalloc_loop
  rw [if_neg h0]
  dsimp only
  rw [if_pos hhit]
  dsimp only [header_to_payload, HEADER_SIZE, ge_iff_le]

/-- The loop of `mymalloc` walks over the list nodes that do not fit. -/
theorem mymalloc_loop_skip {s : State} {r : Nat} {l1 : List Nat} (k : Nat) {p h mid : Nat}
    (hseg : Seg s.mem p h l1 mid)
    (hsmall : ∀ a ∈ l1, ¬ (get_payload_size s.mem a ≥ r ∧ is_free s.mem a = true)) :
    mymalloc_loop (l1.length + k) s r h = mymalloc_loop k s r mid := by
  induction l1 generalizing p h with
  | nil =>
    have : h = mid := hseg
    subst this
    simp
  | cons a l ih =>
    obtain ⟨h1, h2, _, h4⟩ := hseg
    subst h1
    have e : (h :: l).length + k = (l.length + k) + 1 := by simp; omega
    rw [e, mymalloc_loop_miss _ _ _ _ h2 (hsmall h (List.mem_cons_self _ _))]
    exact ih h4 (fun a ha => hsmall a (List.mem_cons_of_mem _ ha))

theorem split_block_eq (s : State) (a r P : Nat) (hr8 : r % 8 = 0) (hr16 : 16 ≤ r)
    (hP : r + 8 ≤ P) (hPlt : P < SIZE_MOD) (ha : a + 8 + r < SIZE_MOD) :
    split_block s a r P =
      { add_free_node { s with mem := store64 (store64 s.mem a (Block.word (Block.mk a r false))) (a + 8 + r) (Block.word (Block.mk (a + 8 + r) (P - r - 8) true)) } (a + 8 + r) with
        count_free := add64 s.count_free 1 } := by
  have hg := goodBlock_store s.mem (Block.mk a r false) hr8 hr16 (by show r + 1 < SIZE_MOD; omega)
  have hn : next_header (store64 s.mem a (Block.word (Block.mk a r false))) a = a + 8 + r :=
    hg.next_eq ha
  have h2 : r % 2 = 0 := by omega
  have hs : sub64 (sub64 P r) HEADER_SIZE = P - r - 8 := by
    unfold HEADER_SIZE
    rw [sub64_eq (a := P) (b := r) (by omega), sub64_eq (by omega)]
  unfold split_block
  dsimp only
  rw [set_header_eq _ _ _ _ h2, hn, hs]
  unfold set_header
  rw [if_pos rfl]
  rfl


theorem Geom.with_count_free {s : State} {bs : List Block} {l : List Nat} (g : Geom s bs l)
    (cf : Nat) : Geom { s with count_free := cf } bs l :=
  ⟨g.start_ge, g.bound, g.end_eq, g.contig, g.good, g.chain, g.nodup, g.sub⟩

/-- The first half of a successful `mymalloc`: the selected block is marked
allocated and leaves the free list. -/
theorem malloc_stage {s : State} {bs1 bs2 : List Block} {b : Block} {l1 l2 : List Nat}
    (inv : Inv s (bs1 ++ b :: bs2) (l1 ++ b.addr :: l2)) (hb : b.free = true) :
    ∃ s1 s2 s3 : State,
      s1 = { s with mem := change_to_allocated s.mem b.addr, count_allocated := add64 s.count_allocated 1 } ∧
      s2 = remove_free_node s1 b.addr ∧
      s3 = { s2 with count_free := sub64 s2.count_free 1 } ∧
      Geom s3 (bs1 ++ (Block.mk b.addr b.size false) :: bs2) (l1 ++ l2) ∧
      s3.count_free = sub64 s.count_free 1 ∧
      s3.count_allocated = add64 s.count_allocated 1 ∧
      (∀ x, (x < b.addr ∨ b.addr + 8 ≤ x) → (∀ a ∈ l1 ++ l2, x < a + 8 ∨ a + 24 ≤ x) →
        s3.mem x = s.mem x) := by
  have g := inv.geom
  have hbm := mem_mid bs1 bs2 b
  have hgb := g.good b hbm
  have hw : change_to_allocated s.mem b.addr
      = store64 s.mem b.addr (Block.word (Block.mk b.addr b.size false)) := by
    unfold change_to_allocated
    rw [hgb.1]
    have : b.word = b.size := by unfold Block.word; rw [hb]; rfl
    rw [this, lor_one_even _ (by have := hgb.2.1; omega)]
    rfl
  have g1 : Geom { s with mem := change_to_allocated s.mem b.addr, count_allocated := add64 s.count_allocated 1 }
      (bs1 ++ (Block.mk b.addr b.size false) :: bs2) (l1 ++ b.addr :: l2) := by
    rw [hw]
    exact (g.set_word false).congr rfl rfl rfl rfl rfl
  obtain ⟨g2, hfoot⟩ := g1.remove
  obtain ⟨f1, f2, f3, f4, f5⟩ := remove_free_node_fields
    { s with mem := change_to_allocated s.mem b.addr, count_allocated := add64 s.count_allocated 1 } b.addr
  refine ⟨_, _, _, rfl, rfl, rfl, g2.with_count_free _, ?_, ?_, ?_⟩
  · dsimp only
    rw [f4]
  · dsimp only
    rw [f5]
  · intro x hx hl
    dsimp only
    rw [hfoot x hl]
    dsimp only
    rw [hw]
    exact store64_byte_other _ _ _ _ hx


/-- A successful `mymalloc` that keeps the whole block. -/
theorem malloc_hit_nosplit {s : State} {bs1 bs2 : List Block} {b : Block} {l1 l2 : List Nat}
    (inv : Inv s (bs1 ++ b :: bs2) (l1 ++ b.addr :: l2)) (hb : b.free = true) (r : Nat)
    (hfit : r ≤ b.size) (hns : ¬ b.size - r ≥ 24) :
    ∃ s2, (∀ fuel, mymalloc_loop (fuel + 1) s r b.addr = Outcome.ret (s2, b.addr + 8)) ∧
      Inv s2 (bs1 ++ (Block.mk b.addr b.size false) :: bs2) (l1 ++ l2) ∧
      (∀ x, (x < b.addr ∨ b.stop ≤ x) → (∀ a ∈ l1 ++ l2, x < a + 8 ∨ a + 24 ≤ x) →
        s2.mem x = s.mem x) := by
  have g := inv.geom
  have hbm := mem_mid bs1 bs2 b
  have hgb := g.good b hbm
  have hbb := g.mem_bounds hbm
  obtain ⟨s1, s2, s3, h1, h2, h3, g3, hcf, hca, hfoot⟩ := malloc_stage inv hb
  have hhit : get_payload_size s.mem b.addr ≥ r ∧ is_free s.mem b.addr = true := by
    rw [hgb.payload_eq, hgb.is_free_eq]
    exact ⟨hfit, hb⟩
  refine ⟨s3, ?_, ⟨g3, ?_, ?_, ?_⟩, ?_⟩
  · intro fuel
    rw [mymalloc_loop_hit fuel s r b.addr (by omega) hhit s1 s2 s3 h1 h2 h3, hgb.payload_eq,
      if_neg hns]
  · have hfi := inv.free_iff
    rw [append_cons_eq] at hfi ⊢
    apply free_iff_replace hfi
    · intro d hd
      have := g.addr_ne hd
      simp only [List.mem_cons, List.mem_append]
      constructor
      · rintro (h | h)
        · exact Or.inl h
        · exact Or.inr (Or.inr h)
      · rintro (h | h | h)
        · exact Or.inl h
        · omega
        · exact Or.inr h
    · intro d hd
      have : d = Block.mk b.addr b.size false := by simpa using hd
      subst this
      have hnd := g.nodup
      rw [List.nodup_append] at hnd
      obtain ⟨n1, n2, n3⟩ := hnd
      simp only [List.mem_append, Bool.false_eq_true, iff_false, not_or]
      exact ⟨fun h => n3 h (List.mem_cons_self _ _), (List.nodup_cons.1 n2).1⟩
  · have e1 := filter_length_cons_mid (fun b => b.free) bs1 bs2 b
    have e2 := filter_length_cons_mid (fun b => b.free) bs1 bs2 (Block.mk b.addr b.size false)
    simp only [hb, if_true, if_false, Bool.false_eq_true] at e1 e2
    rw [hcf, inv.cnt_free, e2, e1, sub64_eq (by omega)]
    omega
  · have hlt := g.count_lt (fun b => !b.free)
    have e1 := filter_length_cons_mid (fun b => !b.free) bs1 bs2 b
    have e2 := filter_length_cons_mid (fun b => !b.free) bs1 bs2 (Block.mk b.addr b.size false)
    simp only [hb, if_true, if_false, Bool.not_false, Bool.not_true, Bool.false_eq_true] at e1 e2
    rw [hca, inv.cnt_alloc, e2, e1]
    rw [e1] at hlt
    rw [add64_eq (by omega)]
    omega
  · intro x hx hl
    apply hfoot x _ hl
    omega


theorem add_free_node_count_allocated (s : State) (c : Nat) :
    (add_free_node s c).count_allocated = s.count_allocated := rfl

/-- A successful `mymalloc` that splits the block. -/
theorem malloc_hit_split {s : State} {bs1 bs2 : List Block} {b : Block} {l1 l2 : List Nat}
    (inv : Inv s (bs1 ++ b :: bs2) (l1 ++ b.addr :: l2)) (hb : b.free = true) (r : Nat)
    (hr8 : r % 8 = 0) (hr16 : 16 ≤ r) (hfit : r ≤ b.size) (hsp : b.size - r ≥ 24) :
    ∃ s2, (∀ fuel, mymalloc_loop (fuel + 1) s r b.addr = Outcome.ret (s2, b.addr + 8)) ∧
      Inv s2 (bs1 ++ (Block.mk b.addr r false) ::
          (Block.mk (b.addr + 8 + r) (b.size - r - 8) true) :: bs2)
        ((b.addr + 8 + r) :: (l1 ++ l2)) ∧
      (∀ x, (x < b.addr ∨ b.stop ≤ x) → (∀ a ∈ l1 ++ l2, x < a + 8 ∨ a + 24 ≤ x) →
        s2.mem x = s.mem x) := by
  have g := inv.geom
  have hbm := mem_mid bs1 bs2 b
  have hgb := g.good b hbm
  have hbb := g.mem_bounds hbm
  have hsz := hgb.size_lt
  obtain ⟨s1, s2, s3, h1, h2, h3, g3, hcf, hca, hfoot⟩ := malloc_stage inv hb
  have hhit : get_payload_size s.mem b.addr ≥ r ∧ is_free s.mem b.addr = true := by
    rw [hgb.payload_eq, hgb.is_free_eq]
    exact ⟨hfit, hb⟩
  have g4 := g3.split r hr8 hr16 (by show r + 24 ≤ b.size; omega) false true
  dsimp only at g4
  have hnew : b.addr + 8 + r ∉ l1 ++ l2 := by
    intro h
    obtain ⟨d, hd, hda⟩ := g3.node h
    rcases List.mem_append.1 hd with h5 | h5
    · have := g.addr_ne (List.mem_append_left bs2 h5)
      rw [Block.stop_eq] at this
      omega
    · rcases List.mem_cons.1 h5 with h6 | h6
      · rw [h6] at hda
        have hda : b.addr = b.addr + 8 + r := hda
        omega
      · have := g.addr_ne (List.mem_append_right bs1 h6)
        rw [Block.stop_eq] at this
        omega
  obtain ⟨g5, hfoot5⟩ := g4.add (c := b.addr + 8 + r) (by simp) hnew
  have hsb := split_block_eq s3 b.addr r b.size hr8 hr16 (by omega) (by omega)
    (by rw [Block.stop_eq] at hbb; omega)
  refine ⟨_, ?_, ⟨g5.with_count_free (add64 s3.count_free 1), ?_, ?_, ?_⟩, ?_⟩
  · intro fuel
    rw [mymalloc_loop_hit fuel s r b.addr (by omega) hhit s1 s2 s3 h1 h2 h3, hgb.payload_eq,
      if_pos hsp, hsb]
  · have hfi := inv.free_iff
    rw [append_cons_eq] at hfi
    rw [append_cons2_eq]
    apply free_iff_replace hfi
    · intro d hd
      have := g.addr_ne hd
      rw [Block.stop_eq] at this
      simp only [List.mem_cons, List.mem_append]
      constructor
      · rintro (h | h | h)
        · omega
        · exact Or.inl h
        · exact Or.inr (Or.inr h)
      · rintro (h | h | h)
        · exact Or.inr (Or.inl h)
        · omega
        · exact Or.inr (Or.inr h)
    · intro d hd
      have hnd := g.nodup
      rw [List.nodup_append] at hnd
      obtain ⟨n1, n2, n3⟩ := hnd
      have : d = Block.mk b.addr r false ∨ d = Block.mk (b.addr + 8 + r) (b.size - r - 8) true := by
        simpa using hd
      rcases this with rfl | rfl
      · simp only [List.mem_cons, List.mem_append, Bool.false_eq_true, iff_false, not_or]
        exact ⟨by omega, fun h => n3 h (List.mem_cons_self _ _), (List.nodup_cons.1 n2).1⟩
      · simp
  · have hlt := g.count_lt (fun b => b.free)
    have e1 := filter_length_cons_mid (fun b => b.free) bs1 bs2 b
    have e2 := filter_length_cons2_mid (fun b => b.free) bs1 bs2 (Block.mk b.addr r false)
      (Block.mk (b.addr + 8 + r) (b.size - r - 8) true)
    simp only [hb, if_true, if_false, Bool.false_eq_true] at e1 e2
    dsimp only
    rw [e1] at hlt
    rw [hcf, inv.cnt_free, e2, e1, sub64_eq (by omega), add64_eq (by omega)]
    omega
  · have hlt := g.count_lt (fun b => !b.free)
    have e1 := filter_length_cons_mid (fun b => !b.free) bs1 bs2 b
    have e2 := filter_length_cons2_mid (fun b => !b.free) bs1 bs2 (Block.mk b.addr r false)
      (Block.mk (b.addr + 8 + r) (b.size - r - 8) true)
    simp only [hb, if_true, if_false, Bool.not_false, Bool.not_true, Bool.false_eq_true] at e1 e2
    dsimp only
    rw [add_free_node_count_allocated]
    dsimp only
    rw [e1] at hlt
    rw [hca, inv.cnt_alloc, e2, e1, add64_eq (by omega)]
    omega
  · intro x hx hl
    dsimp only
    rw [hfoot5 x]
    · dsimp only
      rw [Block.stop_eq] at hx
      rw [store64_byte_other _ _ _ _ (by omega), store64_byte_other _ _ _ _ (by omega)]
      apply hfoot x _ hl
      omega
    · intro a ha
      rcases List.mem_cons.1 ha with rfl | ha
      · rw [Block.stop_eq] at hx
        omega
      · exact hl a ha



theorem list_first_fit {α : Type} (p : α → Prop) (l : List α) :
    (∀ a ∈ l, ¬ p a) ∨ ∃ l1 a l2, l = l1 ++ a :: l2 ∧ (∀ x ∈ l1, ¬ p x) ∧ p a := by
  induction l with
  | nil => left; intro a ha; cases ha
  | cons c l ih =>
    by_cases hc : p c
    · right; exact ⟨[], c, l, rfl, fun x hx => absurd hx (List.not_mem_nil x), hc⟩
    · rcases ih with h | ⟨l1, a, l2, h1, h2, h3⟩
      · left
        intro a ha
        rcases List.mem_cons.1 ha with rfl | ha
        · exact hc
        · exact h a ha
      · right
        refine ⟨c :: l1, a, l2, by rw [h1]; rfl, ?_, h3⟩
        intro x hx
        rcases List.mem_cons.1 hx with rfl | hx
        · exact hc
        · exact h2 x hx

theorem rounded_request_eq (n : Nat) :
    rounded_request n = max 16 ((n + 7) % SIZE_MOD / 8 * 8) := by
  unfold rounded_request HEADER_SIZE
  rw [roundup_eight]
  split <;> omega

theorem rounded_request_props (n : Nat) :
    rounded_request n % 8 = 0 ∧ 16 ≤ rounded_request n := by
  rw [rounded_request_eq]
  omega

/-- Without a wrap-around the rounded request is at least the request. -/
theorem rounded_request_ge (n : Nat) (h : n + 7 < SIZE_MOD) : n ≤ rounded_request n := by
  rw [rounded_request_eq, Nat.mod_eq_of_lt h]
  omega

theorem mymalloc_loop_zero (s : State) (r h : Nat) :
    mymalloc_loop 0 s r h = Outcome.timeout := rfl

/-- With too little fuel the loop of `mymalloc` does not return. -/
theorem mymalloc_loop_short {s : State} {r : Nat} {l1 : List Nat} {p h mid : Nat}
    (hseg : Seg s.mem p h l1 mid)
    (hsmall : ∀ a ∈ l1, ¬ (get_payload_size s.mem a ≥ r ∧ is_free s.mem a = true))
    (fuel : Nat) (hf : fuel ≤ l1.length) :
    mymalloc_loop fuel s r h = Outcome.timeout := by
  induction l1 generalizing p h fuel with
  | nil =>
    have : fuel = 0 := by simpa using hf
    subst this
    rfl
  | cons a l ih =>
    cases fuel with
    | zero => rfl
    | succ f =>
      obtain ⟨h1, h2, _, h4⟩ := hseg
      subst h1
      rw [mymalloc_loop_miss _ _ _ _ h2 (hsmall h (List.mem_cons_self _ _))]
      exact ih h4 (fun a ha => hsmall a (List.mem_cons_of_mem _ ha)) f
        (by simp at hf; omega)

/-- A node of the free list is a free block of the tiling. -/
theorem Inv.node_block {s : State} {bs : List Block} {l : List Nat} (inv : Inv s bs l)
    {a : Nat} (ha : a ∈ l) :
    ∃ bs1 b bs2, bs = bs1 ++ b :: bs2 ∧ b.addr = a ∧ b.free = true := by
  obtain ⟨b, hb, rfl⟩ := inv.geom.node ha
  obtain ⟨bs1, bs2, rfl⟩ := List.append_of_mem hb
  exact ⟨bs1, b, bs2, rfl, rfl, (inv.free_iff b hb).1 ha⟩

theorem Inv.node_size {s : State} {bs : List Block} {l : List Nat} (inv : Inv s bs l)
    {b : Block} (hb : b ∈ bs) :
    get_payload_size s.mem b.addr = b.size ∧ is_free s.mem b.addr = b.free :=
  ⟨(inv.geom.good b hb).payload_eq, (inv.geom.good b hb).is_free_eq⟩

/-- The loop of `mymalloc` on a state that satisfies the invariant: with enough
fuel it returns; what it returns is `NULL` with the state unchanged when no
list node fits, and the payload of the first fitting node otherwise. -/
theorem mymalloc_loop_spec {s : State} {bs : List Block} {l : List Nat} (inv : Inv s bs l)
    (r : Nat) (hr8 : r % 8 = 0) (hr16 : 16 ≤ r) :
    ((∀ a ∈ l, get_payload_size s.mem a < r) ∧
      ∀ fuel, (l.length < fuel → mymalloc_loop fuel s r s.first_free_ptr = Outcome.ret (s, 0)) ∧
        (fuel ≤ l.length → mymalloc_loop fuel s r s.first_free_ptr = Outcome.timeout)) ∨
    (∃ bs1 b bs2 l1 l2 s2, bs = bs1 ++ b :: bs2 ∧ l = l1 ++ b.addr :: l2 ∧ b.free = true ∧
      (∀ a ∈ l1, get_payload_size s.mem a < r) ∧ r ≤ b.size ∧
      MallocPost s bs1 b bs2 l1 l2 r s2 ∧
      ∀ fuel, (l1.length < fuel →
          mymalloc_loop fuel s r s.first_free_ptr = Outcome.ret (s2, b.addr + 8)) ∧
        (fuel ≤ l1.length → mymalloc_loop fuel s r s.first_free_ptr = Outcome.timeout)) := by
  have g := inv.geom
  have hsm : ∀ l0 : List Nat, (∀ a ∈ l0, a ∈ l) → (∀ a ∈ l0, ¬ r ≤ get_payload_size s.mem a) →
      ∀ a ∈ l0, ¬ (get_payload_size s.mem a ≥ r ∧ is_free s.mem a = true) := by
    intro l0 _ h a ha hh
    exact h a ha hh.1
  rcases list_first_fit (fun a => r ≤ get_payload_size s.mem a) l with hall | ⟨l1, a, l2, hl, hsmall, hfit⟩
  · left
    refine ⟨fun a ha => by have := hall a ha; omega, fun fuel => ⟨?_, ?_⟩⟩
    · intro hf
      obtain ⟨k, rfl⟩ : ∃ k, fuel = l.length + (k + 1) := ⟨fuel - l.length - 1, by omega⟩
      rw [mymalloc_loop_skip (k + 1) g.chain (hsm l (fun a h => h) hall), mymalloc_loop_null]
    · intro hf
      exact mymalloc_loop_short g.chain (hsm l (fun a h => h) hall) fuel hf
  · right
    subst hl
    obtain ⟨bs1, b, bs2, rfl, rfl, hb⟩ := inv.node_block (mem_mid l1 l2 a)
    have hsz := (inv.node_size (mem_mid bs1 bs2 b)).1
    have hfit : r ≤ b.size := by rw [← hsz]; exact hfit
    obtain ⟨mid, hs1, hs2⟩ := seg_append.1 g.chain
    have hmid : mid = b.addr := hs2.1
    subst hmid
    have hsm1 := hsm l1 (fun a h => List.mem_append_left _ h) hsmall
    have hpost : ∃ s2, (∀ fuel, mymalloc_loop (fuel + 1) s r b.addr = Outcome.ret (s2, b.addr + 8)) ∧
        MallocPost s bs1 b bs2 l1 l2 r s2 := by
      by_cases hsp : b.size - r ≥ 24
      · obtain ⟨s2, h1, h2, h3⟩ := malloc_hit_split inv hb r hr8 hr16 hfit hsp
        refine ⟨s2, h1, ?_, h3⟩
        rw [if_pos hsp]; exact h2
      · obtain ⟨s2, h1, h2, h3⟩ := malloc_hit_nosplit inv hb r hfit hsp
        refine ⟨s2, h1, ?_, h3⟩
        rw [if_neg hsp]; exact h2
    obtain ⟨s2, hrun, hpost⟩ := hpost
    refine ⟨bs1, b, bs2, l1, l2, s2, rfl, rfl, hb, ?_, hfit, hpost, fun fuel => ⟨?_, ?_⟩⟩
    · intro a ha
      have := hsmall a ha
      omega
    · intro hf
      obtain ⟨k, rfl⟩ : ∃ k, fuel = l1.length + (k + 1) := ⟨fuel - l1.length - 1, by omega⟩
      rw [mymalloc_loop_skip (k + 1) hs1 hsm1, hrun]
    · intro hf
      exact mymalloc_loop_short hs1 hsm1 fuel hf



theorem mymalloc_zero (M fuel : Nat) (s : State) : mymalloc M fuel s 0 = Outcome.ret (s, 0) := by
  unfold mymalloc
  rw [if_pos rfl]

theorem mymalloc_over (M fuel : Nat) (s : State) (n : Nat) (h : n > M) :
    mymalloc M fuel s n = Outcome.ret (s, 0) := by
  unfold mymalloc
  by_cases h0 : n = 0
  · rw [if_pos h0]
  · rw [if_neg h0, if_pos h]

theorem mymalloc_empty (M fuel : Nat) (s : State) (n : Nat) (h : s.first_free_ptr = 0) :
    mymalloc M fuel s n = Outcome.ret (s, 0) := by
  unfold mymalloc
  by_cases h0 : n = 0
  · rw [if_pos h0]
  · rw [if_neg h0]
    by_cases hm : n > M
    · rw [if_pos hm]
    · rw [if_neg hm, if_pos h]

theorem mymalloc_eq_loop (M fuel : Nat) (s : State) (n : Nat) (h0 : n ≠ 0) (hm : n ≤ M)
    (hf : s.first_free_ptr ≠ 0) :
    mymalloc M fuel s n = mymalloc_loop fuel s (rounded_request n) s.first_free_ptr := by
  unfold mymalloc
  rw [if_neg h0, if_neg (by omega), if_neg hf]
  rfl

theorem Inv.first_zero_iff {s : State} {bs : List Block} {l : List Nat} (inv : Inv s bs l) :
    s.first_free_ptr = 0 ↔ l = [] := by
  have hc := inv.geom.chain
  cases l with
  | nil => exact ⟨fun _ => rfl, fun _ => hc⟩
  | cons a l =>
    constructor
    · intro h
      have := hc.1
      have := hc.2.1
      omega
    · intro h
      cases h

/-- Every returning `mymalloc` call keeps the invariant: either nothing
changes and `NULL` is returned, or the first fitting free-list node is taken. -/
theorem mymalloc_spec {s : State} {bs : List Block} {l : List Nat} (inv : Inv s bs l)
    (M fuel n : Nat) (s2 : State) (p : Nat)
    (h : mymalloc M fuel s n = Outcome.ret (s2, p)) :
    (s2 = s ∧ p = 0 ∧
      (n = 0 ∨ n > M ∨ ∀ a ∈ l, get_payload_size s.mem a < rounded_request n)) ∨
    (n ≠ 0 ∧ n ≤ M ∧ ∃ bs1 b bs2 l1 l2, bs = bs1 ++ b :: bs2 ∧ l = l1 ++ b.addr :: l2 ∧
      b.free = true ∧ (∀ a ∈ l1, get_payload_size s.mem a < rounded_request n) ∧
      rounded_request n ≤ b.size ∧ p = b.addr + 8 ∧
      MallocPost s bs1 b bs2 l1 l2 (rounded_request n) s2) := by
  by_cases h0 : n = 0
  · subst h0
    rw [mymalloc_zero] at h
    cases h
    exact Or.inl ⟨rfl, rfl, Or.inl rfl⟩
  by_cases hm : n > M
  · rw [mymalloc_over _ _ _ _ hm] at h
    cases h
    exact Or.inl ⟨rfl, rfl, Or.inr (Or.inl hm)⟩
  by_cases hf : s.first_free_ptr = 0
  · rw [mymalloc_empty _ _ _ _ hf] at h
    cases h
    have := inv.first_zero_iff.1 hf
    subst this
    exact Or.inl ⟨rfl, rfl, Or.inr (Or.inr (fun a ha => absurd ha (List.not_mem_nil a)))⟩
  rw [mymalloc_eq_loop _ _ _ _ h0 (by omega) hf] at h
  obtain ⟨hr8, hr16⟩ := rounded_request_props n
  rcases mymalloc_loop_spec inv (rounded_request n) hr8 hr16 with
    ⟨hall, hrun⟩ | ⟨bs1, b, bs2, l1, l2, s3, e1, e2, hb, hsmall, hfit, hpost, hrun⟩
  · by_cases hfu : l.length < fuel
    · rw [(hrun fuel).1 hfu] at h
      cases h
      exact Or.inl ⟨rfl, rfl, Or.inr (Or.inr hall)⟩
    · rw [(hrun fuel).2 (by omega)] at h
      cases h
  · by_cases hfu : l1.length < fuel
    · rw [(hrun fuel).1 hfu] at h
      cases h
      exact Or.inr ⟨h0, by omega, bs1, b, bs2, l1, l2, e1, e2, hb, hsmall, hfit, rfl, hpost⟩
    · rw [(hrun fuel).2 (by omega)] at h
      cases h

/-- With enough fuel `mymalloc` returns. -/
theorem mymalloc_returns {s : State} {bs : List Block} {l : List Nat} (inv : Inv s bs l)
    (M fuel n : Nat) (hf : l.length < fuel) :
    ∃ s2 p, mymalloc M fuel s n = Outcome.ret (s2, p) := by
  by_cases h0 : n = 0
  · subst h0; exact ⟨s, 0, mymalloc_zero _ _ _⟩
  by_cases hm : n > M
  · exact ⟨s, 0, mymalloc_over _ _ _ _ hm⟩
  by_cases hfz : s.first_free_ptr = 0
  · exact ⟨s, 0, mymalloc_empty _ _ _ _ hfz⟩
  rw [mymalloc_eq_loop _ _ _ _ h0 (by omega) hfz]
  obtain ⟨hr8, hr16⟩ := rounded_request_props n
  rcases mymalloc_loop_spec inv (rounded_request n) hr8 hr16 with
    ⟨hall, hrun⟩ | ⟨bs1, b, bs2, l1, l2, s3, e1, e2, hb, hsmall, hfit, hpost, hrun⟩
  · exact ⟨s, 0, (hrun fuel).1 hf⟩
  · refine ⟨s3, b.addr + 8, (hrun fuel).1 ?_⟩
    rw [e2] at hf
    simp at hf
    omega

theorem MallocPost.inv {s : State} {bs1 bs2 : List Block} {b : Block} {l1 l2 : List Nat}
    {r : Nat} {s2 : State} (h : MallocPost s bs1 b bs2 l1 l2 r s2) :
    ∃ bs3 l3, Inv s2 bs3 l3 := by
  obtain ⟨h1, _⟩ := h
  split at h1
  · exact ⟨_, _, h1⟩
  · exact ⟨_, _, h1⟩

theorem mymalloc_inv {s : State} {bs : List Block} {l : List Nat} (inv : Inv s bs l)
    (M fuel n : Nat) (s2 : State) (p : Nat)
    (h : mymalloc M fuel s n = Outcome.ret (s2, p)) : ∃ bs3 l3, Inv s2 bs3 l3 := by
  rcases mymalloc_spec inv M fuel n s2 p h with ⟨rfl, _⟩ | ⟨_, _, _, _, _, _, _, _, _, _, _, _, _, hp⟩
  · exact ⟨bs, l, inv⟩
  · exact hp.inv



/-! ## Pointers handed to `myfree` and `myrealloc` -/

theorem Inv.walk_eq {s : State} {bs : List Block} {l : List Nat} (inv : Inv s bs l)
    (hne : bs ≠ []) :
    heap_walk s.segment_size s.mem s.segment_start (s.segment_start + s.segment_size)
      = some (bs.map Block.addr, s.segment_start + s.segment_size) := by
  rcases inv.geom.blocks_lt with h | h
  · exact inv.geom.walk _ h
  · exact absurd h hne

theorem Inv.walk_nil {s : State} {l : List Nat} (inv : Inv s [] l) :
    heap_walk s.segment_size s.mem s.segment_start (s.segment_start + s.segment_size) = none := by
  have h1 : s.segment_start = s.end_heap := inv.geom.contig
  have h2 := inv.geom.end_eq
  have h3 : s.segment_size = 0 := by omega
  rw [h3]
  rfl

/-- An allocated pointer is the payload address of an allocated block of the tiling. -/
theorem Inv.allocated_ptr {s : State} {bs : List Block} {l : List Nat} (inv : Inv s bs l)
    {p : Nat} (hp : is_allocated_ptr s p = true) :
    ∃ bs1 b bs2, bs = bs1 ++ b :: bs2 ∧ p = b.addr + 8 ∧ b.free = false := by
  unfold is_allocated_ptr at hp
  cases bs with
  | nil =>
    rw [inv.walk_nil] at hp
    cases hp
  | cons c bs0 =>
    rw [inv.walk_eq (by simp)] at hp
    simp only [Bool.and_eq_true, decide_eq_true_eq, Bool.not_eq_true', List.contains_iff_exists_mem_beq,
      beq_iff_eq] at hp
    obtain ⟨⟨h8, a, ha, hpa⟩, hfree⟩ := hp
    unfold HEADER_SIZE at h8
    unfold payload_to_header HEADER_SIZE at hpa hfree
    obtain ⟨b, hb, rfl⟩ : ∃ b ∈ c :: bs0, b.addr = a := List.mem_map.1 ha
    obtain ⟨bs1, bs2, e⟩ := List.append_of_mem hb
    refine ⟨bs1, b, bs2, e, by omega, ?_⟩
    rw [hpa, (inv.geom.good b hb).is_free_eq] at hfree
    exact hfree

/-- A byte of an allocated payload lies in an allocated block of the tiling. -/
theorem Inv.allocated_payload {s : State} {bs : List Block} {l : List Nat} (inv : Inv s bs l)
    {x : Nat} (hx : in_allocated_payload s x = true) :
    ∃ bs1 b bs2, bs = bs1 ++ b :: bs2 ∧ b.free = false ∧ b.addr + 8 ≤ x ∧ x < b.stop := by
  unfold in_allocated_payload at hx
  cases bs with
  | nil =>
    rw [inv.walk_nil] at hx
    cases hx
  | cons c bs0 =>
    rw [inv.walk_eq (by simp)] at hx
    simp only [List.any_eq_true, Bool.and_eq_true, Bool.not_eq_true', decide_eq_true_eq] at hx
    obtain ⟨a, ha, hfree, h1, h2⟩ := hx
    obtain ⟨b, hb, rfl⟩ : ∃ b ∈ c :: bs0, b.addr = a := List.mem_map.1 ha
    obtain ⟨bs1, bs2, e⟩ := List.append_of_mem hb
    have hg := inv.geom.good b hb
    rw [hg.is_free_eq] at hfree
    rw [hg.next_eq (by have := inv.geom.mem_bounds hb; omega)] at h2
    unfold header_to_payload HEADER_SIZE at h1
    exact ⟨bs1, b, bs2, e, hfree, h1, h2⟩

/-- Writing into the payload of an allocated block keeps the invariant. -/
theorem Inv.payload_store {s : State} {bs1 bs2 : List Block} {b : Block} {l : List Nat}
    (inv : Inv s (bs1 ++ b :: bs2) l) (hb : b.free = false) (m2 : Mem)
    (hm : ∀ z, z < b.addr + 8 ∨ b.stop ≤ z → m2 z = s.mem z) :
    Inv { s with mem := m2 } (bs1 ++ b :: bs2) l := by
  have hbl : b.addr ∉ l := by
    intro h
    have := (inv.free_iff b (mem_mid bs1 bs2 b)).1 h
    rw [hb] at this
    cases this
  exact ⟨inv.geom.payload hbl m2 hm, inv.free_iff, inv.cnt_free, inv.cnt_alloc⟩

/-- Function `myfree` keeps the invariant. -/
theorem myfree_inv {s : State} {bs : List Block} {l : List Nat} (inv : Inv s bs l)
    (p : Nat) (hp : p = 0 ∨ is_allocated_ptr s p = true) :
    ∃ bs3 l3, Inv (myfree s p) bs3 l3 := by
  by_cases h0 : p = 0
  · subst h0
    have : myfree s 0 = s := by unfold myfree; rw [if_pos rfl]
    rw [this]
    exact ⟨bs, l, inv⟩
  obtain ⟨bs1, b, bs2, rfl, rfl, hb⟩ := inv.allocated_ptr (hp.resolve_left h0)
  cases bs2 with
  | nil => exact ⟨_, _, (myfree_plain inv hb (fun c bs3 h => by cases h)).1⟩
  | cons c bs3 =>
    cases hc : c.free with
    | false =>
      refine ⟨_, _, (myfree_plain inv hb (fun c2 bs4 h => ?_)).1⟩
      cases h
      exact hc
    | true =>
      have hcl : c.addr ∈ l := (inv.free_iff c (mem_mid2 bs1 bs3 b c)).2 hc
      obtain ⟨l1, l2, rfl⟩ := List.append_of_mem hcl
      exact ⟨_, _, (myfree_merge inv hb hc).1⟩



/-! ## The coalescing loop of `myrealloc` -/

/-- One merging step of `coalesce` on an allocated block keeps the invariant. -/
theorem coalesce_merge_inv {s : State} {bs1 bs2 : List Block} {b c : Block} {l1 l2 : List Nat}
    (inv : Inv s (bs1 ++ b :: c :: bs2) (l1 ++ c.addr :: l2)) (hb : b.free = false)
    (hc : c.free = true) :
    (coalesce s b.addr).2 = true ∧
    Inv (coalesce s b.addr).1
      (bs1 ++ (Block.mk b.addr (8 + b.size + c.size) false) :: bs2) (l1 ++ l2) ∧
    (∀ x, (x < b.addr ∨ b.addr + 8 ≤ x) → (∀ a ∈ l1 ++ l2, x < a + 8 ∨ a + 24 ≤ x) →
      (coalesce s b.addr).1.mem x = s.mem x) := by
  have g := inv.geom
  obtain ⟨h1, g2, hcf, hca, hfoot⟩ := coalesce_merge g hc
  have hbm := mem_mid bs1 (c :: bs2) b
  have hcm := mem_mid2 bs1 bs2 b c
  have hbb := g.mem_bounds hbm
  have hcb := g.mem_bounds hcm
  have hcadj : c.addr = b.stop := g.split_at.2.1
  refine ⟨h1, ⟨g2, ?_, ?_, ?_⟩, hfoot⟩
  · have hfi := inv.free_iff
    rw [append_cons2_eq] at hfi
    rw [append_cons_eq]
    apply free_iff_replace hfi
    · intro d hd
      have h1 : d.addr + 24 ≤ b.addr ∨ c.stop ≤ d.addr := by
        rcases List.mem_append.1 hd with h | h
        · exact Or.inl ((g.addr_ne (List.mem_append_left _ h)).resolve_right (by
            have := (contig_mem g.split_at.1 h).2
            have := (g.mem_bounds (List.mem_append_left _ h)).2.1
            omega))
        · right
          exact (contig_mem g.split_at.2.2 h).1
      simp only [List.mem_cons, List.mem_append]
      constructor
      · rintro (h | h)
        · exact Or.inl h
        · exact Or.inr (Or.inr h)
      · rintro (h | h | h)
        · exact Or.inl h
        · omega
        · exact Or.inr h
    · intro d hd
      have : d = Block.mk b.addr (8 + b.size + c.size) false := by simpa using hd
      subst this
      have hbl : b.addr ∉ l1 ++ c.addr :: l2 := by
        intro h
        have := (inv.free_iff b hbm).1 h
        rw [hb] at this
        cases this
      simp only [Bool.false_eq_true, iff_false]
      intro h
      apply hbl
      rcases List.mem_append.1 h with h | h
      · exact List.mem_append_left _ h
      · exact List.mem_append_right _ (List.mem_cons_of_mem _ h)
  · have e1 := filter_length_cons2_mid (fun b => b.free) bs1 bs2 b c
    have e2 := filter_length_cons_mid (fun b => b.free) bs1 bs2
      (Block.mk b.addr (8 + b.size + c.size) false)
    simp only [hb, hc, if_true, if_false, Bool.false_eq_true] at e1 e2
    rw [hcf, inv.cnt_free, e2, e1, sub64_eq (by omega)]
    omega
  · have e1 := filter_length_cons2_mid (fun b => !b.free) bs1 bs2 b c
    have e2 := filter_length_cons_mid (fun b => !b.free) bs1 bs2
      (Block.mk b.addr (8 + b.size + c.size) false)
    simp only [hb, hc, if_true, if_false, Bool.not_false, Bool.not_true, Bool.false_eq_true] at e1 e2
    rw [hca, inv.cnt_alloc, e2, e1]

theorem coalesce_loop_step (fuel : Nat) (s : State) (h : Nat) (hc : (coalesce s h).2 = true) :
    coalesce_loop (fuel + 1) s h = coalesce_loop fuel (coalesce s h).1 h := by
  conv => lhs; unfold coalesce_loop
  rw [if_pos hc]

theorem coalesce_loop_stop (fuel : Nat) (s : State) (h : Nat) (hc : coalesce s h = (s, false)) :
    coalesce_loop (fuel + 1) s h = Outcome.ret s := by
  unfold coalesce_loop
  rw [hc]
  rfl

/-- The coalescing loop of `myrealloc` absorbs the maximal run `fs` of free
blocks that follow the allocated block `b`. -/
theorem coalesce_loop_spec (fs : List Block) :
    ∀ {s : State} {bs1 rest : List Block} {b : Block} {l : List Nat},
    Inv s (bs1 ++ b :: (fs ++ rest)) l → b.free = false → (∀ f ∈ fs, f.free = true) →
    (∀ c rest2, rest = c :: rest2 → c.free = false) →
    ∃ s2 l2,
      (∀ fuel, (fs.length < fuel → coalesce_loop fuel s b.addr = Outcome.ret s2) ∧
        (fuel ≤ fs.length → coalesce_loop fuel s b.addr = Outcome.timeout)) ∧
      Inv s2 (bs1 ++ (Block.mk b.addr (b.size + (fs.map (fun f => 8 + f.size)).sum) false) :: rest) l2 ∧
      l2.Sublist l ∧ (∀ a, a ∈ l2 ↔ a ∈ l ∧ a ∉ fs.map Block.addr) ∧
      (∀ x, (x < b.addr ∨ b.addr + 8 ≤ x) → (∀ a ∈ l, x < a + 8 ∨ a + 24 ≤ x) →
        s2.mem x = s.mem x) := by
  induction fs with
  | nil =>
    intro s bs1 rest b l inv hb _ hrest
    have hco : coalesce s b.addr = (s, false) := by
      cases rest with
      | nil => exact coalesce_last inv.geom
      | cons c rest2 => exact coalesce_alloc inv.geom (hrest c rest2 rfl)
    refine ⟨s, l, fun fuel => ⟨?_, ?_⟩, ?_, List.Sublist.refl l, ?_, fun x _ _ => rfl⟩
    · intro hf
      obtain ⟨k, rfl⟩ : ∃ k, fuel = k + 1 := ⟨fuel - 1, by simp at hf; omega⟩
      exact coalesce_loop_stop k s b.addr hco
    · intro hf
      have : fuel = 0 := by simpa using hf
      subst this
      rfl
    · have e : Block.mk b.addr (b.size + (([] : List Block).map (fun f => 8 + f.size)).sum) false = b := by
        cases b
        simp at hb ⊢
        exact hb
      rw [e]
      exact inv
    · intro a
      simp
  | cons c fs ih =>
    intro s bs1 rest b l inv hb hfs hrest
    have hc : c.free = true := hfs c (List.mem_cons_self _ _)
    have hcl : c.addr ∈ l :=
      (inv.free_iff c (mem_mid2 bs1 (fs ++ rest) b c)).2 hc
    obtain ⟨l1, l2, rfl⟩ := List.append_of_mem hcl
    obtain ⟨h1, inv1, hfoot1⟩ := @coalesce_merge_inv s bs1 (fs ++ rest) b c l1 l2 inv hb hc
    obtain ⟨s2, l3, hrun, inv2, hsub, hmem, hfoot2⟩ :=
      ih (b := Block.mk b.addr (8 + b.size + c.size) false) inv1 rfl
        (fun f hf => hfs f (List.mem_cons_of_mem _ hf)) hrest
    have hnd := inv.geom.nodup
    have hcnot : c.addr ∉ l1 ++ l2 := by
      rw [List.nodup_append] at hnd
      obtain ⟨n1, n2, n3⟩ := hnd
      intro h
      rcases List.mem_append.1 h with h | h
      · exact n3 h (List.mem_cons_self _ _)
      · exact (List.nodup_cons.1 n2).1 h
    refine ⟨s2, l3, fun fuel => ⟨?_, ?_⟩, ?_, ?_, ?_, ?_⟩
    · intro hf
      obtain ⟨k, rfl⟩ : ∃ k, fuel = k + 1 := ⟨fuel - 1, by simp at hf; omega⟩
      rw [coalesce_loop_step k s b.addr h1]
      exact (hrun k).1 (by simp at hf; omega)
    · intro hf
      cases fuel with
      | zero => rfl
      | succ k =>
        rw [coalesce_loop_step k s b.addr h1]
        exact (hrun k).2 (by simp at hf; omega)
    · have e : (8 + b.size + c.size) + (fs.map (fun f => 8 + f.size)).sum
          = b.size + ((c :: fs).map (fun f => 8 + f.size)).sum := by
        simp only [List.map_cons, List.sum_cons]
        omega
      have inv3 := inv2
      dsimp only at inv3
      rw [e] at inv3
      exact inv3
    · exact hsub.trans (List.Sublist.append (List.Sublist.refl l1) (List.sublist_cons_self _ _))
    · intro a
      rw [hmem a]
      simp only [List.mem_append, List.mem_cons, List.map_cons, not_or]
      constructor
      · rintro ⟨h | h, h2⟩
        · refine ⟨Or.inl h, ?_, h2⟩
          rintro rfl
          exact hcnot (List.mem_append_left _ h)
        · refine ⟨Or.inr (Or.inr h), ?_, h2⟩
          rintro rfl
          exact hcnot (List.mem_append_right _ h)
      · rintro ⟨h | h | h, h2, h3⟩
        · exact ⟨Or.inl h, h3⟩
        · exact absurd h h2
        · exact ⟨Or.inr h, h3⟩
    · intro x hx hl
      have hl2 : ∀ a ∈ l1 ++ l2, x < a + 8 ∨ a + 24 ≤ x := by
        intro a ha
        apply hl
        rcases List.mem_append.1 ha with h | h
        · exact List.mem_append_left _ h
        · exact List.mem_append_right _ (List.mem_cons_of_mem _ h)
      rw [hfoot2 x hx hl2]
      exact hfoot1 x hx hl2



/-! ## `myrealloc` -/

/-- Every block list starts with a maximal run of free blocks. -/
theorem free_run_split (bs : List Block) :
    ∃ fs rest, bs = fs ++ rest ∧ (∀ f ∈ fs, f.free = true) ∧
      (∀ c rest2, rest = c :: rest2 → c.free = false) := by
  induction bs with
  | nil => exact ⟨[], [], rfl, fun f hf => absurd hf (List.not_mem_nil f), fun c r h => by cases h⟩
  | cons c bs ih =>
    cases hc : c.free with
    | false =>
      refine ⟨[], c :: bs, rfl, fun f hf => absurd hf (List.not_mem_nil f), fun c2 r h => ?_⟩
      cases h
      exact hc
    | true =>
      obtain ⟨fs, rest, e, h1, h2⟩ := ih
      refine ⟨c :: fs, rest, by rw [e]; rfl, ?_, h2⟩
      intro f hf
      rcases List.mem_cons.1 hf with rfl | hf
      · exact hc
      · exact h1 f hf

theorem myrealloc_null (M fuel : Nat) (s : State) (n : Nat) :
    myrealloc M fuel s 0 n = mymalloc M fuel s n := by
  unfold myrealloc
  rw [if_pos rfl]

theorem myrealloc_zero (M fuel : Nat) (s : State) (p : Nat) (hp : p ≠ 0) :
    myrealloc M fuel s p 0 = Outcome.ret (myfree s p, 0) := by
  unfold myrealloc
  rw [if_neg hp, if_pos rfl]

theorem myrealloc_timeout (M fuel : Nat) (s : State) (p n : Nat) (hp : p ≠ 0) (hn : n ≠ 0)
    (hloop : coalesce_loop fuel s (p - 8) = Outcome.timeout) :
    myrealloc M fuel s p n = Outcome.timeout := by
  unfold myrealloc
  rw [if_neg hp, if_neg hn]
  dsimp only [payload_to_header, HEADER_SIZE]
  rw [hloop]

theorem myrealloc_same (M fuel : Nat) (s : State) (p n : Nat) (hp : p ≠ 0) (hn : n ≠ 0)
    (s1 : State) (hloop : coalesce_loop fuel s (p - 8) = Outcome.ret s1)
    (hr : rounded_request n = get_payload_size s1.mem (p - 8)) :
    myrealloc M fuel s p n = Outcome.ret (s1, p) := by
  unfold myrealloc
  rw [if_neg hp, if_neg hn]
  dsimp only [payload_to_header, HEADER_SIZE]
  rw [hloop]
  dsimp only
  unfold rounded_request HEADER_SIZE at hr
  rw [if_pos hr]

theorem myrealloc_shrink (M fuel : Nat) (s : State) (p n : Nat) (hp : p ≠ 0) (hn : n ≠ 0)
    (s1 : State) (hloop : coalesce_loop fuel s (p - 8) = Outcome.ret s1)
    (hr : rounded_request n < get_payload_size s1.mem (p - 8)) (s2 : State)
    (h2 : s2 = { s1 with mem := set_header s1.mem (p - 8) (get_payload_size s1.mem (p - 8)) false }) :
    myrealloc M fuel s p n =
      Outcome.ret (if add64 (rounded_request n) MINIMUM_BYTES_24 ≤ get_payload_size s2.mem (p - 8)
        then split_block s2 (p - 8) (rounded_request n) (get_payload_size s2.mem (p - 8))
        else s2, p) := by
  rw [h2]
  unfold myrealloc
  rw [if_neg hp, if_neg hn]
  dsimp only [payload_to_header, HEADER_SIZE]
  rw [hloop]
  dsimp only
  unfold rounded_request HEADER_SIZE at hr ⊢
  rw [if_neg (by omega), if_pos hr]

theorem myrealloc_grow (M fuel : Nat) (s : State) (p n : Nat) (hp : p ≠ 0) (hn : n ≠ 0)
    (s1 : State) (hloop : coalesce_loop fuel s (p - 8) = Outcome.ret s1)
    (hr : get_payload_size s1.mem (p - 8) < rounded_request n) (s2 : State) (q : Nat)
    (hm : mymalloc M fuel s1 n = Outcome.ret (s2, q)) (hq : q ≠ 0) :
    myrealloc M fuel s p n =
      Outcome.ret (myfree { s2 with mem := memcpy s2.mem q p (if get_payload_size s1.mem (p - 8) < n then get_payload_size s1.mem (p - 8) else n) } p, q) := by
  unfold myrealloc
  rw [if_neg hp, if_neg hn]
  dsimp only [payload_to_header, HEADER_SIZE]
  rw [hloop]
  dsimp only
  unfold rounded_request HEADER_SIZE at hr
  rw [if_neg (by omega), if_neg (by omega), hm]
  dsimp only
  rw [if_neg hq]

theorem myrealloc_grow_fault (M fuel : Nat) (s : State) (p n : Nat) (hp : p ≠ 0) (hn : n ≠ 0)
    (s1 : State) (hloop : coalesce_loop fuel s (p - 8) = Outcome.ret s1)
    (hr : get_payload_size s1.mem (p - 8) < rounded_request n) (s2 : State)
    (hm : mymalloc M fuel s1 n = Outcome.ret (s2, 0)) :
    myrealloc M fuel s p n = Outcome.fault := by
  unfold myrealloc
  rw [if_neg hp, if_neg hn]
  dsimp only [payload_to_header, HEADER_SIZE]
  rw [hloop]
  dsimp only
  unfold rounded_request HEADER_SIZE at hr
  rw [if_neg (by omega), if_neg (by omega), hm]
  dsimp only
  rw [if_pos rfl]

theorem myrealloc_grow_timeout (M fuel : Nat) (s : State) (p n : Nat) (hp : p ≠ 0) (hn : n ≠ 0)
    (s1 : State) (hloop : coalesce_loop fuel s (p - 8) = Outcome.ret s1)
    (hr : get_payload_size s1.mem (p - 8) < rounded_request n)
    (hm : mymalloc M fuel s1 n = Outcome.timeout) :
    myrealloc M fuel s p n = Outcome.timeout := by
  unfold myrealloc
  rw [if_neg hp, if_neg hn]
  dsimp only [payload_to_header, HEADER_SIZE]
  rw [hloop]
  dsimp only
  unfold rounded_request HEADER_SIZE at hr
  rw [if_neg (by omega), if_neg (by omega), hm]

theorem mymalloc_loop_no_fault (fuel : Nat) (s : State) (r h : Nat) :
    mymalloc_loop fuel s r h ≠ Outcome.fault := by
  induction fuel generalizing h with
  | zero => intro hh; cases hh
  | succ f ih =>
    unfold mymalloc_loop
    by_cases h0 : h = 0
    · rw [if_pos h0]; intro hh; cases hh
    · rw [if_neg h0]
      dsimp only
      split
      · intro hh; cases hh
      · exact ih _

theorem mymalloc_no_fault (M fuel : Nat) (s : State) (n : Nat) :
    mymalloc M fuel s n ≠ Outcome.fault := by
  unfold mymalloc
  split
  · intro hh; cases hh
  · split
    · intro hh; cases hh
    · split
      · intro hh; cases hh
      · exact mymalloc_loop_no_fault _ _ _ _



theorem Inv.block_not_listed {s : State} {bs : List Block} {l : List Nat} (inv : Inv s bs l)
    {b : Block} (hb : b ∈ bs) (hf : b.free = false) : b.addr ∉ l := by
  intro h
  have := (inv.free_iff b hb).1 h
  rw [hf] at this
  cases this

/-- The in-place shrink of `myrealloc`: the header is rewritten and the block
is split when at least 24 bytes are left over. -/
theorem realloc_shrink_inv {s1 : State} {bs1 rest : List Block} {b : Block} {l1 : List Nat}
    (inv : Inv s1 (bs1 ++ b :: rest) l1) (hb : b.free = false) (r : Nat)
    (hr8 : r % 8 = 0) (hr16 : 16 ≤ r) (hlt : r < b.size) (s2 : State)
    (h2 : s2 = { s1 with mem := set_header s1.mem b.addr (get_payload_size s1.mem b.addr) false }) :
    (if r + 24 ≤ b.size then
        Inv (if add64 r MINIMUM_BYTES_24 ≤ get_payload_size s2.mem b.addr
            then split_block s2 b.addr r (get_payload_size s2.mem b.addr) else s2)
          (bs1 ++ (Block.mk b.addr r false) :: (Block.mk (b.addr + 8 + r) (b.size - r - 8) true) :: rest)
          ((b.addr + 8 + r) :: l1)
      else
        Inv (if add64 r MINIMUM_BYTES_24 ≤ get_payload_size s2.mem b.addr
            then split_block s2 b.addr r (get_payload_size s2.mem b.addr) else s2)
          (bs1 ++ b :: rest) l1) ∧
    (∀ x, (x < b.addr ∨ b.addr + 8 ≤ x) → (x < b.addr + 8 + r ∨ b.stop ≤ x) →
      (∀ a ∈ l1, x < a + 8 ∨ a + 24 ≤ x) →
      (if add64 r MINIMUM_BYTES_24 ≤ get_payload_size s2.mem b.addr
          then split_block s2 b.addr r (get_payload_size s2.mem b.addr) else s2).mem x
        = s1.mem x) := by
  have g := inv.geom
  have hbm := mem_mid bs1 rest b
  have hgb := g.good b hbm
  have hbb := g.mem_bounds hbm
  have hsz := hgb.size_lt
  have hbl := inv.block_not_listed hbm hb
  have hbe : Block.mk b.addr b.size false = b := by
    cases b
    simp at hb ⊢
    exact hb
  have hm2 : s2.mem = store64 s1.mem b.addr (Block.word (Block.mk b.addr b.size false)) := by
    rw [h2]
    dsimp only
    rw [hgb.payload_eq, set_header_eq _ _ _ _ (by have := hgb.2.1; omega)]
  have g2 : Geom s2 (bs1 ++ b :: rest) l1 := by
    have := g.set_word false
    rw [hbe] at this
    rw [h2, hgb.payload_eq, set_header_eq _ _ _ _ (by have := hgb.2.1; omega), hbe]
    exact this
  have hcf2 : s2.count_free = s1.count_free := by rw [h2]
  have hca2 : s2.count_allocated = s1.count_allocated := by rw [h2]
  have inv2 : Inv s2 (bs1 ++ b :: rest) l1 :=
    ⟨g2, inv.free_iff, by rw [hcf2]; exact inv.cnt_free, by rw [hca2]; exact inv.cnt_alloc⟩
  have hP : get_payload_size s2.mem b.addr = b.size := (g2.good b hbm).payload_eq
  have hadd : add64 r MINIMUM_BYTES_24 = r + 24 := by
    unfold MINIMUM_BYTES_24
    have h8 := hgb.2.1
    rw [Block.stop_eq] at hbb
    exact add64_eq (by omega)
  have hfoot2 : ∀ x, (x < b.addr ∨ b.addr + 8 ≤ x) → s2.mem x = s1.mem x := by
    intro x hx
    rw [hm2]
    exact store64_byte_other _ _ _ _ hx
  rw [hP, hadd]
  by_cases hsp : r + 24 ≤ b.size
  · rw [if_pos hsp, if_pos hsp]
    have g4 := g2.split r hr8 hr16 hsp false true
    have hnew : b.addr + 8 + r ∉ l1 := by
      intro h
      obtain ⟨d, hd, hda⟩ := g2.node h
      rcases contig_sides g2.contig hd with h5 | h5 | h5
      · have := (g2.mem_bounds hd).2.1
        omega
      · rw [h5] at hda
        omega
      · rw [Block.stop_eq] at h5
        omega
    obtain ⟨g5, hfoot5⟩ := g4.add (c := b.addr + 8 + r) (by simp) hnew
    rw [split_block_eq s2 b.addr r b.size hr8 hr16 (by omega) (by omega)
      (by have h9 := g.mem_bounds hbm; rw [Block.stop_eq] at h9; omega)]
    refine ⟨⟨g5.with_count_free _, ?_, ?_, ?_⟩, ?_⟩
    · have hfi := inv.free_iff
      rw [append_cons_eq] at hfi
      rw [append_cons2_eq]
      apply free_iff_replace hfi
      · intro d hd
        have := g.addr_ne hd
        rw [Block.stop_eq] at this
        simp only [List.mem_cons]
        constructor
        · rintro (h | h)
          · omega
          · exact h
        · exact Or.inr
      · intro d hd
        have : d = Block.mk b.addr r false ∨ d = Block.mk (b.addr + 8 + r) (b.size - r - 8) true := by
          simpa using hd
        rcases this with rfl | rfl
        · simp only [List.mem_cons, Bool.false_eq_true, iff_false, not_or]
          exact ⟨by omega, hbl⟩
        · simp
    · have hlt2 := g.count_lt (fun b => b.free)
      have e1 := filter_length_cons_mid (fun b => b.free) bs1 rest b
      have e2 := filter_length_cons2_mid (fun b => b.free) bs1 rest (Block.mk b.addr r false)
        (Block.mk (b.addr + 8 + r) (b.size - r - 8) true)
      simp only [hb, if_true, if_false, Bool.false_eq_true] at e1 e2
      dsimp only
      rw [e1] at hlt2
      rw [hcf2, inv.cnt_free, e2, e1, add64_eq (by omega)]
      omega
    · have e1 := filter_length_cons_mid (fun b => !b.free) bs1 rest b
      have e2 := filter_length_cons2_mid (fun b => !b.free) bs1 rest (Block.mk b.addr r false)
        (Block.mk (b.addr + 8 + r) (b.size - r - 8) true)
      simp only [hb, if_true, if_false, Bool.not_false, Bool.not_true, Bool.false_eq_true] at e1 e2
      dsimp only
      rw [add_free_node_count_allocated]
      dsimp only
      rw [hca2, inv.cnt_alloc, e2, e1]
    · intro x hx1 hx2 hl
      dsimp only
      rw [hfoot5 x]
      · dsimp only
        rw [Block.stop_eq] at hx2
        rw [store64_byte_other _ _ _ _ (by omega), store64_byte_other _ _ _ _ (by omega)]
        exact hfoot2 x hx1
      · intro a ha
        rcases List.mem_cons.1 ha with rfl | ha
        · rw [Block.stop_eq] at hx2
          omega
        · exact hl a ha
  · rw [if_neg hsp, if_neg hsp]
    exact ⟨inv2, fun x hx1 _ _ => hfoot2 x hx1⟩



theorem myfree_inv_block {s : State} {bs : List Block} {l : List Nat} (inv : Inv s bs l)
    {b : Block} (hbm : b ∈ bs) (hb : b.free = false) :
    ∃ bs3 l3, Inv (myfree s (b.addr + 8)) bs3 l3 := by
  obtain ⟨bs1, bs2, rfl⟩ := List.append_of_mem hbm
  cases bs2 with
  | nil => exact ⟨_, _, (myfree_plain inv hb (fun c bs3 h => by cases h)).1⟩
  | cons c bs3 =>
    cases hc : c.free with
    | false =>
      refine ⟨_, _, (myfree_plain inv hb (fun c2 bs4 h => ?_)).1⟩
      cases h
      exact hc
    | true =>
      have hcl : c.addr ∈ l := (inv.free_iff c (mem_mid2 bs1 bs3 b c)).2 hc
      obtain ⟨l1, l2, rfl⟩ := List.append_of_mem hcl
      exact ⟨_, _, (myfree_merge inv hb hc).1⟩

/-- After a successful `mymalloc` the returned block is an allocated block of
the new tiling that holds the rounded request, and the other blocks remain. -/
theorem MallocPost.blocks {s : State} {bs1 bs2 : List Block} {b : Block} {l1 l2 : List Nat}
    {r : Nat} {s2 : State} (h : MallocPost s bs1 b bs2 l1 l2 r s2) (hfit : r ≤ b.size) :
    ∃ bs3 l3 nb, Inv s2 bs3 l3 ∧ nb ∈ bs3 ∧ nb.addr = b.addr ∧ nb.free = false ∧
      r ≤ nb.size ∧ nb.size ≤ b.size ∧ (∀ d ∈ bs1 ++ bs2, d ∈ bs3) := by
  obtain ⟨h1, _⟩ := h
  split at h1
  · refine ⟨_, _, Block.mk b.addr r false, h1, mem_mid _ _ _, rfl, rfl, Nat.le_refl _, hfit, ?_⟩
    intro d hd
    rcases List.mem_append.1 hd with h | h
    · exact List.mem_append_left _ h
    · exact List.mem_append_right _ (List.mem_cons_of_mem _ (List.mem_cons_of_mem _ h))
  · refine ⟨_, _, Block.mk b.addr b.size false, h1, mem_mid _ _ _, rfl, rfl, hfit,
      Nat.le_refl _, ?_⟩
    intro d hd
    rcases List.mem_append.1 hd with h | h
    · exact List.mem_append_left _ h
    · exact List.mem_append_right _ (List.mem_cons_of_mem _ h)

theorem memcpy_other (m : Mem) (dst src n x : Nat) (h : x < dst ∨ dst + n ≤ x) :
    memcpy m dst src n x = m x := by
  unfold memcpy
  rw [if_neg]
  omega

/-- A request whose rounded size exceeds 16 does not wrap around. -/
theorem rounded_request_no_wrap (n : Nat) (hn : n < SIZE_MOD) (h : 16 < rounded_request n) :
    n ≤ rounded_request n := by
  rw [rounded_request_eq] at h ⊢
  unfold SIZE_MOD at *
  omega

/-- Every returning `myrealloc` call keeps the invariant. -/
theorem myrealloc_inv {s : State} {bs : List Block} {l : List Nat} (inv : Inv s bs l)
    (M fuel p n : Nat) (s2 : State) (q : Nat) (hp : p = 0 ∨ is_allocated_ptr s p = true)
    (hn : n < SIZE_MOD) (h : myrealloc M fuel s p n = Outcome.ret (s2, q)) :
    ∃ bs3 l3, Inv s2 bs3 l3 := by
  by_cases hp0 : p = 0
  · subst hp0
    rw [myrealloc_null] at h
    exact mymalloc_inv inv M fuel n s2 q h
  by_cases hn0 : n = 0
  · subst hn0
    rw [myrealloc_zero _ _ _ _ hp0] at h
    cases h
    exact myfree_inv inv p hp
  obtain ⟨bs1, b, bs2, rfl, rfl, hb⟩ := inv.allocated_ptr (hp.resolve_left hp0)
  obtain ⟨fs, rest, rfl, hfs, hrest⟩ := free_run_split bs2
  obtain ⟨s1, l1, hrun, inv1, _, _, _⟩ := coalesce_loop_spec fs inv hb hfs hrest
  have hsub : b.addr + 8 - 8 = b.addr := by omega
  by_cases hfu : fs.length < fuel
  swap
  · rw [myrealloc_timeout _ _ _ _ _ hp0 hn0 (by rw [hsub]; exact (hrun fuel).2 (by omega))] at h
    cases h
  have hloop : coalesce_loop fuel s (b.addr + 8 - 8) = Outcome.ret s1 := by
    rw [hsub]; exact (hrun fuel).1 hfu
  have hBm := mem_mid bs1 rest
    (Block.mk b.addr (b.size + (fs.map (fun f => 8 + f.size)).sum) false)
  have hP : get_payload_size s1.mem (b.addr + 8 - 8)
      = b.size + (fs.map (fun f => 8 + f.size)).sum := by
    rw [hsub]
    exact (inv1.node_size hBm).1
  obtain ⟨hr8, hr16⟩ := rounded_request_props n
  rcases Nat.lt_trichotomy (rounded_request n) (b.size + (fs.map (fun f => 8 + f.size)).sum)
    with hlt | heq | hgt
  · -- shrink in place
    rw [myrealloc_shrink _ _ _ _ _ hp0 hn0 s1 hloop (by rw [hP]; exact hlt) _ rfl, hsub] at h
    cases h
    have := (realloc_shrink_inv inv1 rfl (rounded_request n) hr8 hr16 hlt _ rfl).1
    split at this
    · exact ⟨_, _, this⟩
    · exact ⟨_, _, this⟩
  · -- the same size
    rw [myrealloc_same _ _ _ _ _ hp0 hn0 s1 hloop (by rw [hP]; exact heq)] at h
    cases h
    exact ⟨_, _, inv1⟩
  · -- relocation
    have hgt2 : get_payload_size s1.mem (b.addr + 8 - 8) < rounded_request n := by
      rw [hP]; exact hgt
    cases hm : mymalloc M fuel s1 n with
    | timeout =>
      rw [myrealloc_grow_timeout _ _ _ _ _ hp0 hn0 s1 hloop hgt2 hm] at h
      cases h
    | fault => exact absurd hm (mymalloc_no_fault _ _ _ _)
    | ret res =>
      obtain ⟨s3, q3⟩ := res
      by_cases hq : q3 = 0
      · subst hq
        rw [myrealloc_grow_fault _ _ _ _ _ hp0 hn0 s1 hloop hgt2 s3 hm] at h
        cases h
      rw [myrealloc_grow _ _ _ _ _ hp0 hn0 s1 hloop hgt2 s3 q3 hm hq] at h
      obtain ⟨hs2, _⟩ := Prod.mk.inj (Outcome.ret.inj h)
      rw [← hs2]
      rcases mymalloc_spec inv1 M fuel n s3 q3 hm with ⟨_, hq0, _⟩ |
        ⟨_, _, bsa, nbk, bsb, la, lb, e1, e2, hnf, _, hfit, hq3, hpost⟩
      · exact absurd hq0 hq
      obtain ⟨bs3, l3, nb, inv3, hnbm, hnba, hnbf, hnbr, _, hkeep⟩ := hpost.blocks hfit
      -- the old block is still there
      have hold : Block.mk b.addr (b.size + (fs.map (fun f => 8 + f.size)).sum) false ∈ bs3 := by
        apply hkeep
        rw [e1] at hBm
        rcases List.mem_append.1 hBm with h | h
        · exact List.mem_append_left _ h
        · rcases List.mem_cons.1 h with h | h
          · rw [← h] at hnf
            cases hnf
          · exact List.mem_append_right _ h
      -- the copy stays inside the new payload
      obtain ⟨bsc, bsd, rfl⟩ := List.append_of_mem hnbm
      have hnle : n ≤ rounded_request n :=
        rounded_request_no_wrap n hn (by
          have := (inv1.geom.good _ hBm).2.2
          have : 16 ≤ b.size + (fs.map (fun f => 8 + f.size)).sum := this
          omega)
      have inv4 := inv3.payload_store hnbf
        (memcpy s3.mem q3 (b.addr + 8) (if get_payload_size s1.mem (b.addr + 8 - 8) < n then get_payload_size s1.mem (b.addr + 8 - 8) else n))
        (by
          intro z hz
          apply memcpy_other
          rw [Block.stop_eq] at hz
          rw [hq3, ← hnba]
          split <;> omega)
      exact myfree_inv_block
        (b := Block.mk b.addr (b.size + (fs.map (fun f => 8 + f.size)).sum) false) inv4 hold rfl



/-! ## Reachable states satisfy the invariant -/

theorem myinit_true (s : State) (heap_start heap_size : Nat)
    (h : (myinit s heap_start heap_size).2 = true) : 24 ≤ heap_size := by
  unfold myinit at h
  by_cases hs : heap_size < MINIMUM_BYTES_24
  · rw [if_pos hs] at h
    cases h
  · unfold MINIMUM_BYTES_24 at hs
    omega

theorem reachable_inv (M : Nat) (s : State) (h : Reachable M s) : ∃ bs l, Inv s bs l := by
  induction h with
  | init s0 heap_start heap_size h0 h8 hb hs8 hok =>
    exact ⟨_, _, (myinit_inv s0 heap_start heap_size (by omega) hb hs8
      (myinit_true _ _ _ hok)).2⟩
  | malloc s1 s2 fuel n p _ _ hm ih =>
    obtain ⟨bs, l, inv⟩ := ih
    exact mymalloc_inv inv M fuel n s2 p hm
  | free s1 p _ hp ih =>
    obtain ⟨bs, l, inv⟩ := ih
    exact myfree_inv inv p hp
  | realloc s1 s2 fuel p n q _ hp hn hr ih =>
    obtain ⟨bs, l, inv⟩ := ih
    exact myrealloc_inv inv M fuel p n s2 q hp hn hr
  | client_store s1 x v _ hx ih =>
    obtain ⟨bs, l, inv⟩ := ih
    obtain ⟨bs1, b, bs2, rfl, hb, h1, h2⟩ := inv.allocated_payload hx
    refine ⟨_, _, inv.payload_store hb (Function.update s1.mem x v) ?_⟩
    intro z hz
    apply Function.update_noteq
    omega



/-! # The claims -/

/-- What the physical walk and the free-list traversal see in a state that
satisfies the invariant. -/
theorem Inv.observe {s : State} {bs : List Block} {l : List Nat} (inv : Inv s bs l) :
    (∀ fuel, (bs.map Block.addr).length < fuel →
      heap_walk fuel s.mem s.segment_start (s.segment_start + s.segment_size)
        = some (bs.map Block.addr, s.segment_start + s.segment_size)) ∧
    (∀ fuel, l.length < fuel → free_list fuel s.mem s.first_free_ptr = some l) ∧
    ((bs.map Block.addr).map (fun h => HEADER_SIZE + get_payload_size s.mem h)).sum
      = s.segment_size ∧
    (∀ a, a ∈ l ↔ (a ∈ bs.map Block.addr ∧ is_free s.mem a = true)) := by
  have g := inv.geom
  refine ⟨fun fuel hf => g.walk fuel (by rwa [List.length_map] at hf), g.list, ?_, ?_⟩
  · have h1 := contig_sum g.contig
    have h2 := g.end_eq
    have h3 : (bs.map Block.addr).map (fun h => HEADER_SIZE + get_payload_size s.mem h)
        = bs.map (fun b => 8 + b.size) := by
      rw [List.map_map]
      apply List.map_congr_left
      intro b hb
      show HEADER_SIZE + get_payload_size s.mem b.addr = 8 + b.size
      rw [(g.good b hb).payload_eq]
      rfl
    rw [h3]
    omega
  · intro a
    constructor
    · intro ha
      obtain ⟨b, hb, rfl⟩ := g.node ha
      refine ⟨List.mem_map_of_mem _ hb, ?_⟩
      rw [(g.good b hb).is_free_eq]
      exact (inv.free_iff b hb).1 ha
    · rintro ⟨ha, hf⟩
      obtain ⟨b, hb, rfl⟩ := List.mem_map.1 ha
      rw [(g.good b hb).is_free_eq] at hf
      exact (inv.free_iff b hb).2 hf

/-- Claim C1 (tiling invariant). In every reachable state the physical walk
from `segment_start`, advancing by `8 + payload size`, returns with enough fuel,
stops exactly on the segment end, and the footprints `8 + payload_size` of the
blocks it visits add up to `segment_size`. -/
theorem tiling_invariant (M : Nat) (s : State) (h : Reachable M s) :
    ∃ hs : List Nat,
      (∀ fuel, hs.length < fuel →
        heap_walk fuel s.mem s.segment_start (s.segment_start + s.segment_size)
          = some (hs, s.segment_start + s.segment_size)) ∧
      (hs.map (fun a => HEADER_SIZE + get_payload_size s.mem a)).sum = s.segment_size := by
  obtain ⟨bs, l, inv⟩ := reachable_inv M s h
  obtain ⟨h1, _, h3, _⟩ := inv.observe
  exact ⟨bs.map Block.addr, h1, h3⟩

theorem ex_init_reachable : Reachable ex_max ex_init :=
  Reachable.init ex_s0 4096 1024 (by decide) (by decide) (by decide) (by decide) (by decide)

theorem ex_m40_reachable : Reachable ex_max ex_m40 :=
  Reachable.malloc ex_init ex_m40 16 40 4104 ex_init_reachable (by decide) (by rfl)

/-- Witness for C1: the state after `myinit(4096, 1024)` and `mymalloc(40)`. -/
theorem tiling_invariant_witness :
    Reachable ex_max ex_m40 ∧
    ∃ hs : List Nat,
      (∀ fuel, hs.length < fuel →
        heap_walk fuel ex_m40.mem ex_m40.segment_start
            (ex_m40.segment_start + ex_m40.segment_size)
          = some (hs, ex_m40.segment_start + ex_m40.segment_size)) ∧
      (hs.map (fun a => HEADER_SIZE + get_payload_size ex_m40.mem a)).sum
        = ex_m40.segment_size :=
  ⟨ex_m40_reachable, tiling_invariant ex_max ex_m40 ex_m40_reachable⟩

/-- Claim C2 (free-set consistency). In every reachable state the chain from
`first_free_ptr` through the `next` links is finite and duplicate free, and
its blocks are exactly the blocks that the physical walk finds with the
allocation bit clear. -/
theorem free_set_consistency (M : Nat) (s : State) (h : Reachable M s) :
    ∃ l hs : List Nat,
      (∀ fuel, l.length < fuel → free_list fuel s.mem s.first_free_ptr = some l) ∧
      l.Nodup ∧
      (∀ fuel, hs.length < fuel →
        heap_walk fuel s.mem s.segment_start (s.segment_start + s.segment_size)
          = some (hs, s.segment_start + s.segment_size)) ∧
      (∀ a, a ∈ l ↔ (a ∈ hs ∧ is_free s.mem a = true)) := by
  obtain ⟨bs, l, inv⟩ := reachable_inv M s h
  obtain ⟨h1, h2, _, h4⟩ := inv.observe
  exact ⟨l, bs.map Block.addr, h2, inv.geom.nodup, h1, h4⟩

/-- Witness for C2: the state after `myinit(4096, 1024)` and `mymalloc(40)`. -/
theorem free_set_consistency_witness :
    Reachable ex_max ex_m40 ∧
    ∃ l hs : List Nat,
      (∀ fuel, l.length < fuel → free_list fuel ex_m40.mem ex_m40.first_free_ptr = some l) ∧
      l.Nodup ∧
      (∀ fuel, hs.length < fuel →
        heap_walk fuel ex_m40.mem ex_m40.segment_start
            (ex_m40.segment_start + ex_m40.segment_size)
          = some (hs, ex_m40.segment_start + ex_m40.segment_size)) ∧
      (∀ a, a ∈ l ↔ (a ∈ hs ∧ is_free ex_m40.mem a = true)) :=
  ⟨ex_m40_reachable, free_set_consistency ex_max ex_m40 ex_m40_reachable⟩

/-- Claim C3 (counter invariant). In every reachable state, so after `myinit`
and after every later operation, `count_free` is the number of free blocks and
`count_allocated` the number of allocated blocks that the physical walk finds. -/
theorem counter_invariant (M : Nat) (s : State) (h : Reachable M s) :
    ∃ hs : List Nat,
      (∀ fuel, hs.length < fuel →
        heap_walk fuel s.mem s.segment_start (s.segment_start + s.segment_size)
          = some (hs, s.segment_start + s.segment_size)) ∧
      s.count_free = (hs.filter (fun a => is_free s.mem a)).length ∧
      s.count_allocated = (hs.filter (fun a => !is_free s.mem a)).length := by
  obtain ⟨bs, l, inv⟩ := reachable_inv M s h
  obtain ⟨h1, _, _, _⟩ := inv.observe
  refine ⟨bs.map Block.addr, h1, ?_, ?_⟩
  · rw [filter_is_free_map inv.geom.good, List.length_map]
    exact inv.cnt_free
  · rw [filter_not_is_free_map inv.geom.good, List.length_map]
    exact inv.cnt_alloc

/-- Witness for C3: the state after `myinit(4096, 1024)` and `mymalloc(40)`. -/
theorem counter_invariant_witness :
    Reachable ex_max ex_m40 ∧
    ∃ hs : List Nat,
      (∀ fuel, hs.length < fuel →
        heap_walk fuel ex_m40.mem ex_m40.segment_start
            (ex_m40.segment_start + ex_m40.segment_size)
          = some (hs, ex_m40.segment_start + ex_m40.segment_size)) ∧
      ex_m40.count_free = (hs.filter (fun a => is_free ex_m40.mem a)).length ∧
      ex_m40.count_allocated = (hs.filter (fun a => !is_free ex_m40.mem a)).length :=
  ⟨ex_m40_reachable, counter_invariant ex_max ex_m40 ex_m40_reachable⟩



/-- The payload pointer of an allocated block of the tiling is an allocated pointer. -/
theorem Inv.is_allocated_ptr_of {s : State} {bs : List Block} {l : List Nat} (inv : Inv s bs l)
    {b : Block} (hb : b ∈ bs) (hf : b.free = false) : is_allocated_ptr s (b.addr + 8) = true := by
  unfold is_allocated_ptr
  rw [inv.walk_eq (List.ne_nil_of_mem hb)]
  have h1 : payload_to_header (b.addr + 8) = b.addr := by
    unfold payload_to_header HEADER_SIZE; omega
  have h2 : is_free s.mem b.addr = false := by rw [(inv.geom.good b hb).is_free_eq, hf]
  have h3 : (bs.map Block.addr).contains b.addr = true := by
    rw [List.contains_iff_exists_mem_beq]
    exact ⟨b.addr, List.mem_map_of_mem _ hb, by simp⟩
  have h4 : decide (HEADER_SIZE ≤ b.addr + 8) = true := by
    unfold HEADER_SIZE; simp
  dsimp only
  rw [h1, h2, h3, h4]
  rfl

/-- Without wrap-around the rounded request is the request rounded up to a
multiple of 8, and at least 16. -/
theorem rounded_request_math (n : Nat) (h : n + 7 < SIZE_MOD) :
    rounded_request n = max 16 ((n + 7) / 8 * 8) := by
  rw [rounded_request_eq, Nat.mod_eq_of_lt h]

/-- Claim C4 (allocation sizing). In every reachable state and for every `n`
with `n ≤ MAX_REQUEST_SIZE` (a ceiling for which rounding up does not wrap
around; for `n = 0` the call returns `NULL`), `mymalloc(n)` returns with enough
fuel; whenever it returns a non-null pointer, that pointer is the payload of a
block of the physical walk whose header is marked allocated and whose payload
size is at least `n` and a multiple of 8. -/
theorem allocation_sizing (M : Nat) (hM : M + 7 < SIZE_MOD) (s : State) (h : Reachable M s)
    (n : Nat) (hnM : n ≤ M) :
    (∃ k, ∀ fuel, k < fuel → ∃ s2 p, mymalloc M fuel s n = Outcome.ret (s2, p)) ∧
    ∀ fuel s2 p, mymalloc M fuel s n = Outcome.ret (s2, p) → p ≠ 0 →
      is_allocated_ptr s2 p = true ∧
      is_free s2.mem (payload_to_header p) = false ∧
      n ≤ get_payload_size s2.mem (payload_to_header p) ∧
      get_payload_size s2.mem (payload_to_header p) % 8 = 0 := by
  obtain ⟨bs, l, inv⟩ := reachable_inv M s h
  refine ⟨⟨l.length, fun fuel hf => mymalloc_returns inv M fuel n hf⟩, ?_⟩
  intro fuel s2 p hm hp
  rcases mymalloc_spec inv M fuel n s2 p hm with ⟨_, hp0, _⟩ |
    ⟨_, _, bs1, b, bs2, l1, l2, e1, e2, hbf, _, hfit, hpe, hpost⟩
  · exact absurd hp0 hp
  obtain ⟨bs3, l3, nb, inv3, hnbm, hnba, hnbf, hnbr, _, _⟩ := hpost.blocks hfit
  have hge := rounded_request_ge n (by omega)
  have hgood := inv3.geom.good nb hnbm
  have hph : payload_to_header p = nb.addr := by
    rw [hpe, hnba]; unfold payload_to_header HEADER_SIZE; omega
  rw [hph, hgood.is_free_eq, hgood.payload_eq]
  refine ⟨?_, hnbf, by omega, hgood.2.1⟩
  rw [hpe, ← hnba]
  exact inv3.is_allocated_ptr_of hnbm hnbf

/-- Witness for C4: `mymalloc(40)` on the fresh 1024-byte segment. -/
theorem allocation_sizing_witness :
    ex_max + 7 < SIZE_MOD ∧ Reachable ex_max ex_init ∧ 40 ≤ ex_max ∧
    ((∃ k, ∀ fuel, k < fuel → ∃ s2 p, mymalloc ex_max fuel ex_init 40 = Outcome.ret (s2, p)) ∧
    ∀ fuel s2 p, mymalloc ex_max fuel ex_init 40 = Outcome.ret (s2, p) → p ≠ 0 →
      is_allocated_ptr s2 p = true ∧
      is_free s2.mem (payload_to_header p) = false ∧
      40 ≤ get_payload_size s2.mem (payload_to_header p) ∧
      get_payload_size s2.mem (payload_to_header p) % 8 = 0) :=
  ⟨by decide, ex_init_reachable, by decide,
    allocation_sizing ex_max (by decide) ex_init ex_init_reachable 40 (by decide)⟩


/-- Counterexample to C5 as stated: for the odd size 25 `myinit` returns true,
but the first header decodes as allocated with payload 16, not as free with
payload `25 - 8`. -/
theorem init_postcondition_counterexample :
    24 ≤ 25 ∧ (myinit ex_s0 4096 25).2 = true ∧
    ¬ (is_free (myinit ex_s0 4096 25).1.mem 4096 = true ∧
        get_payload_size (myinit ex_s0 4096 25).1.mem 4096 = 25 - 8) := by
  decide

theorem load64_even_free (m : Mem) (a v : Nat) (hv : v < SIZE_MOD) (he : v % 2 = 0)
    (h : load64 m a = v) : is_free m a = true ∧ get_payload_size m a = v := by
  unfold is_free get_payload_size
  rw [h, land_one, land_not_one v hv, he]
  exact ⟨rfl, rfl⟩

/-- Claim C5 (init postcondition), amended: for a buffer at a non-null address
that lies inside the 64-bit address space and every even `heap_size ≥ 24`,
`myinit` returns true and afterwards the whole segment is one free block of
payload `heap_size - 8`: the first header decodes as free with that size, the
physical walk finds exactly this block and stops on the segment end, the free
list is the singleton of that block with both links null, `count_allocated = 0`
and `count_free = 1`. -/
theorem init_postcondition (s : State) (heap_start heap_size : Nat) (h0 : heap_start ≠ 0)
    (hbuf : heap_start + heap_size < SIZE_MOD) (heven : heap_size % 2 = 0)
    (h24 : 24 ≤ heap_size) :
    (myinit s heap_start heap_size).2 = true ∧
    (myinit s heap_start heap_size).1.segment_start = heap_start ∧
    (myinit s heap_start heap_size).1.segment_size = heap_size ∧
    is_free (myinit s heap_start heap_size).1.mem heap_start = true ∧
    get_payload_size (myinit s heap_start heap_size).1.mem heap_start = heap_size - 8 ∧
    (∀ fuel, 1 < fuel →
      heap_walk fuel (myinit s heap_start heap_size).1.mem heap_start (heap_start + heap_size)
        = some ([heap_start], heap_start + heap_size)) ∧
    (myinit s heap_start heap_size).1.first_free_ptr = heap_start ∧
    get_prev_free (myinit s heap_start heap_size).1.mem heap_start = 0 ∧
    get_next_free (myinit s heap_start heap_size).1.mem heap_start = 0 ∧
    (∀ fuel, 1 < fuel →
      free_list fuel (myinit s heap_start heap_size).1.mem
        (myinit s heap_start heap_size).1.first_free_ptr = some [heap_start]) ∧
    (myinit s heap_start heap_size).1.count_allocated = 0 ∧
    (myinit s heap_start heap_size).1.count_free = 1 := by
  have hn : ¬ heap_size < MINIMUM_BYTES_24 := by unfold MINIMUM_BYTES_24; omega
  unfold myinit
  rw [if_neg hn]
  dsimp only
  unfold set_header
  rw [if_pos rfl, set_next_free_eq, set_prev_free_eq]
  unfold HEADER_SIZE
  generalize hm : store64 (store64 (store64 s.mem heap_start (heap_size - 8)) (heap_start + 16) 0)
    (heap_start + 8) 0 = m
  have hhdr : load64 m heap_start = heap_size - 8 := by
    rw [← hm, load64_store64_other _ _ _ _ (by omega), load64_store64_other _ _ _ _ (by omega),
      load64_store64_same]
    exact Nat.mod_eq_of_lt (by omega)
  have hprev : get_prev_free m heap_start = 0 := by
    rw [← hm, get_prev_free_eq, load64_store64_same]
    rfl
  have hnext : get_next_free m heap_start = 0 := by
    rw [← hm, get_next_free_eq, load64_store64_other _ _ _ _ (by omega), load64_store64_same]
    rfl
  obtain ⟨hfree, hsize⟩ := load64_even_free m heap_start (heap_size - 8) (by omega) (by omega) hhdr
  have hnh : next_header m heap_start = heap_start + heap_size := by
    rw [next_header_eq m heap_start (by rw [hsize]; omega), hsize]
    omega
  refine ⟨rfl, rfl, rfl, hfree, hsize, ?_, rfl, hprev, hnext, ?_, rfl, rfl⟩
  · intro fuel hf
    obtain ⟨k, rfl⟩ : ∃ k, fuel = k + 2 := ⟨fuel - 2, by omega⟩
    unfold heap_walk
    rw [if_pos (by omega), hnh]
    unfold heap_walk
    rw [if_neg (by omega)]
  · intro fuel hf
    obtain ⟨k, rfl⟩ : ∃ k, fuel = k + 2 := ⟨fuel - 2, by omega⟩
    unfold free_list
    rw [if_neg h0, hnext]
    unfold free_list
    rw [if_pos rfl]

/-- Witness for C5 (amended): the even size 26, which is not a multiple of 8. -/
theorem init_postcondition_witness :
    (4096 : Nat) ≠ 0 ∧ 4096 + 26 < SIZE_MOD ∧ 26 % 2 = 0 ∧ 24 ≤ 26 ∧
    (myinit ex_s0 4096 26).2 = true ∧
    is_free (myinit ex_s0 4096 26).1.mem 4096 = true ∧
    get_payload_size (myinit ex_s0 4096 26).1.mem 4096 = 26 - 8 ∧
    (myinit ex_s0 4096 26).1.count_free = 1 :=
  have h := init_postcondition ex_s0 4096 26 (by decide) (by decide) (by decide) (by decide)
  ⟨by decide, by decide, by decide, by decide, h.1, h.2.2.2.1, h.2.2.2.2.1, h.2.2.2.2.2.2.2.2.2.2.2⟩



theorem singleton_eq_append_cons {α : Type} {x a : α} {l1 l2 : List α}
    (h : [x] = l1 ++ a :: l2) : l1 = [] ∧ a = x ∧ l2 = [] := by
  cases l1 with
  | nil =>
    simp at h
    exact ⟨rfl, h.1.symm, h.2⟩
  | cons c l =>
    simp at h

/-- What is observed in a state whose tiling is one free block. -/
theorem single_free_block {s : State} {a sz : Nat} (inv : Inv s [Block.mk a sz true] [a]) :
    s.segment_start = a ∧ s.segment_start + s.segment_size = a + 8 + sz ∧
    is_free s.mem a = true ∧ get_payload_size s.mem a = sz ∧
    (∀ fuel, 1 < fuel →
      heap_walk fuel s.mem s.segment_start (s.segment_start + s.segment_size)
        = some ([a], s.segment_start + s.segment_size)) ∧
    s.first_free_ptr = a ∧ get_prev_free s.mem a = 0 ∧ get_next_free s.mem a = 0 ∧
    (∀ fuel, 1 < fuel → free_list fuel s.mem s.first_free_ptr = some [a]) ∧
    s.count_free = 1 ∧ s.count_allocated = 0 := by
  have g := inv.geom
  have hc := g.contig
  have hg := g.good _ (List.mem_singleton_self _)
  have hch := g.chain
  obtain ⟨h1, _, h3, _⟩ := inv.observe
  have hstart : a = s.segment_start := hc.1
  have hstop : a + 8 + sz = s.end_heap := hc.2
  refine ⟨hstart.symm, by rw [← g.end_eq]; exact hstop.symm, hg.is_free_eq, hg.payload_eq,
    fun fuel hf => h1 fuel (by simpa using hf), hch.1, hch.2.2.1, hch.2.2.2,
    fun fuel hf => g.list fuel (by simpa using hf), inv.cnt_free, inv.cnt_alloc⟩

/-- Claim C6 (allocate/release round trip). For every segment size that is a
multiple of 8 and at least 24, and every `n` for which `mymalloc(n)` succeeds
directly after `myinit`, `myfree` of the returned pointer restores the post-init
view: one free block of payload `size - 8` at the segment start, the free list
the singleton of that block with null `prev` and `next`, `count_free = 1` and
`count_allocated = 0`. -/
theorem alloc_release_round_trip (M : Nat) (s0 : State) (heap_start heap_size : Nat)
    (h0 : heap_start ≠ 0) (h8 : heap_start % 8 = 0) (hb : heap_start + heap_size < SIZE_MOD)
    (hs8 : heap_size % 8 = 0) (h24 : 24 ≤ heap_size) (n fuel : Nat) (s1 : State) (p : Nat)
    (hm : mymalloc M fuel (myinit s0 heap_start heap_size).1 n = Outcome.ret (s1, p))
    (hp : p ≠ 0) :
    p = heap_start + 8 ∧
    (myfree s1 p).segment_start = heap_start ∧
    (myfree s1 p).segment_start + (myfree s1 p).segment_size = heap_start + heap_size ∧
    is_free (myfree s1 p).mem heap_start = true ∧
    get_payload_size (myfree s1 p).mem heap_start = heap_size - 8 ∧
    (∀ fuel, 1 < fuel →
      heap_walk fuel (myfree s1 p).mem (myfree s1 p).segment_start
          ((myfree s1 p).segment_start + (myfree s1 p).segment_size)
        = some ([heap_start], (myfree s1 p).segment_start + (myfree s1 p).segment_size)) ∧
    (myfree s1 p).first_free_ptr = heap_start ∧
    get_prev_free (myfree s1 p).mem heap_start = 0 ∧
    get_next_free (myfree s1 p).mem heap_start = 0 ∧
    (∀ fuel, 1 < fuel →
      free_list fuel (myfree s1 p).mem (myfree s1 p).first_free_ptr = some [heap_start]) ∧
    (myfree s1 p).count_free = 1 ∧ (myfree s1 p).count_allocated = 0 := by
  obtain ⟨_, inv0⟩ := myinit_inv s0 heap_start heap_size (by omega) hb hs8 h24
  rcases mymalloc_spec inv0 M fuel n s1 p hm with ⟨_, hp0, _⟩ |
    ⟨_, _, bs1, b, bs2, l1, l2, e1, e2, hbf, _, hfit, hpe, hpost⟩
  · exact absurd hp0 hp
  obtain ⟨rfl, rfl, rfl⟩ := singleton_eq_append_cons e1
  obtain ⟨rfl, _, rfl⟩ := singleton_eq_append_cons e2
  have hpe : p = heap_start + 8 := hpe
  subst hpe
  obtain ⟨hinv, _⟩ := hpost
  have hfit : rounded_request n ≤ heap_size - 8 := hfit
  have key : Inv (myfree s1 (heap_start + 8)) [Block.mk heap_start (heap_size - 8) true]
      [heap_start] := by
    by_cases hsp : heap_size - 8 - rounded_request n ≥ 24
    · rw [if_pos hsp] at hinv
      have := (@myfree_merge s1 [] [] (Block.mk heap_start (rounded_request n) false)
        (Block.mk (heap_start + 8 + rounded_request n)
          (heap_size - 8 - rounded_request n - 8) true) [] [] hinv rfl rfl).1
      have e : 8 + rounded_request n + (heap_size - 8 - rounded_request n - 8) = heap_size - 8 := by
        omega
      dsimp only at this
      rw [e] at this
      exact this
    · rw [if_neg hsp] at hinv
      exact (@myfree_plain s1 [] [] (Block.mk heap_start (heap_size - 8) false) _
        hinv rfl (fun c bs3 h => by cases h)).1
  obtain ⟨k1, k2, k3, k4, k5, k6, k7, k8, k9, k10, k11⟩ := single_free_block key
  refine ⟨rfl, k1, ?_, k3, k4, k5, k6, k7, k8, k9, k10, k11⟩
  rw [k2]
  omega

/-- Witness for C6, the scenario of the specification: on a segment of 1024
bytes `mymalloc(40)` gives block A allocated with payload 40 and block B free
with payload 968, and the release restores one free block of payload 1016. -/
theorem alloc_release_round_trip_witness :
    mymalloc ex_max 16 (myinit ex_s0 4096 1024).1 40 = Outcome.ret (ex_m40, 4104) ∧
    is_free ex_m40.mem 4096 = false ∧ get_payload_size ex_m40.mem 4096 = 40 ∧
    is_free ex_m40.mem 4144 = true ∧ get_payload_size ex_m40.mem 4144 = 968 ∧
    heap_walk 16 ex_m40.mem 4096 5120 = some ([4096, 4144], 5120) ∧
    is_free (myfree ex_m40 4104).mem 4096 = true ∧
    get_payload_size (myfree ex_m40 4104).mem 4096 = 1024 - 8 ∧
    (myfree ex_m40 4104).first_free_ptr = 4096 ∧
    (myfree ex_m40 4104).count_free = 1 ∧ (myfree ex_m40 4104).count_allocated = 0 :=
  have h := alloc_release_round_trip ex_max ex_s0 4096 1024 (by decide) (by decide) (by decide)
    (by decide) (by decide) 40 16 ex_m40 4104 (by rfl) (by decide)
  ⟨by rfl, by decide, by decide, by decide, by decide, by decide,
    h.2.2.2.1, h.2.2.2.2.1, h.2.2.2.2.2.2.1, h.2.2.2.2.2.2.2.2.2.2.1, h.2.2.2.2.2.2.2.2.2.2.2⟩



/-- Claim C7 (coalescing on release). In every reachable state, for every
allocated block `x` whose physically next block lies inside the segment and is
free, `myfree` of the payload of `x` leaves `x` as one free block whose payload
is `8 + size(x) + size(next)`; `x` is the head of the free list, and the next
block is no longer on the free list and no longer a block of the physical walk. -/
theorem coalescing_on_release (M : Nat) (s : State) (h : Reachable M s) (x : Nat)
    (hx : is_allocated_ptr s (header_to_payload x) = true)
    (hin : next_header s.mem x < s.end_heap)
    (hfree : is_free s.mem (next_header s.mem x) = true) :
    is_free (myfree s (header_to_payload x)).mem x = true ∧
    get_payload_size (myfree s (header_to_payload x)).mem x
      = 8 + get_payload_size s.mem x + get_payload_size s.mem (next_header s.mem x) ∧
    (myfree s (header_to_payload x)).first_free_ptr = x ∧
    ∃ l hs : List Nat,
      (∀ fuel, (x :: l).length < fuel →
        free_list fuel (myfree s (header_to_payload x)).mem
          (myfree s (header_to_payload x)).first_free_ptr = some (x :: l)) ∧
      (∀ fuel, hs.length < fuel →
        heap_walk fuel (myfree s (header_to_payload x)).mem
            (myfree s (header_to_payload x)).segment_start
            ((myfree s (header_to_payload x)).segment_start
              + (myfree s (header_to_payload x)).segment_size)
          = some (hs, (myfree s (header_to_payload x)).segment_start
              + (myfree s (header_to_payload x)).segment_size)) ∧
      x ∈ hs ∧ next_header s.mem x ∉ x :: l ∧ next_header s.mem x ∉ hs := by
  obtain ⟨bs, l, inv⟩ := reachable_inv M s h
  obtain ⟨bs1, b, bs2, rfl, hxb, hb⟩ := inv.allocated_ptr hx
  have hxe : x = b.addr := by unfold header_to_payload HEADER_SIZE at hxb; omega
  subst hxe
  have hpe : header_to_payload b.addr = b.addr + 8 := rfl
  rw [hpe]
  have g := inv.geom
  have hbm := mem_mid bs1 bs2 b
  have hgb := g.good b hbm
  rw [hgb.next_eq (by have := g.mem_bounds hbm; omega)] at hin hfree ⊢
  cases bs2 with
  | nil =>
    have : b.stop = s.end_heap := g.split_at.2
    omega
  | cons c bs3 =>
    have hcm := mem_mid2 bs1 bs3 b c
    have hgc := g.good c hcm
    have hcadj : c.addr = b.stop := g.split_at.2.1
    rw [← hcadj] at hfree ⊢
    have hc : c.free = true := by rw [← hgc.is_free_eq]; exact hfree
    have hcl : c.addr ∈ l := (inv.free_iff c hcm).2 hc
    obtain ⟨l1, l2, rfl⟩ := List.append_of_mem hcl
    obtain ⟨inv2, _⟩ := myfree_merge inv hb hc
    have g2 := inv2.geom
    have hnm := mem_mid bs1 bs3 (Block.mk b.addr (8 + b.size + c.size) true)
    have hgn := g2.good _ hnm
    obtain ⟨o1, o2, _, _⟩ := inv2.observe
    have hbb := g.mem_bounds hbm
    have hcb := g.mem_bounds hcm
    refine ⟨hgn.is_free_eq, ?_, g2.chain.1, l1 ++ l2, _, ?_, o1, ?_, ?_, ?_⟩
    · rw [hgn.payload_eq, hgb.payload_eq, hgc.payload_eq]
    · exact o2
    · exact List.mem_map.2 ⟨_, hnm, rfl⟩
    · have hnd := g.nodup
      rw [List.nodup_append] at hnd
      obtain ⟨n1, n2, n3⟩ := hnd
      simp only [List.mem_cons, List.mem_append, not_or]
      refine ⟨by omega, fun h => n3 h (List.mem_cons_self _ _), (List.nodup_cons.1 n2).1⟩
    · intro hmem
      obtain ⟨d, hd, hda⟩ := List.mem_map.1 hmem
      rcases List.mem_append.1 hd with h5 | h5
      · have := (contig_mem g.split_at.1 h5).2
        have := (g.mem_bounds (List.mem_append_left _ h5)).2.1
        omega
      · rcases List.mem_cons.1 h5 with h6 | h6
        · rw [h6] at hda
          have hda : b.addr = c.addr := hda
          omega
        · have := (contig_mem g.split_at.2.2 h6).1
          omega

theorem ex_four_reachable : Reachable ex_max ex_four :=
  Reachable.malloc _ ex_four 16 16 4200
    (Reachable.malloc _ (after_malloc (after_malloc (after_malloc ex_init 16) 16) 40) 16 40 4152
      (Reachable.malloc _ (after_malloc (after_malloc ex_init 16) 16) 16 16 4128
        (Reachable.malloc _ (after_malloc ex_init 16) 16 16 4104 ex_init_reachable
          (by decide) (by rfl))
        (by decide) (by rfl))
      (by decide) (by rfl))
    (by decide) (by rfl)

/-- Witness for C7: after allocations of 16, 16, 40 and 16 bytes the last
block, at 4192, is followed by the free remainder at 4216. -/
theorem coalescing_on_release_witness :
    Reachable ex_max ex_four ∧ is_allocated_ptr ex_four (header_to_payload 4192) = true ∧
    next_header ex_four.mem 4192 < ex_four.end_heap ∧
    is_free ex_four.mem (next_header ex_four.mem 4192) = true ∧
    is_free (myfree ex_four (header_to_payload 4192)).mem 4192 = true ∧
    get_payload_size (myfree ex_four (header_to_payload 4192)).mem 4192
      = 8 + get_payload_size ex_four.mem 4192
          + get_payload_size ex_four.mem (next_header ex_four.mem 4192) ∧
    (myfree ex_four (header_to_payload 4192)).first_free_ptr = 4192 :=
  have h := coalescing_on_release ex_max ex_four ex_four_reachable 4192 (by decide) (by decide)
    (by decide)
  ⟨ex_four_reachable, by decide, by decide, by decide, h.1, h.2.1, h.2.2.1⟩



theorem mymalloc_loop_null_ret (fuel : Nat) (s : State) (r h : Nat) (s2 : State)
    (hret : mymalloc_loop fuel s r h = Outcome.ret (s2, 0)) : s2 = s := by
  induction fuel generalizing h with
  | zero => cases hret
  | succ f ih =>
    by_cases h0 : h = 0
    · subst h0
      rw [mymalloc_loop_null] at hret
      exact (Prod.mk.inj (Outcome.ret.inj hret)).1.symm
    · by_cases hhit : get_payload_size s.mem h ≥ r ∧ is_free s.mem h = true
      · rw [mymalloc_loop_hit f s r h h0 hhit _ _ _ rfl rfl rfl] at hret
        have := (Prod.mk.inj (Outcome.ret.inj hret)).2
        omega
      · rw [mymalloc_loop_miss f s r h h0 hhit] at hret
        exact ih _ hret

/-- Claim C8 (atomicity of a failed allocation). For every state, every fuel
and every `n`: when `mymalloc(n)` returns `NULL`, the state after the call is
the state before it, so the segment bytes, `first_free_ptr`, the free-list
links, `count_free` and `count_allocated` are exactly as before. -/
theorem failed_allocation_atomic (M fuel : Nat) (s : State) (n : Nat) (s2 : State)
    (h : mymalloc M fuel s n = Outcome.ret (s2, 0)) : s2 = s := by
  by_cases h0 : n = 0
  · subst h0
    rw [mymalloc_zero] at h
    exact (Prod.mk.inj (Outcome.ret.inj h)).1.symm
  by_cases hm : n > M
  · rw [mymalloc_over _ _ _ _ hm] at h
    exact (Prod.mk.inj (Outcome.ret.inj h)).1.symm
  by_cases hf : s.first_free_ptr = 0
  · rw [mymalloc_empty _ _ _ _ hf] at h
    exact (Prod.mk.inj (Outcome.ret.inj h)).1.symm
  rw [mymalloc_eq_loop _ _ _ _ h0 (by omega) hf] at h
  exact mymalloc_loop_null_ret _ _ _ _ _ h

/-- Witness for C8: a request of 2000 bytes cannot be served after
`mymalloc(40)` on the 1024-byte segment. -/
theorem failed_allocation_atomic_witness :
    mymalloc ex_max 16 ex_m40 2000 = Outcome.ret (after_malloc ex_m40 2000, 0) ∧
    after_malloc ex_m40 2000 = ex_m40 :=
  ⟨by rfl, failed_allocation_atomic ex_max 16 ex_m40 2000 (after_malloc ex_m40 2000) (by rfl)⟩

/-- Claim C9 (first fit over the free list). In every reachable state and for
every `n` with `0 < n ≤ MAX_REQUEST_SIZE`, let `r = max(16, n rounded up to a
multiple of 8)` and `l` the free list from head to tail. `mymalloc(n)` returns
with enough fuel; it returns `NULL` exactly when no block of `l` has payload
`≥ r`, and otherwise the payload pointer of the first block of `l` whose
payload is `≥ r`. -/
theorem first_fit (M : Nat) (hM : M + 7 < SIZE_MOD) (s : State) (h : Reachable M s)
    (n : Nat) (hn0 : 0 < n) (hnM : n ≤ M) :
    ∃ l : List Nat,
      (∀ fuel, l.length < fuel → free_list fuel s.mem s.first_free_ptr = some l) ∧
      (∀ fuel, l.length < fuel → ∃ s2 p, mymalloc M fuel s n = Outcome.ret (s2, p)) ∧
      ∀ fuel s2 p, mymalloc M fuel s n = Outcome.ret (s2, p) →
        (p = 0 ↔ ∀ a ∈ l, get_payload_size s.mem a < max 16 ((n + 7) / 8 * 8)) ∧
        (p ≠ 0 → ∃ l1 a l2, l = l1 ++ a :: l2 ∧
          (∀ y ∈ l1, get_payload_size s.mem y < max 16 ((n + 7) / 8 * 8)) ∧
          max 16 ((n + 7) / 8 * 8) ≤ get_payload_size s.mem a ∧
          p = header_to_payload a) := by
  obtain ⟨bs, l, inv⟩ := reachable_inv M s h
  have hr := rounded_request_math n (by omega)
  refine ⟨l, inv.geom.list, fun fuel hf => mymalloc_returns inv M fuel n hf, ?_⟩
  intro fuel s2 p hm
  rw [← hr]
  rcases mymalloc_spec inv M fuel n s2 p hm with ⟨_, hp0, hcase⟩ |
    ⟨_, _, bs1, b, bs2, l1, l2, e1, e2, hbf, hsmall, hfit, hpe, hpost⟩
  · have hall : ∀ a ∈ l, get_payload_size s.mem a < rounded_request n := by
      rcases hcase with h1 | h1 | h1
      · omega
      · omega
      · exact h1
    exact ⟨⟨fun _ => hall, fun _ => hp0⟩, fun hp => absurd hp0 hp⟩
  · have hsz : get_payload_size s.mem b.addr = b.size := by
      rw [e1] at inv
      exact (inv.node_size (mem_mid bs1 bs2 b)).1
    refine ⟨⟨fun hp => by omega, fun hall => ?_⟩, fun _ => ⟨l1, b.addr, l2, e2, hsmall, ?_, hpe⟩⟩
    · have := hall b.addr (by rw [e2]; exact mem_mid l1 l2 b.addr)
      omega
    · rw [hsz]; exact hfit

/-- Witness for C9: a request of 24 bytes in the state with free list
4144, 4120, 4216, whose blocks have payloads 40, 16 and 896. -/
theorem first_fit_witness :
    ex_max + 7 < SIZE_MOD ∧ Reachable ex_max ex_holes ∧ 0 < 24 ∧ 24 ≤ ex_max ∧
    free_list 16 ex_holes.mem ex_holes.first_free_ptr = some [4144, 4120, 4216] ∧
    ∃ l : List Nat,
      (∀ fuel, l.length < fuel → free_list fuel ex_holes.mem ex_holes.first_free_ptr = some l) ∧
      (∀ fuel, l.length < fuel → ∃ s2 p, mymalloc ex_max fuel ex_holes 24 = Outcome.ret (s2, p)) ∧
      ∀ fuel s2 p, mymalloc ex_max fuel ex_holes 24 = Outcome.ret (s2, p) →
        (p = 0 ↔ ∀ a ∈ l, get_payload_size ex_holes.mem a < max 16 ((24 + 7) / 8 * 8)) ∧
        (p ≠ 0 → ∃ l1 a l2, l = l1 ++ a :: l2 ∧
          (∀ y ∈ l1, get_payload_size ex_holes.mem y < max 16 ((24 + 7) / 8 * 8)) ∧
          max 16 ((24 + 7) / 8 * 8) ≤ get_payload_size ex_holes.mem a ∧
          p = header_to_payload a) :=
  have hr : Reachable ex_max ex_holes :=
    Reachable.free _ 4152 (Reachable.free _ 4128 ex_four_reachable (Or.inr (by decide)))
      (Or.inr (by decide))
  ⟨by decide, hr, by decide, by decide, by decide,
    first_fit ex_max (by decide) ex_holes hr 24 (by decide) (by decide)⟩



theorem ex_holes_reachable : Reachable ex_max ex_holes :=
  Reachable.free _ 4152 (Reachable.free _ 4128 ex_four_reachable (Or.inr (by decide)))
    (Or.inr (by decide))

/-- Counterexample to C10 as stated. The block at 4096 (payload pointer 4104)
has payload 16 and is followed by two free blocks that are neighbours on the
free list. `myrealloc(4104, 64)` coalesces to payload `88 = 64 + 24`, returns
4104 itself, but the byte at offset 56, below the new size 64, has changed: it
belonged to the `next` link of an absorbed free block, which `remove_free_node`
rewrote. -/
theorem shrink_in_place_counterexample :
    Reachable ex_max ex_holes ∧ is_allocated_ptr ex_holes 4104 = true ∧
    0 < 64 ∧ 64 ≤ ex_max ∧
    coalesce_loop 16 ex_holes (payload_to_header 4104) = Outcome.ret ex_coalesced ∧
    max 16 ((64 + 7) / 8 * 8) + 24 ≤ get_payload_size ex_coalesced.mem (payload_to_header 4104) ∧
    myrealloc ex_max 16 ex_holes 4104 64 = Outcome.ret (ex_resized, 4104) ∧
    56 < 64 ∧ ex_resized.mem (4104 + 56) ≠ ex_holes.mem (4104 + 56) :=
  ⟨ex_holes_reachable, by decide, by decide, by decide, by rfl, by decide, by rfl, by decide,
    by decide⟩

/-- The payload of an allocated block lies outside the link fields of the free-list nodes. -/
theorem Inv.payload_outside_links {s : State} {bs1 bs2 : List Block} {b : Block} {l : List Nat}
    (inv : Inv s (bs1 ++ b :: bs2) l) (hb : b.free = false) {x : Nat}
    (h1 : b.addr ≤ x) (h2 : x < b.stop) : ∀ a ∈ l, x < a + 8 ∨ a + 24 ≤ x := by
  intro a ha
  obtain ⟨d, hd, rfl⟩ := inv.geom.node ha
  have hbm := mem_mid bs1 bs2 b
  have hdb := inv.geom.mem_bounds hd
  rcases contig_pair inv.geom.contig hd hbm with h | h | h
  · subst h
    exact absurd ha (inv.block_not_listed hbm hb)
  · omega
  · omega

/-- Claim C10 (shrink in place), amended. For every allocated payload pointer
`p` of a reachable state and every `new_size` with `0 < new_size ≤
MAX_REQUEST_SIZE`, let `r = max(16, new_size rounded up to 8)`. The coalescing
loop returns with enough fuel; let `P` be the payload of the block after it. If
`r + 24 ≤ P` then `myrealloc(p, new_size)` returns `p` itself, the block stays
allocated with payload exactly `r`, a new free block with payload `P - r - 8`
starts immediately after it, at `p + r`, and is the head of the free list, and
the first `min(new_size, old payload size)` payload bytes at `p` are unchanged. -/
theorem shrink_in_place (M : Nat) (hM : M + 7 < SIZE_MOD) (s : State) (h : Reachable M s)
    (p : Nat) (hp : is_allocated_ptr s p = true) (n : Nat) (hn0 : 0 < n) (hnM : n ≤ M) :
    ∃ (s1 : State) (k : Nat),
      (∀ fuel, k < fuel → coalesce_loop fuel s (payload_to_header p) = Outcome.ret s1) ∧
      (max 16 ((n + 7) / 8 * 8) + 24 ≤ get_payload_size s1.mem (payload_to_header p) →
        ∃ s2 : State,
          (∀ fuel, k < fuel → myrealloc M fuel s p n = Outcome.ret (s2, p)) ∧
          is_allocated_ptr s2 p = true ∧
          is_free s2.mem (payload_to_header p) = false ∧
          get_payload_size s2.mem (payload_to_header p) = max 16 ((n + 7) / 8 * 8) ∧
          next_header s2.mem (payload_to_header p) = p + max 16 ((n + 7) / 8 * 8) ∧
          is_free s2.mem (p + max 16 ((n + 7) / 8 * 8)) = true ∧
          get_payload_size s2.mem (p + max 16 ((n + 7) / 8 * 8))
            = get_payload_size s1.mem (payload_to_header p) - max 16 ((n + 7) / 8 * 8) - 8 ∧
          s2.first_free_ptr = p + max 16 ((n + 7) / 8 * 8) ∧
          ∀ i, i < n → i < get_payload_size s.mem (payload_to_header p) →
            s2.mem (p + i) = s.mem (p + i)) := by
  obtain ⟨bs, l, inv⟩ := reachable_inv M s h
  obtain ⟨bs1, b, bs2, rfl, rfl, hb⟩ := inv.allocated_ptr hp
  obtain ⟨fs, rest, rfl, hfs, hrest⟩ := free_run_split bs2
  obtain ⟨s1, l1, hrun, inv1, hsub, _, hfoot1⟩ := coalesce_loop_spec fs inv hb hfs hrest
  have hph : payload_to_header (b.addr + 8) = b.addr := by
    unfold payload_to_header HEADER_SIZE; omega
  have hsub8 : b.addr + 8 - 8 = b.addr := by omega
  have hr := rounded_request_math n (by omega)
  obtain ⟨hr8, hr16⟩ := rounded_request_props n
  rw [hph, ← hr]
  have hBm := mem_mid bs1 rest
    (Block.mk b.addr (b.size + (fs.map (fun f => 8 + f.size)).sum) false)
  have hP : get_payload_size s1.mem b.addr = b.size + (fs.map (fun f => 8 + f.size)).sum :=
    (inv1.node_size hBm).1
  have hbm := mem_mid bs1 (fs ++ rest) b
  have hsz : get_payload_size s.mem b.addr = b.size := (inv.node_size hbm).1
  refine ⟨s1, fs.length, fun fuel hf => (hrun fuel).1 hf, ?_⟩
  rw [hP, hsz]
  intro hfit
  have hlt : rounded_request n < b.size + (fs.map (fun f => 8 + f.size)).sum := by omega
  obtain ⟨hinv, hfoot2⟩ := realloc_shrink_inv inv1 rfl (rounded_request n) hr8 hr16 hlt _ rfl
  rw [if_pos hfit] at hinv
  have hg2 := hinv.geom
  have hA := hg2.good _ (mem_mid bs1 _ (Block.mk b.addr (rounded_request n) false))
  have hN := hg2.good _ (mem_mid2 bs1 rest (Block.mk b.addr (rounded_request n) false)
    (Block.mk (b.addr + 8 + rounded_request n)
      (b.size + (fs.map (fun f => 8 + f.size)).sum - rounded_request n - 8) true))
  have hadd : b.addr + 8 + rounded_request n = b.addr + 8 + rounded_request n := rfl
  have hAb := hg2.mem_bounds (mem_mid bs1 _ (Block.mk b.addr (rounded_request n) false))
  refine ⟨_, ?_, ?_, hA.is_free_eq, hA.payload_eq, hA.next_eq (by omega), hN.is_free_eq,
    hN.payload_eq, hg2.chain.1, ?_⟩
  · intro fuel hf
    have hloop : coalesce_loop fuel s (b.addr + 8 - 8) = Outcome.ret s1 := by
      rw [hsub8]; exact (hrun fuel).1 hf
    rw [myrealloc_shrink M fuel s (b.addr + 8) n (by omega) (by omega) s1 hloop
      (by rw [hsub8, hP]; exact hlt) _ rfl, hsub8]
  · exact hinv.is_allocated_ptr_of (b := Block.mk b.addr (rounded_request n) false)
      (mem_mid bs1 _ _) rfl
  · intro i hi1 hi2
    dsimp only at hfoot2
    have hge := rounded_request_ge n (by omega)
    have hlinks := inv.payload_outside_links hb (x := b.addr + 8 + i) (by omega)
      (by rw [Block.stop_eq]; omega)
    rw [hfoot2 (b.addr + 8 + i) (by omega) (by omega)
      (fun a ha => hlinks a (hsub.subset ha))]
    exact hfoot1 (b.addr + 8 + i) (by omega) hlinks

/-- Witness for C10 (amended): the resize of the counterexample; the first 16
bytes, the old payload, are unchanged. -/
theorem shrink_in_place_witness :
    ex_max + 7 < SIZE_MOD ∧ Reachable ex_max ex_holes ∧ is_allocated_ptr ex_holes 4104 = true ∧
    0 < 64 ∧ 64 ≤ ex_max ∧
    ∃ (s1 : State) (k : Nat),
      (∀ fuel, k < fuel → coalesce_loop fuel ex_holes (payload_to_header 4104) = Outcome.ret s1) ∧
      (max 16 ((64 + 7) / 8 * 8) + 24 ≤ get_payload_size s1.mem (payload_to_header 4104) →
        ∃ s2 : State,
          (∀ fuel, k < fuel → myrealloc ex_max fuel ex_holes 4104 64 = Outcome.ret (s2, 4104)) ∧
          is_allocated_ptr s2 4104 = true ∧
          is_free s2.mem (payload_to_header 4104) = false ∧
          get_payload_size s2.mem (payload_to_header 4104) = max 16 ((64 + 7) / 8 * 8) ∧
          next_header s2.mem (payload_to_header 4104) = 4104 + max 16 ((64 + 7) / 8 * 8) ∧
          is_free s2.mem (4104 + max 16 ((64 + 7) / 8 * 8)) = true ∧
          get_payload_size s2.mem (4104 + max 16 ((64 + 7) / 8 * 8))
            = get_payload_size s1.mem (payload_to_header 4104) - max 16 ((64 + 7) / 8 * 8) - 8 ∧
          s2.first_free_ptr = 4104 + max 16 ((64 + 7) / 8 * 8) ∧
          ∀ i, i < 64 → i < get_payload_size ex_holes.mem (payload_to_header 4104) →
            s2.mem (4104 + i) = ex_holes.mem (4104 + i)) :=
  ⟨by decide, ex_holes_reachable, by decide, by decide, by decide,
    shrink_in_place ex_max (by decide) ex_holes ex_holes_reachable 4104 (by decide) 64
      (by decide) (by decide)⟩

/-! ## Claims C13 to C20 -/

theorem apart_irrefl (a : Nat) : ¬ Apart a a := by
  unfold Apart; omega

theorem erase_mid_of_apart {l1 l2 : List Nat} {b : Nat}
    (hap : (l1 ++ b :: l2).Pairwise Apart) : (l1 ++ b :: l2).erase b = l1 ++ l2 := by
  have hnot : b ∉ l1 := by
    intro h
    obtain ⟨_, _, h3⟩ := List.pairwise_append.1 hap
    exact apart_irrefl b (h3 b h b (List.mem_cons_self _ _))
  rw [List.erase_append_right _ hnot, List.erase_cons_head]

/-- Claim C17 (the free-list operations refine list operations). Whenever the
memory reachable from `first_free_ptr` represents the sequence `L` of distinct
blocks, `add_free_node(b)` for a non-null block `b` distinct from the blocks of
`L` yields a memory that represents `insert_head b L = b :: L`, and
`remove_free_node(b)` for `b` in `L` (head, tail, inner or only member) yields
a memory that represents `remove b L`, the list `L` with `b` erased and the
order of the others unchanged; in both cases the traversal from
`first_free_ptr` returns that list. -/
theorem free_list_refinement (s : State) (L : List Nat) (h : Represents s L) :
    (∀ b, b ≠ 0 → b < SIZE_MOD → (∀ a ∈ L, Apart b a) →
      Represents (add_free_node s b) (spec_insert_head b L) ∧
      ∀ fuel, (spec_insert_head b L).length < fuel →
        free_list fuel (add_free_node s b).mem (add_free_node s b).first_free_ptr
          = some (spec_insert_head b L)) ∧
    (∀ b, b ∈ L →
      Represents (remove_free_node s b) (spec_remove b L) ∧
      ∀ fuel, (spec_remove b L).length < fuel →
        free_list fuel (remove_free_node s b).mem (remove_free_node s b).first_free_ptr
          = some (spec_remove b L)) := by
  obtain ⟨hseg, hap, hlt⟩ := h
  constructor
  · intro b hb0 hb hba
    obtain ⟨h1, _⟩ := add_free_node_seg s L b hseg hba hap hb0 hb hlt
    refine ⟨⟨h1, ?_, ?_⟩, fun fuel hf => free_list_of_seg h1 fuel hf⟩
    · exact List.pairwise_cons.2 ⟨hba, hap⟩
    · intro a ha
      rcases List.mem_cons.1 ha with rfl | ha
      · exact hb
      · exact hlt a ha
  · intro b hbL
    obtain ⟨l1, l2, rfl⟩ := List.append_of_mem hbL
    obtain ⟨h1, _⟩ := remove_free_node_seg s l1 l2 b hseg hap
    have he : spec_remove b (l1 ++ b :: l2) = l1 ++ l2 := erase_mid_of_apart hap
    rw [he]
    refine ⟨⟨h1, ?_, ?_⟩, fun fuel hf => free_list_of_seg h1 fuel hf⟩
    · obtain ⟨p1, p2, p3⟩ := List.pairwise_append.1 hap
      exact List.pairwise_append.2 ⟨p1, (List.pairwise_cons.1 p2).2,
        fun x hx y hy => p3 x hx y (List.mem_cons_of_mem _ hy)⟩
    · intro a ha
      apply hlt
      rcases List.mem_append.1 ha with h | h
      · exact List.mem_append_left _ h
      · exact List.mem_append_right _ (List.mem_cons_of_mem _ h)

/-- Witness for C17: the free list 4144, 4120, 4216 of the example state; the
block at 4192 is inserted, and the inner node 4120 is removed. -/
theorem free_list_refinement_witness :
    Represents ex_holes [4144, 4120, 4216] ∧
    free_list 16 (add_free_node ex_holes 4192).mem (add_free_node ex_holes 4192).first_free_ptr
      = some [4192, 4144, 4120, 4216] ∧
    free_list 16 (remove_free_node ex_holes 4120).mem (remove_free_node ex_holes 4120).first_free_ptr
      = some [4144, 4216] :=
  have hrep : Represents ex_holes [4144, 4120, 4216] :=
    ⟨⟨rfl, by decide, by decide, rfl, by decide, by decide, rfl, by decide, by decide,
        by show get_next_free ex_holes.mem 4216 = 0; decide⟩,
      by simp [Apart], by decide⟩
  have h := free_list_refinement ex_holes [4144, 4120, 4216] hrep
  ⟨hrep, (h.1 4192 (by decide) (by decide) (by simp [Apart])).2 16 (by decide),
    (h.2 4120 (by decide)).2 16 (by decide)⟩

/-- Claim C18 (block-size invariant). In every reachable state every block
found by the physical walk, free or allocated, has a payload size that is a
multiple of 8 and at least 16; so for every block on the free list the two
links, 16 bytes from the start of the payload, end inside the block. -/
theorem block_size_invariant (M : Nat) (s : State) (h : Reachable M s) :
    ∃ hs l : List Nat,
      (∀ fuel, hs.length < fuel →
        heap_walk fuel s.mem s.segment_start (s.segment_start + s.segment_size)
          = some (hs, s.segment_start + s.segment_size)) ∧
      (∀ a ∈ hs, get_payload_size s.mem a % 8 = 0 ∧ 16 ≤ get_payload_size s.mem a) ∧
      (∀ fuel, l.length < fuel → free_list fuel s.mem s.first_free_ptr = some l) ∧
      (∀ a ∈ l, a ∈ hs ∧ get_free_block a + 16 ≤ next_header s.mem a) := by
  obtain ⟨bs, l, inv⟩ := reachable_inv M s h
  obtain ⟨h1, h2, _, h4⟩ := inv.observe
  have hsz : ∀ a ∈ bs.map Block.addr,
      get_payload_size s.mem a % 8 = 0 ∧ 16 ≤ get_payload_size s.mem a := by
    intro a ha
    obtain ⟨b, hb, rfl⟩ := List.mem_map.1 ha
    have hg := inv.geom.good b hb
    rw [hg.payload_eq]
    exact hg.2
  refine ⟨bs.map Block.addr, l, h1, hsz, h2, ?_⟩
  intro a ha
  have hm := ((h4 a).1 ha).1
  refine ⟨hm, ?_⟩
  obtain ⟨b, hb, rfl⟩ := List.mem_map.1 hm
  have hg := inv.geom.good b hb
  have hbb := inv.geom.mem_bounds hb
  rw [hg.next_eq (by omega), Block.stop_eq]
  have := hg.2.2
  unfold get_free_block HEADER_SIZE
  omega

/-- Witness for C18: the state with two holes. -/
theorem block_size_invariant_witness :
    Reachable ex_max ex_holes ∧
    ∃ hs l : List Nat,
      (∀ fuel, hs.length < fuel →
        heap_walk fuel ex_holes.mem ex_holes.segment_start
            (ex_holes.segment_start + ex_holes.segment_size)
          = some (hs, ex_holes.segment_start + ex_holes.segment_size)) ∧
      (∀ a ∈ hs, get_payload_size ex_holes.mem a % 8 = 0 ∧ 16 ≤ get_payload_size ex_holes.mem a) ∧
      (∀ fuel, l.length < fuel → free_list fuel ex_holes.mem ex_holes.first_free_ptr = some l) ∧
      (∀ a ∈ l, a ∈ hs ∧ get_free_block a + 16 ≤ next_header ex_holes.mem a) :=
  ⟨ex_holes_reachable, block_size_invariant ex_max ex_holes ex_holes_reachable⟩

/-- Claim C14 (split rule and fragmentation bound). In every reachable state
and for every `n ≤ MAX_REQUEST_SIZE`, let `mymalloc(n)` return the non-null
pointer `p`, let `P` be the payload of the selected block before the call and
`r = max(16, n rounded up to 8)`. The selected block was free with `r ≤ P`. If
`P - r ≥ 24` the returned block has payload exactly `r`, and a new free block of
payload `P - r - 8` begins immediately after it, at `p + r`: it is the new head
of the free list and the physical walk visits it between the returned block
and its old successor. If `P - r < 24` the returned block keeps payload `P` and
the physical walk visits the same headers as before. In both cases
`r ≤ payload ≤ r + 23`. -/
theorem split_rule (M : Nat) (hM : M + 7 < SIZE_MOD) (s : State) (h : Reachable M s)
    (n : Nat) (hnM : n ≤ M) (fuel : Nat) (s2 : State) (p : Nat)
    (hm : mymalloc M fuel s n = Outcome.ret (s2, p)) (hp : p ≠ 0) :
    is_free s.mem (payload_to_header p) = true ∧
    max 16 ((n + 7) / 8 * 8) ≤ get_payload_size s.mem (payload_to_header p) ∧
    is_free s2.mem (payload_to_header p) = false ∧
    max 16 ((n + 7) / 8 * 8) ≤ get_payload_size s2.mem (payload_to_header p) ∧
    get_payload_size s2.mem (payload_to_header p) ≤ max 16 ((n + 7) / 8 * 8) + 23 ∧
    ∃ hs1 hs2 : List Nat,
      (∀ fuel, (hs1 ++ payload_to_header p :: hs2).length < fuel →
        heap_walk fuel s.mem s.segment_start (s.segment_start + s.segment_size)
          = some (hs1 ++ payload_to_header p :: hs2, s.segment_start + s.segment_size)) ∧
      (get_payload_size s.mem (payload_to_header p) - max 16 ((n + 7) / 8 * 8) ≥ 24 →
        get_payload_size s2.mem (payload_to_header p) = max 16 ((n + 7) / 8 * 8) ∧
        next_header s2.mem (payload_to_header p) = p + max 16 ((n + 7) / 8 * 8) ∧
        is_free s2.mem (p + max 16 ((n + 7) / 8 * 8)) = true ∧
        get_payload_size s2.mem (p + max 16 ((n + 7) / 8 * 8))
          = get_payload_size s.mem (payload_to_header p) - max 16 ((n + 7) / 8 * 8) - 8 ∧
        s2.first_free_ptr = p + max 16 ((n + 7) / 8 * 8) ∧
        (∀ fuel, (hs1 ++ payload_to_header p :: (p + max 16 ((n + 7) / 8 * 8)) :: hs2).length < fuel →
          heap_walk fuel s2.mem s2.segment_start (s2.segment_start + s2.segment_size)
            = some (hs1 ++ payload_to_header p :: (p + max 16 ((n + 7) / 8 * 8)) :: hs2,
                s2.segment_start + s2.segment_size))) ∧
      (get_payload_size s.mem (payload_to_header p) - max 16 ((n + 7) / 8 * 8) < 24 →
        get_payload_size s2.mem (payload_to_header p)
          = get_payload_size s.mem (payload_to_header p) ∧
        (∀ fuel, (hs1 ++ payload_to_header p :: hs2).length < fuel →
          heap_walk fuel s2.mem s2.segment_start (s2.segment_start + s2.segment_size)
            = some (hs1 ++ payload_to_header p :: hs2, s2.segment_start + s2.segment_size))) := by
  obtain ⟨bs, l, inv⟩ := reachable_inv M s h
  have hr := rounded_request_math n (by omega)
  rw [← hr]
  rcases mymalloc_spec inv M fuel n s2 p hm with ⟨_, hp0, _⟩ |
    ⟨_, _, bs1, b, bs2, l1, l2, e1, e2, hbf, _, hfit, hpe, hpost⟩
  · exact absurd hp0 hp
  subst e1
  have hph : payload_to_header p = b.addr := by
    rw [hpe]; unfold payload_to_header HEADER_SIZE; omega
  have hbm := mem_mid bs1 bs2 b
  have hgb := inv.geom.good b hbm
  obtain ⟨o1, _, _, _⟩ := inv.observe
  have hmap : (bs1 ++ b :: bs2).map Block.addr
      = bs1.map Block.addr ++ b.addr :: bs2.map Block.addr := by
    rw [List.map_append, List.map_cons]
  rw [hph, hgb.is_free_eq, hgb.payload_eq]
  obtain ⟨hinv, _⟩ := hpost
  by_cases hsp : b.size - rounded_request n ≥ 24
  · rw [if_pos hsp] at hinv
    have hA := hinv.geom.good _ (mem_mid bs1 _ (Block.mk b.addr (rounded_request n) false))
    have hN := hinv.geom.good _ (mem_mid2 bs1 bs2 (Block.mk b.addr (rounded_request n) false)
      (Block.mk (b.addr + 8 + rounded_request n) (b.size - rounded_request n - 8) true))
    obtain ⟨o2, _, _, _⟩ := hinv.observe
    have hmap2 : (bs1 ++ (Block.mk b.addr (rounded_request n) false) ::
        (Block.mk (b.addr + 8 + rounded_request n) (b.size - rounded_request n - 8) true)
          :: bs2).map Block.addr
        = bs1.map Block.addr ++ b.addr :: (p + rounded_request n) :: bs2.map Block.addr := by
      rw [List.map_append, List.map_cons, List.map_cons, hpe]
    have hpr : p + rounded_request n = b.addr + 8 + rounded_request n := by rw [hpe]
    rw [hA.is_free_eq, hA.payload_eq, hpr]
    refine ⟨hbf, hfit, rfl, Nat.le_refl _, by dsimp only; omega, bs1.map Block.addr,
      bs2.map Block.addr, ?_, ?_, ?_⟩
    · rw [← hmap]; exact o1
    · intro _
      have hAb := hinv.geom.mem_bounds
        (mem_mid bs1 _ (Block.mk b.addr (rounded_request n) false))
      refine ⟨rfl, hA.next_eq (by omega), hN.is_free_eq, hN.payload_eq, hinv.geom.chain.1, ?_⟩
      rw [← hpr, ← hmap2]
      exact o2
    · intro hlt
      omega
  · rw [if_neg hsp] at hinv
    have hA := hinv.geom.good _ (mem_mid bs1 bs2 (Block.mk b.addr b.size false))
    obtain ⟨o2, _, _, _⟩ := hinv.observe
    have hmap2 : (bs1 ++ (Block.mk b.addr b.size false) :: bs2).map Block.addr
        = bs1.map Block.addr ++ b.addr :: bs2.map Block.addr := by
      rw [List.map_append, List.map_cons]
    rw [hA.is_free_eq, hA.payload_eq]
    refine ⟨hbf, hfit, rfl, hfit, by dsimp only; omega, bs1.map Block.addr,
      bs2.map Block.addr, ?_, ?_, ?_⟩
    · rw [← hmap]; exact o1
    · intro hge
      exact absurd hge hsp
    · intro _
      refine ⟨rfl, ?_⟩
      rw [← hmap2]
      exact o2

/-- Witness for C14: `mymalloc(40)` on the fresh segment splits the block of
payload 1016. -/
theorem split_rule_witness :
    ex_max + 7 < SIZE_MOD ∧ Reachable ex_max ex_init ∧ 40 ≤ ex_max ∧
    mymalloc ex_max 16 ex_init 40 = Outcome.ret (ex_m40, 4104) ∧ (4104 : Nat) ≠ 0 ∧
    is_free ex_init.mem (payload_to_header 4104) = true ∧
    max 16 ((40 + 7) / 8 * 8) ≤ get_payload_size ex_init.mem (payload_to_header 4104) ∧
    is_free ex_m40.mem (payload_to_header 4104) = false ∧
    max 16 ((40 + 7) / 8 * 8) ≤ get_payload_size ex_m40.mem (payload_to_header 4104) ∧
    get_payload_size ex_m40.mem (payload_to_header 4104) ≤ max 16 ((40 + 7) / 8 * 8) + 23 :=
  have h := split_rule ex_max (by decide) ex_init ex_init_reachable 40 (by decide) 16 ex_m40 4104
    (by rfl) (by decide)
  ⟨by decide, ex_init_reachable, by decide, by rfl, by decide, h.1, h.2.1, h.2.2.1, h.2.2.2.1,
    h.2.2.2.2.1⟩

/-- The blocks of a tiling other than the one at `a` keep their header when
both memories encode them. -/
theorem good_same {m m2 : Mem} {d : Block} (h1 : GoodBlock m d) (h2 : GoodBlock m2 d) :
    is_free m2 d.addr = is_free m d.addr ∧
    get_payload_size m2 d.addr = get_payload_size m d.addr := by
  rw [h1.is_free_eq, h2.is_free_eq, h1.payload_eq, h2.payload_eq]
  exact ⟨rfl, rfl⟩

/-- Claim C16 (one merge step per release, forward only). In every reachable
state let `x` be the header of an allocated block, `hs1` the headers that the
physical walk visits before `x` and `hs2` those after it. After `myfree` of the
payload of `x` the block `x` is free and the head of the free list. If the next
block is absent or allocated the payload of `x` is its original size and the
walk is unchanged. If the next block `y` lies inside the segment and is free,
the payload of `x` is the original size `+ 8 +` the size of `y`, and the walk
only loses `y`. In both cases every other block, in particular a free block
that follows `y` and every block that precedes `x`, is still a block of the
walk with the same status and payload size, and it is on the free list after
the call exactly when it was free before. -/
theorem one_merge_step (M : Nat) (s : State) (h : Reachable M s) (x : Nat)
    (hx : is_allocated_ptr s (header_to_payload x) = true) :
    ∃ hs1 hs2 l2 : List Nat,
      (∀ fuel, (hs1 ++ x :: hs2).length < fuel →
        heap_walk fuel s.mem s.segment_start (s.segment_start + s.segment_size)
          = some (hs1 ++ x :: hs2, s.segment_start + s.segment_size)) ∧
      is_free (myfree s (header_to_payload x)).mem x = true ∧
      (∀ fuel, (x :: l2).length < fuel →
        free_list fuel (myfree s (header_to_payload x)).mem
          (myfree s (header_to_payload x)).first_free_ptr = some (x :: l2)) ∧
      (¬ (next_header s.mem x < s.end_heap ∧ is_free s.mem (next_header s.mem x) = true) →
        get_payload_size (myfree s (header_to_payload x)).mem x = get_payload_size s.mem x ∧
        (∀ fuel, (hs1 ++ x :: hs2).length < fuel →
          heap_walk fuel (myfree s (header_to_payload x)).mem
              (myfree s (header_to_payload x)).segment_start
              ((myfree s (header_to_payload x)).segment_start
                + (myfree s (header_to_payload x)).segment_size)
            = some (hs1 ++ x :: hs2, (myfree s (header_to_payload x)).segment_start
                + (myfree s (header_to_payload x)).segment_size)) ∧
        ∀ z ∈ hs1 ++ hs2,
          is_free (myfree s (header_to_payload x)).mem z = is_free s.mem z ∧
          get_payload_size (myfree s (header_to_payload x)).mem z = get_payload_size s.mem z ∧
          (z ∈ l2 ↔ is_free s.mem z = true)) ∧
      (next_header s.mem x < s.end_heap ∧ is_free s.mem (next_header s.mem x) = true →
        get_payload_size (myfree s (header_to_payload x)).mem x
          = get_payload_size s.mem x + 8 + get_payload_size s.mem (next_header s.mem x) ∧
        ∃ hs3, hs2 = next_header s.mem x :: hs3 ∧
          (∀ fuel, (hs1 ++ x :: hs3).length < fuel →
            heap_walk fuel (myfree s (header_to_payload x)).mem
                (myfree s (header_to_payload x)).segment_start
                ((myfree s (header_to_payload x)).segment_start
                  + (myfree s (header_to_payload x)).segment_size)
              = some (hs1 ++ x :: hs3, (myfree s (header_to_payload x)).segment_start
                  + (myfree s (header_to_payload x)).segment_size)) ∧
          ∀ z ∈ hs1 ++ hs3,
            is_free (myfree s (header_to_payload x)).mem z = is_free s.mem z ∧
            get_payload_size (myfree s (header_to_payload x)).mem z
              = get_payload_size s.mem z ∧
            (z ∈ l2 ↔ is_free s.mem z = true)) := by
  obtain ⟨bs, l, inv⟩ := reachable_inv M s h
  obtain ⟨bs1, b, bs2, rfl, hxb, hb⟩ := inv.allocated_ptr hx
  have hxe : x = b.addr := by unfold header_to_payload HEADER_SIZE at hxb; omega
  subst hxe
  have hpe : header_to_payload b.addr = b.addr + 8 := rfl
  rw [hpe]
  have g := inv.geom
  have hbm := mem_mid bs1 bs2 b
  have hgb := g.good b hbm
  have hbb := g.mem_bounds hbm
  obtain ⟨o1, _, _, _⟩ := inv.observe
  have hbl := inv.block_not_listed hbm hb
  rw [hgb.next_eq (by omega), hgb.payload_eq]
  -- a block away from `b` is a member of the new list exactly when it was free
  have hother : ∀ (bsA bsB : List Block) (lA : List Nat) (s2 : State) (nb : Block),
      nb.addr = b.addr →
      Inv s2 (bsA ++ nb :: bsB) (b.addr :: lA) →
      (∀ d ∈ bsA ++ bsB, d ∈ bs1 ++ b :: bs2 ∧ d.addr ≠ b.addr) →
      ∀ z ∈ (bsA ++ bsB).map Block.addr,
        is_free s2.mem z = is_free s.mem z ∧
        get_payload_size s2.mem z = get_payload_size s.mem z ∧
        (z ∈ lA ↔ is_free s.mem z = true) := by
    intro bsA bsB lA s2 nb hnb inv2 hsub z hz
    obtain ⟨d, hd, rfl⟩ := List.mem_map.1 hz
    obtain ⟨hd1, hd2⟩ := hsub d hd
    have hd3 : d ∈ bsA ++ nb :: bsB := by
      rcases List.mem_append.1 hd with h | h
      · exact List.mem_append_left _ h
      · exact List.mem_append_right _ (List.mem_cons_of_mem _ h)
    have hg1 := g.good d hd1
    have hg2 := inv2.geom.good d hd3
    obtain ⟨e1, e2⟩ := good_same hg1 hg2
    refine ⟨e1, e2, ?_⟩
    rw [hg1.is_free_eq, ← inv2.free_iff d hd3]
    simp only [List.mem_cons]
    constructor
    · exact Or.inr
    · rintro (h | h)
      · exact absurd h hd2
      · exact h
  have hsubA : ∀ d ∈ bs1, d ∈ bs1 ++ b :: bs2 ∧ d.addr ≠ b.addr := by
    intro d hd
    refine ⟨List.mem_append_left _ hd, ?_⟩
    have := (contig_mem g.split_at.1 hd).2
    have := (g.mem_bounds (List.mem_append_left _ hd)).2.1
    omega
  have hsubB : ∀ d ∈ bs2, d ∈ bs1 ++ b :: bs2 ∧ d.addr ≠ b.addr := by
    intro d hd
    refine ⟨List.mem_append_right _ (List.mem_cons_of_mem _ hd), ?_⟩
    have := (contig_mem g.split_at.2 hd).1
    omega
  have hmap : (bs1 ++ b :: bs2).map Block.addr
      = bs1.map Block.addr ++ b.addr :: bs2.map Block.addr := by
    rw [List.map_append, List.map_cons]
  -- is the next block free?
  have hplain : (∀ c bs3, bs2 = c :: bs3 → c.free = false) →
      ¬ (b.stop < s.end_heap ∧ is_free s.mem b.stop = true) := by
    intro hnext
    cases bs2 with
    | nil =>
      have : b.stop = s.end_heap := g.split_at.2
      omega
    | cons c bs3 =>
      have hcadj : c.addr = b.stop := g.split_at.2.1
      have hgc := g.good c (mem_mid2 bs1 bs3 b c)
      rw [← hcadj, hgc.is_free_eq, hnext c bs3 rfl]
      simp
  by_cases hnext : ∀ c bs3, bs2 = c :: bs3 → c.free = false
  · obtain ⟨inv2, _⟩ := myfree_plain inv hb hnext
    have hN := inv2.geom.good _ (mem_mid bs1 bs2 (Block.mk b.addr b.size true))
    obtain ⟨o2, o3, _, _⟩ := inv2.observe
    have hmap2 : (bs1 ++ (Block.mk b.addr b.size true) :: bs2).map Block.addr
        = bs1.map Block.addr ++ b.addr :: bs2.map Block.addr := by
      rw [List.map_append, List.map_cons]
    refine ⟨bs1.map Block.addr, bs2.map Block.addr, l, ?_, hN.is_free_eq, o3, ?_, ?_⟩
    · rw [← hmap]; exact o1
    · intro _
      refine ⟨hN.payload_eq, ?_, ?_⟩
      · rw [← hmap2]; exact o2
      · rw [← List.map_append]
        exact hother bs1 bs2 l _ (Block.mk b.addr b.size true) rfl inv2 (fun d hd => by
          rcases List.mem_append.1 hd with h | h
          · exact hsubA d h
          · exact hsubB d h)
    · intro hc
      exact absurd hc (hplain hnext)
  · cases bs2 with
    | nil => exact absurd (fun c bs3 h => by cases h) hnext
    | cons c bs3 =>
      have hc : c.free = true := by
        cases hcf : c.free with
        | true => rfl
        | false =>
          exfalso
          apply hnext
          intro c2 bs4 h2
          cases h2
          exact hcf
      have hcm := mem_mid2 bs1 bs3 b c
      have hgc := g.good c hcm
      have hcadj : c.addr = b.stop := g.split_at.2.1
      have hcl : c.addr ∈ l := (inv.free_iff c hcm).2 hc
      obtain ⟨l1, l2, rfl⟩ := List.append_of_mem hcl
      obtain ⟨inv2, _⟩ := myfree_merge inv hb hc
      have hN := inv2.geom.good _
        (mem_mid bs1 bs3 (Block.mk b.addr (8 + b.size + c.size) true))
      obtain ⟨o2, o3, _, _⟩ := inv2.observe
      have hmap2 : (bs1 ++ (Block.mk b.addr (8 + b.size + c.size) true) :: bs3).map Block.addr
          = bs1.map Block.addr ++ b.addr :: bs3.map Block.addr := by
        rw [List.map_append, List.map_cons]
      refine ⟨bs1.map Block.addr, (c :: bs3).map Block.addr, l1 ++ l2, ?_, hN.is_free_eq, o3,
        ?_, ?_⟩
      · rw [← hmap]; exact o1
      · intro hno
        exfalso
        apply hno
        have hcb := g.mem_bounds hcm
        rw [← hcadj, hgc.is_free_eq]
        exact ⟨by omega, hc⟩
      · intro _
        rw [← hcadj, hgc.payload_eq]
        refine ⟨by rw [hN.payload_eq]; dsimp only; omega, bs3.map Block.addr, rfl, ?_, ?_⟩
        · rw [← hmap2]; exact o2
        · rw [← List.map_append]
          have hclist : ∀ z, z ≠ c.addr → (z ∈ l1 ++ l2 ↔ z ∈ l1 ++ c.addr :: l2) := by
            intro z hz
            simp only [List.mem_append, List.mem_cons]
            constructor
            · rintro (h | h)
              · exact Or.inl h
              · exact Or.inr (Or.inr h)
            · rintro (h | h | h)
              · exact Or.inl h
              · exact absurd h hz
              · exact Or.inr h
          intro z hz
          obtain ⟨d, hd, rfl⟩ := List.mem_map.1 hz
          have hd1 : d ∈ bs1 ++ b :: c :: bs3 ∧ d.addr ≠ b.addr ∧ d.addr ≠ c.addr := by
            rcases List.mem_append.1 hd with h | h
            · have h1 := hsubA d h
              refine ⟨h1.1, h1.2, ?_⟩
              have := (contig_mem g.split_at.1 h).2
              have := (g.mem_bounds h1.1).2.1
              rw [Block.stop_eq] at hcadj
              omega
            · have h1 := hsubB d (List.mem_cons_of_mem _ h)
              refine ⟨h1.1, h1.2, ?_⟩
              have h2 : Contig c.stop bs3 s.end_heap := (g.split_at.2).2
              have := (contig_mem h2 h).1
              have := (g.mem_bounds hcm).2.1
              omega
          have hd3 : d ∈ bs1 ++ (Block.mk b.addr (8 + b.size + c.size) true) :: bs3 := by
            rcases List.mem_append.1 hd with h | h
            · exact List.mem_append_left _ h
            · exact List.mem_append_right _ (List.mem_cons_of_mem _ h)
          have hg1 := g.good d hd1.1
          have hg2 := inv2.geom.good d hd3
          obtain ⟨e1, e2⟩ := good_same hg1 hg2
          refine ⟨e1, e2, ?_⟩
          rw [hg1.is_free_eq, ← inv.free_iff d hd1.1, ← hclist d.addr hd1.2.2]

/-! ## Frames of the operations -/

/-- A byte of an allocated block lies outside every other block and outside
the link fields of the free-list nodes. -/
theorem Inv.block_frame {s : State} {bs : List Block} {l : List Nat} (inv : Inv s bs l)
    {d : Block} (hd : d ∈ bs) (hdf : d.free = false) {x : Nat} (h1 : d.addr ≤ x)
    (h2 : x < d.stop) :
    (∀ c ∈ bs, c.addr ≠ d.addr → x < c.addr ∨ c.stop ≤ x) ∧
    (∀ a ∈ l, x < a + 8 ∨ a + 24 ≤ x) := by
  constructor
  · intro c hc hne
    rcases contig_pair inv.geom.contig hc hd with h | h | h
    · exact absurd (congrArg Block.addr h) hne
    · right; omega
    · left; omega
  · obtain ⟨bs1, bs2, rfl⟩ := List.append_of_mem hd
    exact inv.payload_outside_links hdf h1 h2

/-- Two blocks of the tiling with the same header address are the same block. -/
theorem Inv.block_eq {s : State} {bs : List Block} {l : List Nat} (inv : Inv s bs l)
    {c d : Block} (hc : c ∈ bs) (hd : d ∈ bs) (h : c.addr = d.addr) : c = d := by
  have h1 := (inv.geom.mem_bounds hc).2.1
  have h2 := (inv.geom.mem_bounds hd).2.1
  rcases contig_pair inv.geom.contig hc hd with h3 | h3 | h3
  · exact h3
  · omega
  · omega

/-- Function `myfree` on an allocated block: the block becomes the head of the
free list, the other allocated blocks remain, and memory changes only in the
header and link fields of the block and in the link fields of list nodes. -/
theorem myfree_frame {s : State} {bs : List Block} {l : List Nat} (inv : Inv s bs l)
    {b : Block} (hbm : b ∈ bs) (hb : b.free = false) :
    ∃ bs3 l3 sz, Inv (myfree s (b.addr + 8)) bs3 (b.addr :: l3) ∧
      Block.mk b.addr sz true ∈ bs3 ∧ b.size ≤ sz ∧
      (∀ d ∈ bs, d.free = false → d ≠ b → d ∈ bs3) ∧
      (∀ x, (x < b.addr ∨ b.addr + 24 ≤ x) → (∀ a ∈ l, x < a + 8 ∨ a + 24 ≤ x) →
        (myfree s (b.addr + 8)).mem x = s.mem x) := by
  obtain ⟨bs1, bs2, rfl⟩ := List.append_of_mem hbm
  have hkeep : ∀ (nb : Block) (bs3 : List Block), (∀ d ∈ bs2, d.free = false → d ∈ bs3) →
      ∀ d ∈ bs1 ++ b :: bs2, d.free = false → d ≠ b → d ∈ bs1 ++ nb :: bs3 := by
    intro nb bs3 h d hd hdf hne
    rcases List.mem_append.1 hd with h1 | h1
    · exact List.mem_append_left _ h1
    · rcases List.mem_cons.1 h1 with h1 | h1
      · exact absurd h1 hne
      · exact List.mem_append_right _ (List.mem_cons_of_mem _ (h d h1 hdf))
  by_cases hnext : ∀ c bs3, bs2 = c :: bs3 → c.free = false
  · obtain ⟨inv2, hfoot⟩ := myfree_plain inv hb hnext
    exact ⟨_, l, b.size, inv2, mem_mid _ _ _, Nat.le_refl _,
      hkeep _ bs2 (fun d hd _ => hd), hfoot⟩
  · cases bs2 with
    | nil => exact absurd (fun c bs3 h => by cases h) hnext
    | cons c bs3 =>
      have hc : c.free = true := by
        cases hcf : c.free with
        | true => rfl
        | false =>
          exfalso
          apply hnext
          intro c2 bs4 h2
          cases h2
          exact hcf
      have hcl : c.addr ∈ l := (inv.free_iff c (mem_mid2 bs1 bs3 b c)).2 hc
      obtain ⟨l1, l2, rfl⟩ := List.append_of_mem hcl
      obtain ⟨inv2, hfoot⟩ := myfree_merge inv hb hc
      refine ⟨_, l1 ++ l2, 8 + b.size + c.size, inv2, mem_mid _ _ _, by omega, ?_, hfoot⟩
      apply hkeep
      intro d hd hdf
      rcases List.mem_cons.1 hd with h1 | h1
      · rw [h1, hc] at hdf
        cases hdf
      · exact h1

/-- Function `mymalloc` on a state that satisfies the invariant, for an
admissible request: with enough fuel it returns, `NULL` with the state unchanged
when no list node fits, and the first fitting node otherwise; the result does
not depend on the fuel. -/
theorem mymalloc_total {s : State} {bs : List Block} {l : List Nat} (inv : Inv s bs l)
    (M n : Nat) (h0 : n ≠ 0) (hm : n ≤ M) :
    ((∀ a ∈ l, get_payload_size s.mem a < rounded_request n) ∧
      ∀ fuel, l.length < fuel → mymalloc M fuel s n = Outcome.ret (s, 0)) ∨
    (∃ bs1 b bs2 l1 l2 s2, bs = bs1 ++ b :: bs2 ∧ l = l1 ++ b.addr :: l2 ∧ b.free = true ∧
      rounded_request n ≤ b.size ∧ MallocPost s bs1 b bs2 l1 l2 (rounded_request n) s2 ∧
      ∀ fuel, l.length < fuel → mymalloc M fuel s n = Outcome.ret (s2, b.addr + 8)) := by
  by_cases hf : s.first_free_ptr = 0
  · left
    have := inv.first_zero_iff.1 hf
    subst this
    exact ⟨fun a ha => absurd ha (List.not_mem_nil a), fun fuel _ => mymalloc_empty _ _ _ _ hf⟩
  obtain ⟨hr8, hr16⟩ := rounded_request_props n
  rcases mymalloc_loop_spec inv (rounded_request n) hr8 hr16 with
    ⟨hall, hrun⟩ | ⟨bs1, b, bs2, l1, l2, s3, e1, e2, hb, hsmall, hfit, hpost, hrun⟩
  · left
    refine ⟨hall, fun fuel hfu => ?_⟩
    rw [mymalloc_eq_loop _ _ _ _ h0 hm hf]
    exact (hrun fuel).1 hfu
  · right
    refine ⟨bs1, b, bs2, l1, l2, s3, e1, e2, hb, hfit, hpost, fun fuel hfu => ?_⟩
    rw [mymalloc_eq_loop _ _ _ _ h0 hm hf]
    apply (hrun fuel).1
    rw [e2] at hfu
    simp at hfu
    omega



/-- A returning `mymalloc` call leaves every allocated block as it is, and a
non-null result is the payload of a block that was free. -/
theorem mymalloc_frame {s : State} {bs : List Block} {l : List Nat} (inv : Inv s bs l)
    (M fuel n : Nat) (s2 : State) (p : Nat)
    (hm : mymalloc M fuel s n = Outcome.ret (s2, p)) :
    ∃ bs3 l3, Inv s2 bs3 l3 ∧
      (∀ d ∈ bs, d.free = false → d ∈ bs3) ∧
      (∀ d ∈ bs, d.free = false → ∀ x, d.addr ≤ x → x < d.stop → s2.mem x = s.mem x) ∧
      (p ≠ 0 → ∃ nb ∈ bs3, nb.addr + 8 = p ∧ nb.free = false ∧ rounded_request n ≤ nb.size ∧
        ∀ d ∈ bs, d.free = false → d.addr ≠ nb.addr) := by
  rcases mymalloc_spec inv M fuel n s2 p hm with ⟨rfl, hp0, _⟩ |
    ⟨_, _, bs1, b, bs2, l1, l2, e1, e2, hbf, _, hfit, hpe, hpost⟩
  · exact ⟨bs, l, inv, fun d hd _ => hd, fun d _ _ x _ _ => rfl, fun hp => absurd hp0 hp⟩
  subst e1 e2
  obtain ⟨bs3, l3, nb, inv3, hnbm, hnba, hnbf, hnbr, _, hkeep⟩ := hpost.blocks hfit
  have hbm := mem_mid bs1 bs2 b
  have hne : ∀ d ∈ bs1 ++ b :: bs2, d.free = false → d.addr ≠ b.addr := by
    intro d hd hdf hda
    have := inv.block_eq hd hbm hda
    rw [this, hbf] at hdf
    cases hdf
  have hin : ∀ d ∈ bs1 ++ b :: bs2, d.free = false → d ∈ bs1 ++ bs2 := by
    intro d hd hdf
    rcases List.mem_append.1 hd with h | h
    · exact List.mem_append_left _ h
    · rcases List.mem_cons.1 h with h | h
      · rw [h, hbf] at hdf
        cases hdf
      · exact List.mem_append_right _ h
  refine ⟨bs3, l3, inv3, fun d hd hdf => hkeep d (hin d hd hdf), ?_, fun _ => ?_⟩
  · intro d hd hdf x h1 h2
    obtain ⟨f1, f2⟩ := inv.block_frame hd hdf h1 h2
    apply hpost.2 x (f1 b hbm (fun h => hne d hd hdf h.symm))
    intro a ha
    apply f2
    rcases List.mem_append.1 ha with h | h
    · exact List.mem_append_left _ h
    · exact List.mem_append_right _ (List.mem_cons_of_mem _ h)
  · refine ⟨nb, hnbm, by rw [hnba, hpe], hnbf, hnbr, ?_⟩
    intro d hd hdf
    rw [hnba]
    exact hne d hd hdf

/-- The relocating branch of `myrealloc` after a successful inner `mymalloc`:
the old block is released, the new block holds the copied bytes, and the other
allocated blocks are left as they are. -/
theorem realloc_relocate_spec {s1 : State} {bs : List Block} {l1 : List Nat}
    (inv1 : Inv s1 bs l1) {X : Block} (hX : X ∈ bs) (hXa : X.free = false)
    (M fuel n : Nat) (hn : n < SIZE_MOD) (hgt : X.size < rounded_request n)
    (s3 : State) (q : Nat) (hm : mymalloc M fuel s1 n = Outcome.ret (s3, q)) (hq : q ≠ 0)
    (k : Nat) (hk : k = if X.size < n then X.size else n) :
    ∃ bs4 l4 nb sz,
      Inv (myfree { s3 with mem := memcpy s3.mem q (X.addr + 8) k } (X.addr + 8)) bs4
        (X.addr :: l4) ∧
      Block.mk X.addr sz true ∈ bs4 ∧ nb ∈ bs4 ∧ nb.addr + 8 = q ∧ nb.free = false ∧
      n ≤ nb.size ∧ (∀ d ∈ bs, d.free = false → d.addr ≠ nb.addr) ∧
      (∀ d ∈ bs, d.free = false → d ≠ X → d ∈ bs4) ∧
      (∀ i, i < k → (myfree { s3 with mem := memcpy s3.mem q (X.addr + 8) k } (X.addr + 8)).mem
          (q + i) = s1.mem (X.addr + 8 + i)) ∧
      (∀ d ∈ bs, d.free = false → d ≠ X → ∀ x, d.addr ≤ x → x < d.stop →
        (myfree { s3 with mem := memcpy s3.mem q (X.addr + 8) k } (X.addr + 8)).mem x
          = s1.mem x) := by
  obtain ⟨bs3, l3, inv3, hkeep3, hframe3, hnew⟩ := mymalloc_frame inv1 M fuel n s3 q hm
  obtain ⟨nb, hnbm, hnbq, hnbf, hnbr, hnbne⟩ := hnew hq
  have hX3 : X ∈ bs3 := hkeep3 X hX hXa
  have hXne : nb.addr ≠ X.addr := fun h => hnbne X hX hXa h.symm
  have hnle : n ≤ rounded_request n :=
    rounded_request_no_wrap n hn (by
      have := (inv1.geom.good X hX).2.2
      omega)
  have hkle : k ≤ nb.size := by
    rw [hk]; split <;> omega
  have hkX : k ≤ X.size := by
    rw [hk]; split <;> omega
  -- the copy stays inside the payload of the new block
  obtain ⟨bsc, bsd, e3⟩ := List.append_of_mem hnbm
  have inv3b : Inv { s3 with mem := memcpy s3.mem q (X.addr + 8) k } bs3 l3 := by
    rw [e3] at inv3 ⊢
    apply inv3.payload_store hnbf
    intro z hz
    apply memcpy_other
    rw [Block.stop_eq] at hz
    omega
  obtain ⟨bs4, l4, sz, inv4, hXm4, _, hkeep4, hfoot4⟩ := myfree_frame inv3b hX3 hXa
  have hnb4 : nb ∈ bs4 := hkeep4 nb hnbm hnbf (fun h => hXne (congrArg Block.addr h))
  refine ⟨bs4, l4, nb, sz, inv4, hXm4, hnb4, hnbq, hnbf, by omega, hnbne, ?_, ?_, ?_⟩
  · intro d hd hdf hne
    exact hkeep4 d (hkeep3 d hd hdf) hdf hne
  · intro i hi
    have hx1 : nb.addr ≤ q + i := by omega
    have hx2 : q + i < nb.stop := by rw [Block.stop_eq]; omega
    obtain ⟨f1, f2⟩ := inv3b.block_frame hnbm hnbf hx1 hx2
    have hXb := (inv3b.geom.mem_bounds hX3).2.1
    rw [Block.stop_eq] at hXb
    have hout := f1 X hX3 (fun h => hXne h.symm)
    have hXsz : 16 ≤ X.size := (inv1.geom.good X hX).2.2
    have hapart : q + i < X.addr ∨ X.addr + 24 ≤ q + i := by
      rcases hout with h | h
      · exact Or.inl h
      · right
        rw [Block.stop_eq] at h
        omega
    rw [hfoot4 (q + i) hapart f2]
    dsimp only
    unfold memcpy
    rw [if_pos ⟨by omega, by omega⟩]
    have e : X.addr + 8 + (q + i - q) = X.addr + 8 + i := by omega
    rw [e]
    exact hframe3 X hX hXa (X.addr + 8 + i) (by omega) (by rw [Block.stop_eq]; omega)
  · intro d hd hdf hne x h1 h2
    have hd3 := hkeep3 d hd hdf
    obtain ⟨f1, f2⟩ := inv3b.block_frame hd3 hdf h1 h2
    have hdX : X.addr ≠ d.addr := by
      intro h
      exact hne (inv1.block_eq hd hX h.symm)
    have hXb := (inv3b.geom.mem_bounds hX3).2.1
    rw [Block.stop_eq] at hXb
    have hapart : x < X.addr ∨ X.addr + 24 ≤ x := by
      rcases f1 X hX3 hdX with h | h
      · exact Or.inl h
      · right
        rw [Block.stop_eq] at h
        have hXsz : 16 ≤ X.size := (inv1.geom.good X hX).2.2
        omega
    rw [hfoot4 x hapart f2]
    dsimp only
    have hdnb : nb.addr ≠ d.addr := fun h => hnbne d hd hdf h.symm
    have hnbout := f1 nb hnbm hdnb
    rw [memcpy_other _ _ _ _ _ (by rw [Block.stop_eq] at hnbout; omega)]
    exact hframe3 d hd hdf x h1 h2

/-! ## The result of a loop does not depend on the fuel -/

theorem coalesce_loop_last (fuel : Nat) (s : State) (h : Nat) (hc : ¬ (coalesce s h).2 = true) :
    coalesce_loop (fuel + 1) s h = Outcome.ret (coalesce s h).1 := by
  conv => lhs; unfold coalesce_loop
  rw [if_neg hc]

/-- More fuel does not change what the coalescing loop returns. -/
theorem coalesce_loop_mono (f : Nat) : ∀ (s : State) (h : Nat) (s1 : State),
    coalesce_loop f s h = Outcome.ret s1 → ∀ f2, f ≤ f2 → coalesce_loop f2 s h = Outcome.ret s1 := by
  induction f with
  | zero => intro s h s1 hr; cases hr
  | succ f ih =>
    intro s h s1 hr f2 hf
    obtain ⟨g, rfl⟩ : ∃ g, f2 = g + 1 := ⟨f2 - 1, by omega⟩
    by_cases hc : (coalesce s h).2 = true
    · rw [coalesce_loop_step f s h hc] at hr
      rw [coalesce_loop_step g s h hc]
      exact ih _ h s1 hr g (by omega)
    · rw [coalesce_loop_last f s h hc] at hr
      rw [coalesce_loop_last g s h hc]
      exact hr

/-- More fuel does not change what the loop of `mymalloc` returns. -/
theorem mymalloc_loop_mono (f : Nat) : ∀ (s : State) (r start : Nat) (res : State × Nat),
    mymalloc_loop f s r start = Outcome.ret res →
    ∀ f2, f ≤ f2 → mymalloc_loop f2 s r start = Outcome.ret res := by
  induction f with
  | zero => intro s r start res hr; cases hr
  | succ f ih =>
    intro s r start res hr f2 hf
    obtain ⟨g, rfl⟩ : ∃ g, f2 = g + 1 := ⟨f2 - 1, by omega⟩
    by_cases h0 : start = 0
    · subst h0
      rw [mymalloc_loop_null] at hr ⊢
      exact hr
    by_cases hhit : get_payload_size s.mem start ≥ r ∧ is_free s.mem start = true
    · rw [mymalloc_loop_hit f s r start h0 hhit _ _ _ rfl rfl rfl] at hr
      rw [mymalloc_loop_hit g s r start h0 hhit _ _ _ rfl rfl rfl]
      exact hr
    · rw [mymalloc_loop_miss f s r start h0 hhit] at hr
      rw [mymalloc_loop_miss g s r start h0 hhit]
      exact ih s r _ res hr g (by omega)

/-- More fuel does not change what `mymalloc` returns. -/
theorem mymalloc_mono (M f : Nat) (s : State) (n : Nat) (res : State × Nat)
    (hr : mymalloc M f s n = Outcome.ret res) (f2 : Nat) (hf : f ≤ f2) :
    mymalloc M f2 s n = Outcome.ret res := by
  by_cases h0 : n = 0
  · subst h0
    rw [mymalloc_zero] at hr ⊢
    exact hr
  by_cases hm : n > M
  · rw [mymalloc_over _ _ _ _ hm] at hr ⊢
    exact hr
  by_cases hfz : s.first_free_ptr = 0
  · rw [mymalloc_empty _ _ _ _ hfz] at hr ⊢
    exact hr
  rw [mymalloc_eq_loop _ _ _ _ h0 (by omega) hfz] at hr ⊢
  exact mymalloc_loop_mono f s _ _ res hr f2 hf

/-- Two returning runs of the coalescing loop return the same state. -/
theorem coalesce_loop_det {f f2 : Nat} {s : State} {h : Nat} {s1 s2 : State}
    (h1 : coalesce_loop f s h = Outcome.ret s1) (h2 : coalesce_loop f2 s h = Outcome.ret s2) :
    s1 = s2 := by
  rcases Nat.le_total f f2 with hle | hle
  · rw [coalesce_loop_mono f s h s1 h1 f2 hle] at h2
    exact Outcome.ret.inj h2
  · rw [coalesce_loop_mono f2 s h s2 h2 f hle] at h1
    exact (Outcome.ret.inj h1).symm

/-- Two returning runs of `mymalloc` return the same result. -/
theorem mymalloc_det {M f f2 : Nat} {s : State} {n : Nat} {r1 r2 : State × Nat}
    (h1 : mymalloc M f s n = Outcome.ret r1) (h2 : mymalloc M f2 s n = Outcome.ret r2) :
    r1 = r2 := by
  rcases Nat.le_total f f2 with hle | hle
  · rw [mymalloc_mono M f s n r1 h1 f2 hle] at h2
    exact Outcome.ret.inj h2
  · rw [mymalloc_mono M f2 s n r2 h2 f hle] at h1
    exact (Outcome.ret.inj h1).symm

/-- When the block cannot hold the rounded size after the coalescing loop and
the inner `mymalloc` returns `NULL`, `myrealloc` does not return for any fuel. -/
theorem myrealloc_never_returns (M : Nat) (s : State) (p n : Nat) (hp : p ≠ 0) (hn : n ≠ 0)
    (f1 : Nat) (s1 : State) (hloop : coalesce_loop f1 s (p - 8) = Outcome.ret s1)
    (hr : get_payload_size s1.mem (p - 8) < rounded_request n)
    (f2 : Nat) (s3 : State) (hm : mymalloc M f2 s1 n = Outcome.ret (s3, 0)) :
    ∀ fuel s2 q, myrealloc M fuel s p n ≠ Outcome.ret (s2, q) := by
  intro fuel s2 q hret
  cases hl : coalesce_loop fuel s (p - 8) with
  | timeout =>
    rw [myrealloc_timeout M fuel s p n hp hn hl] at hret
    cases hret
  | fault =>
    have : ∀ (f : Nat) (s : State) (h : Nat), coalesce_loop f s h ≠ Outcome.fault := by
      intro f
      induction f with
      | zero => intro s h hh; cases hh
      | succ f ih =>
        intro s h
        by_cases hc : (coalesce s h).2 = true
        · rw [coalesce_loop_step f s h hc]; exact ih _ _
        · rw [coalesce_loop_last f s h hc]; intro hh; cases hh
    exact this _ _ _ hl
  | ret s1b =>
    have e := coalesce_loop_det hl hloop
    subst e
    cases hm2 : mymalloc M fuel s1b n with
    | timeout =>
      rw [myrealloc_grow_timeout M fuel s p n hp hn s1b hl hr hm2] at hret
      cases hret
    | fault => exact mymalloc_no_fault _ _ _ _ hm2
    | ret res =>
      have e2 := mymalloc_det hm2 hm
      subst e2
      rw [myrealloc_grow_fault M fuel s p n hp hn s1b hl hr s3 hm2] at hret
      cases hret

/-- Counterexample to C11 as stated. After `mymalloc(40)` on the fresh segment
the block at 4096 (payload pointer 4104) is followed by the only free block.
For `new_size = 2000` the rounded size exceeds the payload 1016 that the block
has after the coalescing loop, and no free block is left: the inner `mymalloc`
returns `NULL`, `memcpy` is called with a null destination, and `myrealloc`
returns no pointer, for any fuel. -/
theorem grow_by_relocation_counterexample :
    Reachable ex_max ex_m40 ∧ is_allocated_ptr ex_m40 4104 = true ∧
    coalesce_loop 16 ex_m40 (payload_to_header 4104) = Outcome.ret ex_m40_coalesced ∧
    get_payload_size ex_m40_coalesced.mem (payload_to_header 4104) < max 16 ((2000 + 7) / 8 * 8) ∧
    myrealloc ex_max 16 ex_m40 4104 2000 = Outcome.fault ∧
    ∀ fuel s2 q, myrealloc ex_max fuel ex_m40 4104 2000 ≠ Outcome.ret (s2, q) :=
  ⟨ex_m40_reachable, by decide, by rfl, by decide, by rfl,
    myrealloc_never_returns ex_max ex_m40 4104 2000 (by decide) (by decide) 16 ex_m40_coalesced
      (by rfl) (by decide) 16 ex_m40_coalesced (by rfl)⟩

/-- The rounded request of `0` is 16. -/
theorem rounded_request_zero : rounded_request 0 = 16 := by decide

/-- Claim C11 (grow by relocation), amended. For every allocated payload
pointer `p` of a reachable state and every `new_size ≤ MAX_REQUEST_SIZE`, let
`r = max(16, new_size rounded up to 8)`. The coalescing loop returns with enough
fuel. If `r` exceeds the payload that the block has after the loop, and some
block that is on the free list after the loop has payload `≥ r`, then
`myrealloc(p, new_size)` returns a non-null pointer `q` different from `p`: `q`
is the payload of an allocated block of payload `≥ new_size`, the first
`min(old, new_size)` bytes at `q` equal the bytes that were at `p` before the
call, and the block at `p` is free and the head of the free list. -/
theorem grow_by_relocation (M : Nat) (hM : M + 7 < SIZE_MOD) (s : State) (h : Reachable M s)
    (p : Nat) (hp : is_allocated_ptr s p = true) (n : Nat) (hnM : n ≤ M) :
    ∃ (s1 : State) (l1 : List Nat) (k : Nat),
      (∀ fuel, k < fuel → coalesce_loop fuel s (payload_to_header p) = Outcome.ret s1) ∧
      (∀ fuel, l1.length < fuel → free_list fuel s1.mem s1.first_free_ptr = some l1) ∧
      (get_payload_size s1.mem (payload_to_header p) < max 16 ((n + 7) / 8 * 8) →
        (∃ a ∈ l1, max 16 ((n + 7) / 8 * 8) ≤ get_payload_size s1.mem a) →
        ∃ (s2 : State) (q : Nat) (l2 : List Nat),
          (∀ fuel, k < fuel → myrealloc M fuel s p n = Outcome.ret (s2, q)) ∧
          q ≠ 0 ∧ q ≠ p ∧ is_allocated_ptr s2 q = true ∧
          n ≤ get_payload_size s2.mem (payload_to_header q) ∧
          (∀ i, i < get_payload_size s.mem (payload_to_header p) → i < n →
            s2.mem (q + i) = s.mem (p + i)) ∧
          is_free s2.mem (payload_to_header p) = true ∧
          s2.first_free_ptr = payload_to_header p ∧
          (∀ fuel, (payload_to_header p :: l2).length < fuel →
            free_list fuel s2.mem s2.first_free_ptr = some (payload_to_header p :: l2))) := by
  obtain ⟨bs, l, inv⟩ := reachable_inv M s h
  obtain ⟨bs1, b, bs2, rfl, rfl, hb⟩ := inv.allocated_ptr hp
  obtain ⟨fs, rest, rfl, hfs, hrest⟩ := free_run_split bs2
  obtain ⟨s1, l1, hrun, inv1, hsub, _, hfoot1⟩ := coalesce_loop_spec fs inv hb hfs hrest
  have hph : payload_to_header (b.addr + 8) = b.addr := by
    unfold payload_to_header HEADER_SIZE; omega
  have hsub8 : b.addr + 8 - 8 = b.addr := by omega
  have hr := rounded_request_math n (by omega)
  rw [hph, ← hr]
  have hBm := mem_mid bs1 rest
    (Block.mk b.addr (b.size + (fs.map (fun f => 8 + f.size)).sum) false)
  have hP : get_payload_size s1.mem b.addr = b.size + (fs.map (fun f => 8 + f.size)).sum :=
    (inv1.node_size hBm).1
  have hbm := mem_mid bs1 (fs ++ rest) b
  have hsz : get_payload_size s.mem b.addr = b.size := (inv.node_size hbm).1
  refine ⟨s1, l1, fs.length + l1.length, fun fuel hf => (hrun fuel).1 (by omega),
    inv1.geom.list, ?_⟩
  rw [hP, hsz]
  intro hgt hfit
  have hn0 : n ≠ 0 := by
    rintro rfl
    rw [rounded_request_zero] at hgt
    have := (inv.geom.good b hbm).2.2
    omega
  rcases mymalloc_total inv1 M n hn0 hnM with ⟨hall, _⟩ |
    ⟨_, c, _, _, _, s3, _, _, _, _, _, hrunm⟩
  · obtain ⟨a, ha, hge⟩ := hfit
    have := hall a ha
    omega
  have hm := hrunm (l1.length + 1) (by omega)
  obtain ⟨bs4, l4, nb, sz, inv4, hXm4, hnb4, hnbq, hnbf, hnbn, _, _, hbytes, _⟩ :=
    realloc_relocate_spec inv1 hBm rfl M (l1.length + 1) n (by omega) hgt s3 (c.addr + 8) hm
      (by omega) (if b.size + (fs.map (fun f => 8 + f.size)).sum < n
        then b.size + (fs.map (fun f => 8 + f.size)).sum else n) rfl
  dsimp only at inv4 hXm4 hbytes
  have hrun2 : ∀ fuel, fs.length + l1.length < fuel → myrealloc M fuel s (b.addr + 8) n =
      Outcome.ret (myfree { s3 with mem := memcpy s3.mem (c.addr + 8) (b.addr + 8) (if b.size + (fs.map (fun f => 8 + f.size)).sum < n then b.size + (fs.map (fun f => 8 + f.size)).sum else n) } (b.addr + 8), c.addr + 8) := by
    intro fuel hf
    have hloop : coalesce_loop fuel s (b.addr + 8 - 8) = Outcome.ret s1 := by
      rw [hsub8]; exact (hrun fuel).1 (by omega)
    rw [myrealloc_grow M fuel s (b.addr + 8) n (by omega) hn0 s1 hloop
      (by rw [hsub8, hP]; exact hgt) s3 (c.addr + 8) (hrunm fuel (by omega)) (by omega),
      hsub8, hP]
  generalize myfree { s3 with mem := memcpy s3.mem (c.addr + 8) (b.addr + 8) (if b.size + (fs.map (fun f => 8 + f.size)).sum < n then b.size + (fs.map (fun f => 8 + f.size)).sum else n) } (b.addr + 8) = s2 at inv4 hbytes hrun2
  have hgnb := inv4.geom.good nb hnb4
  have hgX := inv4.geom.good _ hXm4
  have hqh : payload_to_header (c.addr + 8) = nb.addr := by
    unfold payload_to_header HEADER_SIZE; omega
  have hnbne : nb.addr ≠ b.addr := by
    intro he
    have := inv4.block_eq hnb4 hXm4 he
    rw [this] at hnbf
    cases hnbf
  have hmin : ∀ i, i < b.size → i < n → i < (if b.size + (fs.map (fun f => 8 + f.size)).sum < n
      then b.size + (fs.map (fun f => 8 + f.size)).sum else n) := by
    intro i h1 h2
    split <;> omega
  refine ⟨s2, c.addr + 8, l4, hrun2, by omega, by omega, ?_, ?_, ?_, hgX.is_free_eq,
    inv4.geom.chain.1, inv4.geom.list⟩
  · rw [← hnbq]
    exact inv4.is_allocated_ptr_of hnb4 hnbf
  · rw [hqh, hgnb.payload_eq]
    exact hnbn
  · intro i hi1 hi2
    rw [hbytes i (hmin i hi1 hi2)]
    have hlinks := inv.payload_outside_links hb (x := b.addr + 8 + i) (by omega)
      (by rw [Block.stop_eq]; omega)
    exact hfoot1 (b.addr + 8 + i) (by omega) hlinks

/-- Witness for C11 (amended): after four allocations the first block, of
payload 16, is followed by an allocated block; `myrealloc(4104, 100)` moves it
into the free remainder at 4216. -/
theorem grow_by_relocation_witness :
    ex_max + 7 < SIZE_MOD ∧ Reachable ex_max ex_four ∧ is_allocated_ptr ex_four 4104 = true ∧
    100 ≤ ex_max ∧
    myrealloc ex_max 16 ex_four 4104 100 = Outcome.ret (after_realloc ex_four 4104 100, 4224) ∧
    ∃ (s1 : State) (l1 : List Nat) (k : Nat),
      (∀ fuel, k < fuel → coalesce_loop fuel ex_four (payload_to_header 4104) = Outcome.ret s1) ∧
      (∀ fuel, l1.length < fuel → free_list fuel s1.mem s1.first_free_ptr = some l1) ∧
      (get_payload_size s1.mem (payload_to_header 4104) < max 16 ((100 + 7) / 8 * 8) →
        (∃ a ∈ l1, max 16 ((100 + 7) / 8 * 8) ≤ get_payload_size s1.mem a) →
        ∃ (s2 : State) (q : Nat) (l2 : List Nat),
          (∀ fuel, k < fuel → myrealloc ex_max fuel ex_four 4104 100 = Outcome.ret (s2, q)) ∧
          q ≠ 0 ∧ q ≠ 4104 ∧ is_allocated_ptr s2 q = true ∧
          100 ≤ get_payload_size s2.mem (payload_to_header q) ∧
          (∀ i, i < get_payload_size ex_four.mem (payload_to_header 4104) → i < 100 →
            s2.mem (q + i) = ex_four.mem (4104 + i)) ∧
          is_free s2.mem (payload_to_header 4104) = true ∧
          s2.first_free_ptr = payload_to_header 4104 ∧
          (∀ fuel, (payload_to_header 4104 :: l2).length < fuel →
            free_list fuel s2.mem s2.first_free_ptr = some (payload_to_header 4104 :: l2))) :=
  ⟨by decide, ex_four_reachable, by decide, by decide, by rfl,
    grow_by_relocation ex_max (by decide) ex_four ex_four_reachable 4104 (by decide) 100
      (by decide)⟩

/-- Claim C12 (failed resize), what the code does. In every reachable state, for
every allocated payload pointer `p` and every `new_size > 0`: when the rounded
size exceeds the payload that the block has after the coalescing loop, and the
request is above `MAX_REQUEST_SIZE` or no block on the free list is large
enough, the inner `mymalloc` returns `NULL` and `myrealloc` passes it to
`memcpy`: with enough fuel the call faults, and for no fuel does it return. -/
theorem failed_resize (M : Nat) (s : State) (h : Reachable M s) (p : Nat)
    (hp : is_allocated_ptr s p = true) (n : Nat) (hn0 : 0 < n) :
    ∃ (s1 : State) (l1 : List Nat) (k : Nat),
      (∀ fuel, k < fuel → coalesce_loop fuel s (payload_to_header p) = Outcome.ret s1) ∧
      (∀ fuel, l1.length < fuel → free_list fuel s1.mem s1.first_free_ptr = some l1) ∧
      (get_payload_size s1.mem (payload_to_header p) < rounded_request n →
        (M < n ∨ ∀ a ∈ l1, get_payload_size s1.mem a < rounded_request n) →
        (∀ fuel, k < fuel → myrealloc M fuel s p n = Outcome.fault) ∧
        ∀ fuel s2 q, myrealloc M fuel s p n ≠ Outcome.ret (s2, q)) := by
  obtain ⟨bs, l, inv⟩ := reachable_inv M s h
  obtain ⟨bs1, b, bs2, rfl, rfl, hb⟩ := inv.allocated_ptr hp
  obtain ⟨fs, rest, rfl, hfs, hrest⟩ := free_run_split bs2
  obtain ⟨s1, l1, hrun, inv1, _, _, _⟩ := coalesce_loop_spec fs inv hb hfs hrest
  have hph : payload_to_header (b.addr + 8) = b.addr := by
    unfold payload_to_header HEADER_SIZE; omega
  have hsub8 : b.addr + 8 - 8 = b.addr := by omega
  rw [hph]
  refine ⟨s1, l1, fs.length + l1.length, fun fuel hf => (hrun fuel).1 (by omega),
    inv1.geom.list, ?_⟩
  intro hgt hno
  have hmall : ∀ fuel, l1.length < fuel → mymalloc M fuel s1 n = Outcome.ret (s1, 0) := by
    intro fuel hf
    rcases hno with hM | hall
    · exact mymalloc_over _ _ _ _ hM
    · by_cases hM : M < n
      · exact mymalloc_over _ _ _ _ hM
      rcases mymalloc_total inv1 M n (by omega) (by omega) with ⟨_, hr⟩ |
        ⟨bsa, c, bsb, la, lb, s3, e1, e2, hcf, hfit, _, _⟩
      · exact hr fuel hf
      · exfalso
        have hcm : c ∈ bsa ++ c :: bsb := mem_mid bsa bsb c
        rw [← e1] at hcm
        have h1 := (inv1.node_size hcm).1
        have h2 := hall c.addr (by rw [e2]; exact mem_mid la lb c.addr)
        omega
  have hloop : ∀ fuel, fs.length < fuel →
      coalesce_loop fuel s (b.addr + 8 - 8) = Outcome.ret s1 := by
    intro fuel hf
    rw [hsub8]; exact (hrun fuel).1 hf
  constructor
  · intro fuel hf
    exact myrealloc_grow_fault M fuel s (b.addr + 8) n (by omega) (by omega) s1
      (hloop fuel (by omega)) (by rw [hsub8]; exact hgt) s1 (hmall fuel (by omega))
  · exact myrealloc_never_returns M s (b.addr + 8) n (by omega) (by omega) (fs.length + 1) s1
      (hloop _ (by omega)) (by rw [hsub8]; exact hgt) (l1.length + 1) s1 (hmall _ (by omega))

/-- Witness for C12: `myrealloc(4104, 2000)` after `mymalloc(40)` on the fresh
1024-byte segment. The coalescing loop has already absorbed the free block
(the free list is empty and `count_free` is 0) when the call faults. -/
theorem failed_resize_witness :
    Reachable ex_max ex_m40 ∧ is_allocated_ptr ex_m40 4104 = true ∧ 0 < 2000 ∧
    coalesce_loop 16 ex_m40 (payload_to_header 4104) = Outcome.ret ex_m40_coalesced ∧
    ex_m40.first_free_ptr = 4144 ∧ ex_m40_coalesced.first_free_ptr = 0 ∧
    ex_m40.count_free = 1 ∧ ex_m40_coalesced.count_free = 0 ∧
    mymalloc ex_max 16 ex_m40_coalesced 2000 = Outcome.ret (ex_m40_coalesced, 0) ∧
    myrealloc ex_max 16 ex_m40 4104 2000 = Outcome.fault ∧
    ∃ (s1 : State) (l1 : List Nat) (k : Nat),
      (∀ fuel, k < fuel → coalesce_loop fuel ex_m40 (payload_to_header 4104) = Outcome.ret s1) ∧
      (∀ fuel, l1.length < fuel → free_list fuel s1.mem s1.first_free_ptr = some l1) ∧
      (get_payload_size s1.mem (payload_to_header 4104) < rounded_request 2000 →
        (ex_max < 2000 ∨ ∀ a ∈ l1, get_payload_size s1.mem a < rounded_request 2000) →
        (∀ fuel, k < fuel → myrealloc ex_max fuel ex_m40 4104 2000 = Outcome.fault) ∧
        ∀ fuel s2 q, myrealloc ex_max fuel ex_m40 4104 2000 ≠ Outcome.ret (s2, q)) :=
  ⟨ex_m40_reachable, by decide, by decide, by rfl, by decide, by decide, by decide, by decide,
    by rfl, by rfl,
    failed_resize ex_max ex_m40 ex_m40_reachable 4104 (by decide) 2000 (by decide)⟩

/-- The code at the failing input of C19: after `mymalloc(40)` on the fresh
segment, `myrealloc(4104, SIZE_MAX)` rounds the request to 0 and then to 16,
takes the shrinking branch and returns `4104`, the payload pointer of an
allocated block whose payload size is 16, far below the requested size. -/
theorem resize_wraps_around :
    Reachable ex_max ex_m40 ∧ is_allocated_ptr ex_m40 4104 = true ∧
    0 < ex_size_max ∧ ex_size_max < SIZE_MOD ∧
    roundup ex_size_max HEADER_SIZE = 0 ∧
    myrealloc ex_max 16 ex_m40 4104 ex_size_max = Outcome.ret (ex_wrapped, 4104) ∧
    (4104 : Nat) ≠ 0 ∧ is_allocated_ptr ex_wrapped 4104 = true ∧
    get_payload_size ex_wrapped.mem (payload_to_header 4104) = 16 ∧
    ¬ ex_size_max ≤ get_payload_size ex_wrapped.mem (payload_to_header 4104) :=
  ⟨ex_m40_reachable, by decide, by decide, by decide, by decide, by rfl, by decide, by decide,
    by decide, by decide⟩

/-- The shrinking branch of `myrealloc`, after the coalescing loop has returned. -/
theorem myrealloc_shrink_spec {s s1 : State} {bs1 rest : List Block} {X : Block} {l1 : List Nat}
    (inv1 : Inv s1 (bs1 ++ X :: rest) l1) (hX : X.free = false) (M fuel n : Nat) (hn : n ≠ 0)
    (hloop : coalesce_loop fuel s X.addr = Outcome.ret s1) (hlt : rounded_request n < X.size) :
    ∃ sF, myrealloc M fuel s (X.addr + 8) n = Outcome.ret (sF, X.addr + 8) ∧
      (if rounded_request n + 24 ≤ X.size then
          Inv sF (bs1 ++ (Block.mk X.addr (rounded_request n) false) ::
            (Block.mk (X.addr + 8 + rounded_request n) (X.size - rounded_request n - 8) true)
              :: rest)
            ((X.addr + 8 + rounded_request n) :: l1)
        else Inv sF (bs1 ++ X :: rest) l1) ∧
      (∀ x, (x < X.addr ∨ X.addr + 8 ≤ x) → (x < X.addr + 8 + rounded_request n ∨ X.stop ≤ x) →
        (∀ a ∈ l1, x < a + 8 ∨ a + 24 ≤ x) → sF.mem x = s1.mem x) := by
  obtain ⟨hr8, hr16⟩ := rounded_request_props n
  have hsub : X.addr + 8 - 8 = X.addr := by omega
  have hPs : get_payload_size s1.mem X.addr = X.size :=
    (inv1.node_size (mem_mid bs1 rest X)).1
  obtain ⟨hinv, hfoot⟩ := realloc_shrink_inv inv1 hX (rounded_request n) hr8 hr16 hlt _ rfl
  refine ⟨_, ?_, hinv, hfoot⟩
  rw [myrealloc_shrink M fuel s (X.addr + 8) n (by omega) hn s1 (by rw [hsub]; exact hloop)
    (by rw [hsub, hPs]; exact hlt) _ rfl, hsub]

/-- Every returning `myrealloc` call keeps the invariant, leaves the allocated
blocks other than the one it is called on as they are, and a non-null result
is the payload of an allocated block different from them. -/
theorem myrealloc_frame {s : State} {bs : List Block} {l : List Nat} (inv : Inv s bs l)
    (M fuel p n : Nat) (s2 : State) (q : Nat) (hp : p = 0 ∨ is_allocated_ptr s p = true)
    (hn : n < SIZE_MOD) (h : myrealloc M fuel s p n = Outcome.ret (s2, q)) :
    ∃ bs3 l3, Inv s2 bs3 l3 ∧
      (∀ d ∈ bs, d.free = false → d.addr + 8 ≠ p →
        d ∈ bs3 ∧ ∀ x, d.addr ≤ x → x < d.stop → s2.mem x = s.mem x) ∧
      (q ≠ 0 → ∃ nb ∈ bs3, nb.addr + 8 = q ∧ nb.free = false ∧
        ∀ d ∈ bs, d.free = false → d.addr + 8 ≠ p → d.addr ≠ nb.addr) := by
  by_cases hp0 : p = 0
  · subst hp0
    rw [myrealloc_null] at h
    obtain ⟨bs3, l3, inv3, hk, hf, hnew⟩ := mymalloc_frame inv M fuel n s2 q h
    refine ⟨bs3, l3, inv3, fun d hd hdf _ => ⟨hk d hd hdf, hf d hd hdf⟩, fun hq => ?_⟩
    obtain ⟨nb, h1, h2, h3, _, h5⟩ := hnew hq
    exact ⟨nb, h1, h2, h3, fun d hd hdf _ => h5 d hd hdf⟩
  obtain ⟨bs1, b, bs2, rfl, rfl, hb⟩ := inv.allocated_ptr (hp.resolve_left hp0)
  have hbm := mem_mid bs1 bs2 b
  have hbb := (inv.geom.mem_bounds hbm).2.1
  rw [Block.stop_eq] at hbb
  by_cases hn0 : n = 0
  · subst hn0
    rw [myrealloc_zero _ _ _ _ hp0] at h
    obtain ⟨hs2, hq⟩ := Prod.mk.inj (Outcome.ret.inj h)
    rw [← hs2, ← hq]
    obtain ⟨bs3, l3, sz, inv3, _, _, hkeep, hfoot⟩ := myfree_frame inv hbm hb
    refine ⟨bs3, _, inv3, ?_, fun hq0 => absurd rfl hq0⟩
    intro d hd hdf hne
    have hdb : d ≠ b := by
      intro e; rw [e] at hne; exact hne rfl
    refine ⟨hkeep d hd hdf hdb, fun x h1 h2 => ?_⟩
    obtain ⟨f1, f2⟩ := inv.block_frame hd hdf h1 h2
    have h3 := f1 b hbm (by omega)
    rw [Block.stop_eq] at h3
    exact hfoot x (by omega) f2
  obtain ⟨fs, rest, rfl, hfs, hrest⟩ := free_run_split bs2
  obtain ⟨s1, l1, hrun, inv1, _, _, hfoot1⟩ := coalesce_loop_spec fs inv hb hfs hrest
  have hsub : b.addr + 8 - 8 = b.addr := by omega
  by_cases hfu : fs.length < fuel
  swap
  · rw [myrealloc_timeout _ _ _ _ _ hp0 hn0 (by rw [hsub]; exact (hrun fuel).2 (by omega))] at h
    cases h
  have hloop0 : coalesce_loop fuel s b.addr = Outcome.ret s1 := (hrun fuel).1 hfu
  have hloop : coalesce_loop fuel s (b.addr + 8 - 8) = Outcome.ret s1 := by
    rw [hsub]; exact hloop0
  have hBm := mem_mid bs1 rest
    (Block.mk b.addr (b.size + (fs.map (fun f => 8 + f.size)).sum) false)
  have hP : get_payload_size s1.mem (b.addr + 8 - 8)
      = b.size + (fs.map (fun f => 8 + f.size)).sum := by
    rw [hsub]
    exact (inv1.node_size hBm).1
  -- what the coalescing loop keeps
  have hkeep1 : ∀ d ∈ bs1 ++ b :: (fs ++ rest), d.free = false → d.addr + 8 ≠ b.addr + 8 →
      d ∈ bs1 ++ rest ∧ ∀ x, d.addr ≤ x → x < d.stop → s1.mem x = s.mem x := by
    intro d hd hdf hne
    refine ⟨?_, fun x h1 h2 => ?_⟩
    · rcases List.mem_append.1 hd with h1 | h1
      · exact List.mem_append_left _ h1
      · rcases List.mem_cons.1 h1 with h1 | h1
        · rw [h1] at hne; exact absurd rfl hne
        · rcases List.mem_append.1 h1 with h1 | h1
          · have := hfs d h1
            rw [hdf] at this
            cases this
          · exact List.mem_append_right _ h1
    · obtain ⟨f1, f2⟩ := inv.block_frame hd hdf h1 h2
      have h3 := f1 b hbm (by omega)
      rw [Block.stop_eq] at h3
      exact hfoot1 x (by omega) f2
  -- it is enough to describe the step from `s1` to `s2`
  suffices key : ∃ bs3 l3, Inv s2 bs3 l3 ∧
      (∀ d ∈ bs1 ++ rest, d.free = false → d.addr ≠ b.addr →
        d ∈ bs3 ∧ ∀ x, d.addr ≤ x → x < d.stop → s2.mem x = s1.mem x) ∧
      (q ≠ 0 → ∃ nb ∈ bs3, nb.addr + 8 = q ∧ nb.free = false ∧
        ∀ d ∈ bs1 ++ rest, d.free = false → d.addr ≠ b.addr → d.addr ≠ nb.addr) by
    obtain ⟨bs3, l3, inv3, hk, hnew⟩ := key
    refine ⟨bs3, l3, inv3, ?_, fun hq => ?_⟩
    · intro d hd hdf hne
      obtain ⟨h1, h2⟩ := hkeep1 d hd hdf hne
      obtain ⟨h3, h4⟩ := hk d h1 hdf (by omega)
      exact ⟨h3, fun x hx1 hx2 => (h4 x hx1 hx2).trans (h2 x hx1 hx2)⟩
    · obtain ⟨nb, n1, n2, n3, n4⟩ := hnew hq
      exact ⟨nb, n1, n2, n3, fun d hd hdf hne =>
        n4 d (hkeep1 d hd hdf hne).1 hdf (by omega)⟩
  have hin : ∀ d ∈ bs1 ++ rest,
      d ∈ bs1 ++ (Block.mk b.addr (b.size + (fs.map (fun f => 8 + f.size)).sum) false) :: rest := by
    intro d hd
    rcases List.mem_append.1 hd with h1 | h1
    · exact List.mem_append_left _ h1
    · exact List.mem_append_right _ (List.mem_cons_of_mem _ h1)
  obtain ⟨hr8, hr16⟩ := rounded_request_props n
  rcases Nat.lt_trichotomy (rounded_request n) (b.size + (fs.map (fun f => 8 + f.size)).sum)
    with hlt | heq | hgt
  · -- shrink in place
    obtain ⟨sF, hrunF, hinvF, hfootF⟩ := myrealloc_shrink_spec inv1 rfl M fuel n hn0 hloop0 hlt
    dsimp only at hrunF hinvF hfootF
    rw [hrunF] at h
    obtain ⟨hs2, hq⟩ := Prod.mk.inj (Outcome.ret.inj h)
    subst hs2
    have hframe : ∀ d ∈ bs1 ++ rest, d.free = false → d.addr ≠ b.addr →
        ∀ x, d.addr ≤ x → x < d.stop → sF.mem x = s1.mem x := by
      intro d hd hdf hne x h1 h2
      obtain ⟨f1, f2⟩ := inv1.block_frame (hin d hd) hdf h1 h2
      rcases f1 _ hBm (fun e => hne e.symm) with h3 | h3
      · have h4 : x < b.addr := h3
        exact hfootF x (Or.inl h4) (Or.inl (by omega)) f2
      · have h4 : b.addr + 8 + (b.size + (fs.map (fun f => 8 + f.size)).sum) ≤ x := h3
        exact hfootF x (Or.inr (by omega)) (Or.inr h3) f2
    by_cases hsp : rounded_request n + 24 ≤ b.size + (fs.map (fun f => 8 + f.size)).sum
    · rw [if_pos hsp] at hinvF
      refine ⟨_, _, hinvF, ?_, fun _ => ⟨Block.mk b.addr (rounded_request n) false,
        mem_mid _ _ _, hq, rfl, fun d _ _ hne => hne⟩⟩
      intro d hd hdf hne
      refine ⟨?_, hframe d hd hdf hne⟩
      rcases List.mem_append.1 hd with h1 | h1
      · exact List.mem_append_left _ h1
      · exact List.mem_append_right _ (List.mem_cons_of_mem _ (List.mem_cons_of_mem _ h1))
    · rw [if_neg hsp] at hinvF
      exact ⟨_, _, hinvF, fun d hd hdf hne => ⟨hin d hd, hframe d hd hdf hne⟩,
        fun _ => ⟨_, hBm, hq, rfl, fun d _ _ hne => hne⟩⟩
  · -- the same size
    rw [myrealloc_same _ _ _ _ _ hp0 hn0 s1 hloop (by rw [hP]; exact heq)] at h
    obtain ⟨hs2, hq⟩ := Prod.mk.inj (Outcome.ret.inj h)
    subst hs2
    exact ⟨_, _, inv1, fun d hd _ _ => ⟨hin d hd, fun x _ _ => rfl⟩,
      fun _ => ⟨_, hBm, hq, rfl, fun d _ _ hne => hne⟩⟩
  · -- relocation
    have hgt2 : get_payload_size s1.mem (b.addr + 8 - 8) < rounded_request n := by
      rw [hP]; exact hgt
    cases hm : mymalloc M fuel s1 n with
    | timeout =>
      rw [myrealloc_grow_timeout _ _ _ _ _ hp0 hn0 s1 hloop hgt2 hm] at h
      cases h
    | fault => exact absurd hm (mymalloc_no_fault _ _ _ _)
    | ret res =>
      obtain ⟨s3, q3⟩ := res
      by_cases hq3 : q3 = 0
      · subst hq3
        rw [myrealloc_grow_fault _ _ _ _ _ hp0 hn0 s1 hloop hgt2 s3 hm] at h
        cases h
      rw [myrealloc_grow _ _ _ _ _ hp0 hn0 s1 hloop hgt2 s3 q3 hm hq3, hP] at h
      obtain ⟨bs4, l4, nb, sz, inv4, _, hnb4, hnbq, hnbf, _, hnbne, hkeep4, _, hframe4⟩ :=
        realloc_relocate_spec inv1 hBm rfl M fuel n hn hgt s3 q3 hm hq3
          (if b.size + (fs.map (fun f => 8 + f.size)).sum < n
            then b.size + (fs.map (fun f => 8 + f.size)).sum else n) rfl
      dsimp only at inv4 hkeep4 hframe4
      generalize myfree { s3 with mem := memcpy s3.mem q3 (b.addr + 8) (if b.size + (fs.map (fun f => 8 + f.size)).sum < n then b.size + (fs.map (fun f => 8 + f.size)).sum else n) } (b.addr + 8) = sF at inv4 hframe4 h
      obtain ⟨hs2, hq⟩ := Prod.mk.inj (Outcome.ret.inj h)
      subst hs2
      have hdX : ∀ d : Block, d.addr ≠ b.addr →
          d ≠ Block.mk b.addr (b.size + (fs.map (fun f => 8 + f.size)).sum) false := by
        intro d hne e
        rw [e] at hne
        exact hne rfl
      refine ⟨_, _, inv4, ?_, fun _ => ⟨nb, hnb4, by rw [← hq]; exact hnbq, hnbf, ?_⟩⟩
      · intro d hd hdf hne
        exact ⟨hkeep4 d (hin d hd) hdf (hdX d hne), hframe4 d (hin d hd) hdf (hdX d hne)⟩
      · intro d hd hdf _
        exact hnbne d (hin d hd) hdf

theorem undisturbed_of {s s2 : State} {bs bs3 : List Block} {l l3 : List Nat}
    (inv : Inv s bs l) (inv3 : Inv s2 bs3 l3) {d : Block} (hd : d ∈ bs) (hdf : d.free = false)
    (hd3 : d ∈ bs3) (hframe : ∀ x, d.addr ≤ x → x < d.stop → s2.mem x = s.mem x) (p : Nat)
    (hnew : p ≠ 0 → ∃ nb ∈ bs3, nb.addr + 8 = p ∧ nb.free = false ∧ d.addr ≠ nb.addr) :
    Undisturbed s s2 d.addr p := by
  have hg := inv.geom.good d hd
  have hdb := inv.geom.mem_bounds hd
  refine ⟨?_, inv3.is_allocated_ptr_of hd3 hdf, fun hp => ?_⟩
  · rw [hg.next_eq (by omega)]
    exact hframe
  · obtain ⟨nb, hnb, hq, _, hne⟩ := hnew hp
    have hgn := inv3.geom.good nb hnb
    have hph : payload_to_header p = nb.addr := by
      rw [← hq]; unfold payload_to_header HEADER_SIZE; omega
    rw [hph, hgn.payload_eq, hg.next_eq (by omega), ← hq]
    unfold header_to_payload HEADER_SIZE
    rcases contig_pair inv3.geom.contig hnb hd3 with h | h | h
    · exact absurd (congrArg Block.addr h).symm hne
    · left
      rw [Block.stop_eq] at h
      omega
    · right
      omega

/-- Claim C20 (live allocations are never disturbed). In every reachable state
and for every currently allocated block with header `B`: a returning call to
`mymalloc(n)`, a call to `myfree(q)` and a returning call to `myrealloc(q, n)`,
with `q` either `NULL` or the payload pointer of another allocated block, leave
the header and every payload byte of `B` unchanged; `B` is still allocated, and
a non-null pointer returned by the call designates a payload region disjoint
from the payload of `B`. -/
theorem live_allocations_frame (M : Nat) (s : State) (h : Reachable M s) (B : Nat)
    (hB : is_allocated_ptr s (header_to_payload B) = true) :
    (∀ fuel n s2 p, mymalloc M fuel s n = Outcome.ret (s2, p) → Undisturbed s s2 B p) ∧
    (∀ q, (q = 0 ∨ is_allocated_ptr s q = true) → q ≠ header_to_payload B →
      Undisturbed s (myfree s q) B 0) ∧
    (∀ fuel q n s2 p, (q = 0 ∨ is_allocated_ptr s q = true) → q ≠ header_to_payload B →
      n < SIZE_MOD → myrealloc M fuel s q n = Outcome.ret (s2, p) → Undisturbed s s2 B p) := by
  obtain ⟨bs, l, inv⟩ := reachable_inv M s h
  obtain ⟨bs1, d, bs2, e, hBd, hdf⟩ := inv.allocated_ptr hB
  have hBe : B = d.addr := by unfold header_to_payload HEADER_SIZE at hBd; omega
  subst hBe
  have hd : d ∈ bs := by rw [e]; exact mem_mid bs1 bs2 d
  have hpe : header_to_payload d.addr = d.addr + 8 := rfl
  refine ⟨?_, ?_, ?_⟩
  · intro fuel n s2 p hm
    obtain ⟨bs3, l3, inv3, hk, hf, hnew⟩ := mymalloc_frame inv M fuel n s2 p hm
    refine undisturbed_of inv inv3 hd hdf (hk d hd hdf) (hf d hd hdf) p (fun hp => ?_)
    obtain ⟨nb, h1, h2, h3, _, h5⟩ := hnew hp
    exact ⟨nb, h1, h2, h3, h5 d hd hdf⟩
  · intro q hq hne
    by_cases hq0 : q = 0
    · subst hq0
      have : myfree s 0 = s := by unfold myfree; rw [if_pos rfl]
      rw [this]
      exact undisturbed_of inv inv hd hdf hd (fun x _ _ => rfl) 0 (fun h0 => absurd rfl h0)
    obtain ⟨bsa, b, bsb, eb, rfl, hb⟩ := inv.allocated_ptr (hq.resolve_left hq0)
    have hbm : b ∈ bs := by rw [eb]; exact mem_mid bsa bsb b
    obtain ⟨bs3, l3, sz, inv3, _, _, hkeep, hfoot⟩ := myfree_frame inv hbm hb
    have hdb : d ≠ b := by
      intro e2; rw [e2] at hne; exact hne rfl
    refine undisturbed_of inv inv3 hd hdf (hkeep d hd hdf hdb) ?_ 0 (fun h0 => absurd rfl h0)
    intro x h1 h2
    obtain ⟨f1, f2⟩ := inv.block_frame hd hdf h1 h2
    have h3 := f1 b hbm (fun e2 => hne (by rw [hpe, e2]))
    have hbb := (inv.geom.mem_bounds hbm).2.1
    rw [Block.stop_eq] at h3 hbb
    exact hfoot x (by omega) f2
  · intro fuel q n s2 p hq hne hn hr
    obtain ⟨bs3, l3, inv3, hk, hnew⟩ := myrealloc_frame inv M fuel q n s2 p hq hn hr
    have hne2 : d.addr + 8 ≠ q := fun e2 => hne (by rw [hpe, e2])
    obtain ⟨h1, h2⟩ := hk d hd hdf hne2
    refine undisturbed_of inv inv3 hd hdf h1 h2 p (fun hp => ?_)
    obtain ⟨nb, n1, n2, n3, n4⟩ := hnew hp
    exact ⟨nb, n1, n2, n3, n4 d hd hdf hne2⟩

/-- Witness for C20: the first of four allocated blocks, under `mymalloc(16)`,
`myfree` of the second block and `myrealloc` of the second block to 100 bytes
(it moves to 4224). -/
theorem live_allocations_frame_witness :
    Reachable ex_max ex_four ∧ is_allocated_ptr ex_four (header_to_payload 4096) = true ∧
    mymalloc ex_max 16 ex_four 16 = Outcome.ret (after_malloc ex_four 16, 4224) ∧
    Undisturbed ex_four (after_malloc ex_four 16) 4096 4224 ∧
    Undisturbed ex_four (myfree ex_four 4128) 4096 0 ∧
    myrealloc ex_max 16 ex_four 4128 100 = Outcome.ret (after_realloc ex_four 4128 100, 4224) ∧
    Undisturbed ex_four (after_realloc ex_four 4128 100) 4096 4224 :=
  have h := live_allocations_frame ex_max ex_four ex_four_reachable 4096 (by decide)
  ⟨ex_four_reachable, by decide, by rfl, h.1 16 16 _ 4224 (by rfl),
    h.2.1 4128 (Or.inr (by decide)) (by decide), by rfl,
    h.2.2 16 4128 100 _ 4224 (Or.inr (by decide)) (by decide) (by decide) (by rfl)⟩

/-- The shrinking branch of `myrealloc`: the state it returns does not depend
on the fuel. -/
theorem myrealloc_shrink_total {s s1 : State} {bs1 rest : List Block} {X : Block}
    {l1 : List Nat} (inv1 : Inv s1 (bs1 ++ X :: rest) l1) (hX : X.free = false) (M n : Nat)
    (hn : n ≠ 0) (hlt : rounded_request n < X.size) :
    ∃ sF, (∀ fuel, coalesce_loop fuel s X.addr = Outcome.ret s1 →
        myrealloc M fuel s (X.addr + 8) n = Outcome.ret (sF, X.addr + 8)) ∧
      (if rounded_request n + 24 ≤ X.size then
          Inv sF (bs1 ++ (Block.mk X.addr (rounded_request n) false) ::
            (Block.mk (X.addr + 8 + rounded_request n) (X.size - rounded_request n - 8) true)
              :: rest)
            ((X.addr + 8 + rounded_request n) :: l1)
        else Inv sF (bs1 ++ X :: rest) l1) ∧
      (∀ x, (x < X.addr ∨ X.addr + 8 ≤ x) → (x < X.addr + 8 + rounded_request n ∨ X.stop ≤ x) →
        (∀ a ∈ l1, x < a + 8 ∨ a + 24 ≤ x) → sF.mem x = s1.mem x) := by
  obtain ⟨hr8, hr16⟩ := rounded_request_props n
  have hsub : X.addr + 8 - 8 = X.addr := by omega
  have hPs : get_payload_size s1.mem X.addr = X.size :=
    (inv1.node_size (mem_mid bs1 rest X)).1
  obtain ⟨hinv, hfoot⟩ := realloc_shrink_inv inv1 hX (rounded_request n) hr8 hr16 hlt _ rfl
  refine ⟨_, ?_, hinv, hfoot⟩
  intro fuel hloop
  rw [myrealloc_shrink M fuel s (X.addr + 8) n (by omega) hn s1 (by rw [hsub]; exact hloop)
    (by rw [hsub, hPs]; exact hlt) _ rfl, hsub]

/-- Counterexample to C15 as stated. After `mymalloc(40)` on the fresh segment
the block at 4096 has payload 40 (bytes 4104 to 4143) and is followed by the
free remainder. `myrealloc(4104, 16)` coalesces to payload 1016, the rounded
new size 16 is below it, the call returns 4104 itself with an allocated block
of payload `16 ≥ new_size`, but the byte at offset 16 of the original payload
has changed: the header of the split-off free block is written there. -/
theorem resize_in_place_counterexample :
    Reachable ex_max ex_m40 ∧ is_allocated_ptr ex_m40 4104 = true ∧ 0 < 16 ∧ 16 ≤ ex_max ∧
    coalesce_loop 16 ex_m40 (payload_to_header 4104) = Outcome.ret ex_m40_coalesced ∧
    max 16 ((16 + 7) / 8 * 8) ≤ get_payload_size ex_m40_coalesced.mem (payload_to_header 4104) ∧
    myrealloc ex_max 16 ex_m40 4104 16 = Outcome.ret (ex_shrunk, 4104) ∧
    is_allocated_ptr ex_shrunk 4104 = true ∧
    16 ≤ get_payload_size ex_shrunk.mem (payload_to_header 4104) ∧
    16 < get_payload_size ex_m40.mem (payload_to_header 4104) ∧
    ex_shrunk.mem (4104 + 16) ≠ ex_m40.mem (4104 + 16) :=
  ⟨ex_m40_reachable, by decide, by decide, by decide, by rfl, by decide, by rfl, by decide,
    by decide, by decide, by decide⟩

theorem map_addr_payload {m : Mem} {fs : List Block} (hg : ∀ f ∈ fs, GoodBlock m f) :
    ((fs.map Block.addr).map (fun a => 8 + get_payload_size m a)).sum
      = (fs.map (fun f => 8 + f.size)).sum := by
  rw [List.map_map]
  congr 1
  apply List.map_congr_left
  intro f hf
  show 8 + get_payload_size m f.addr = 8 + f.size
  rw [(hg f hf).payload_eq]

/-- Claim C15 (resize grows in place), amended. For every allocated payload
pointer `p` of a reachable state, with header `x`, and every `new_size` with
`0 < new_size ≤ MAX_REQUEST_SIZE`: let `fs` be the maximal run of consecutive
free blocks that the physical walk visits right after `x`. The coalescing loop
of `myrealloc` returns with enough fuel; after it the walk has lost exactly the
blocks of `fs`, the free list has lost exactly the blocks of `fs`, and `x` is
allocated with payload `size(x)` plus `8 + payload` of each block of `fs`. If
`r = max(16, new_size rounded up to 8)` is `≤` that payload, `myrealloc` returns
`p` itself, the block is allocated with payload `≥ new_size`, and the bytes of
the original payload of `x` below offset `r` are unchanged. -/
theorem resize_in_place (M : Nat) (hM : M + 7 < SIZE_MOD) (s : State) (h : Reachable M s)
    (p : Nat) (hp : is_allocated_ptr s p = true) (n : Nat) (hn0 : 0 < n) (hnM : n ≤ M) :
    ∃ (s1 : State) (hs1 fs rest l l1 : List Nat),
      (∀ fuel, (hs1 ++ payload_to_header p :: (fs ++ rest)).length < fuel →
        heap_walk fuel s.mem s.segment_start (s.segment_start + s.segment_size)
          = some (hs1 ++ payload_to_header p :: (fs ++ rest),
              s.segment_start + s.segment_size)) ∧
      (∀ f ∈ fs, is_free s.mem f = true) ∧
      (∀ c rest2, rest = c :: rest2 → is_free s.mem c = false) ∧
      (∀ fuel, l.length < fuel → free_list fuel s.mem s.first_free_ptr = some l) ∧
      (∀ fuel, fs.length < fuel →
        coalesce_loop fuel s (payload_to_header p) = Outcome.ret s1) ∧
      (∀ fuel, (hs1 ++ payload_to_header p :: rest).length < fuel →
        heap_walk fuel s1.mem s1.segment_start (s1.segment_start + s1.segment_size)
          = some (hs1 ++ payload_to_header p :: rest, s1.segment_start + s1.segment_size)) ∧
      is_free s1.mem (payload_to_header p) = false ∧
      get_payload_size s1.mem (payload_to_header p)
        = get_payload_size s.mem (payload_to_header p)
          + (fs.map (fun f => 8 + get_payload_size s.mem f)).sum ∧
      (∀ fuel, l1.length < fuel → free_list fuel s1.mem s1.first_free_ptr = some l1) ∧
      (∀ a, a ∈ l1 ↔ a ∈ l ∧ a ∉ fs) ∧
      (max 16 ((n + 7) / 8 * 8) ≤ get_payload_size s1.mem (payload_to_header p) →
        ∃ s2 : State,
          (∀ fuel, fs.length < fuel → myrealloc M fuel s p n = Outcome.ret (s2, p)) ∧
          is_allocated_ptr s2 p = true ∧
          n ≤ get_payload_size s2.mem (payload_to_header p) ∧
          ∀ i, i < get_payload_size s.mem (payload_to_header p) →
            i < max 16 ((n + 7) / 8 * 8) → s2.mem (p + i) = s.mem (p + i)) := by
  obtain ⟨bs, l, inv⟩ := reachable_inv M s h
  obtain ⟨bs1, b, bs2, rfl, rfl, hb⟩ := inv.allocated_ptr hp
  obtain ⟨fs, rest, rfl, hfs, hrest⟩ := free_run_split bs2
  obtain ⟨s1, l1, hrun, inv1, _, hmem, hfoot1⟩ := coalesce_loop_spec fs inv hb hfs hrest
  have hph : payload_to_header (b.addr + 8) = b.addr := by
    unfold payload_to_header HEADER_SIZE; omega
  have hsub8 : b.addr + 8 - 8 = b.addr := by omega
  have hr := rounded_request_math n (by omega)
  have hge := rounded_request_ge n (by omega)
  obtain ⟨hr8, hr16⟩ := rounded_request_props n
  rw [hph, ← hr]
  have hBm := mem_mid bs1 rest
    (Block.mk b.addr (b.size + (fs.map (fun f => 8 + f.size)).sum) false)
  have hgB := inv1.geom.good _ hBm
  have hP : get_payload_size s1.mem b.addr = b.size + (fs.map (fun f => 8 + f.size)).sum :=
    hgB.payload_eq
  have hbm := mem_mid bs1 (fs ++ rest) b
  have hsz : get_payload_size s.mem b.addr = b.size := (inv.node_size hbm).1
  have hfsm : ∀ f ∈ fs, f ∈ bs1 ++ b :: (fs ++ rest) := fun f hf =>
    List.mem_append_right _ (List.mem_cons_of_mem _ (List.mem_append_left _ hf))
  obtain ⟨o1, o2, _, _⟩ := inv.observe
  obtain ⟨p1, p2, _, _⟩ := inv1.observe
  have hmap : (bs1 ++ b :: (fs ++ rest)).map Block.addr
      = bs1.map Block.addr ++ b.addr :: (fs.map Block.addr ++ rest.map Block.addr) := by
    rw [List.map_append, List.map_cons, List.map_append]
  have hmap1 : (bs1 ++ (Block.mk b.addr (b.size + (fs.map (fun f => 8 + f.size)).sum) false)
      :: rest).map Block.addr = bs1.map Block.addr ++ b.addr :: rest.map Block.addr := by
    rw [List.map_append, List.map_cons]
  have hloop : ∀ fuel, fs.length < fuel → coalesce_loop fuel s b.addr = Outcome.ret s1 :=
    fun fuel hf => (hrun fuel).1 hf
  have hbytes1 : ∀ i, i < b.size → s1.mem (b.addr + 8 + i) = s.mem (b.addr + 8 + i) := by
    intro i hi
    have hlinks := inv.payload_outside_links hb (x := b.addr + 8 + i) (by omega)
      (by rw [Block.stop_eq]; omega)
    exact hfoot1 (b.addr + 8 + i) (by omega) hlinks
  refine ⟨s1, bs1.map Block.addr, fs.map Block.addr, rest.map Block.addr, l, l1, ?_, ?_, ?_,
    o2, ?_, ?_, hgB.is_free_eq, ?_, p2, hmem, ?_⟩
  · rw [← hmap]; exact o1
  · intro a ha
    obtain ⟨f, hf, rfl⟩ := List.mem_map.1 ha
    rw [(inv.geom.good f (hfsm f hf)).is_free_eq]
    exact hfs f hf
  · intro c rest2 hc
    cases rest with
    | nil => cases hc
    | cons cb restb =>
      have hcm : cb ∈ bs1 ++ b :: (fs ++ cb :: restb) :=
        List.mem_append_right _ (List.mem_cons_of_mem _ (mem_mid fs restb cb))
      have hca : c = cb.addr := by
        rw [List.map_cons] at hc
        exact (List.cons.inj hc).1.symm
      rw [hca, (inv.geom.good cb hcm).is_free_eq]
      exact hrest cb restb rfl
  · rw [List.length_map]
    exact hloop
  · rw [← hmap1]; exact p1
  · rw [hP, hsz, map_addr_payload (fun f hf => inv.geom.good f (hfsm f hf))]
  rw [hP, hsz, List.length_map]
  intro hfit
  rcases Nat.lt_or_ge (rounded_request n) (b.size + (fs.map (fun f => 8 + f.size)).sum)
    with hlt | hgeP
  · -- the block shrinks
    obtain ⟨sF, hrunF, hinvF, hfootF⟩ :=
      myrealloc_shrink_total (s := s) inv1 rfl M n (by omega) hlt
    dsimp only at hrunF hinvF hfootF
    have hbytes : ∀ i, i < b.size → i < rounded_request n →
        sF.mem (b.addr + 8 + i) = s.mem (b.addr + 8 + i) := by
      intro i hi1 hi2
      have hlinks : ∀ a ∈ l1, b.addr + 8 + i < a + 8 ∨ a + 24 ≤ b.addr + 8 + i :=
        inv1.payload_outside_links (b := Block.mk b.addr
          (b.size + (fs.map (fun f => 8 + f.size)).sum) false) rfl (by dsimp only; omega)
          (by rw [Block.stop_eq]; dsimp only; omega)
      rw [hfootF (b.addr + 8 + i) (Or.inr (by omega)) (Or.inl (by omega)) hlinks]
      exact hbytes1 i hi1
    by_cases hsp : rounded_request n + 24 ≤ b.size + (fs.map (fun f => 8 + f.size)).sum
    · rw [if_pos hsp] at hinvF
      have hA := hinvF.geom.good _ (mem_mid bs1 _ (Block.mk b.addr (rounded_request n) false))
      refine ⟨sF, fun fuel hf => hrunF fuel (hloop fuel hf),
        hinvF.is_allocated_ptr_of (b := Block.mk b.addr (rounded_request n) false)
          (mem_mid bs1 _ _) rfl, ?_, hbytes⟩
      rw [hA.payload_eq]
      exact hge
    · rw [if_neg hsp] at hinvF
      have hA := hinvF.geom.good _ hBm
      refine ⟨sF, fun fuel hf => hrunF fuel (hloop fuel hf),
        hinvF.is_allocated_ptr_of (b := Block.mk b.addr
          (b.size + (fs.map (fun f => 8 + f.size)).sum) false) hBm rfl, ?_, hbytes⟩
      rw [hA.payload_eq]
      dsimp only
      omega
  · -- the same size
    have heq : rounded_request n = b.size + (fs.map (fun f => 8 + f.size)).sum := by omega
    refine ⟨s1, fun fuel hf => ?_, inv1.is_allocated_ptr_of (b := Block.mk b.addr
      (b.size + (fs.map (fun f => 8 + f.size)).sum) false) hBm rfl, by rw [hP]; omega, ?_⟩
    · exact myrealloc_same M fuel s (b.addr + 8) n (by omega) (by omega) s1
        (by rw [hsub8]; exact hloop fuel hf) (by rw [hsub8, hP]; exact heq)
    · intro i hi _
      exact hbytes1 i hi

/-- Witness for C15 (amended): in the state with two holes the first block, of
payload 16, is followed by free blocks of payload 16 and 40;
`myrealloc(4104, 72)` grows it in place to payload `16 + 24 + 48 = 88`. -/
theorem resize_in_place_witness :
    ex_max + 7 < SIZE_MOD ∧ Reachable ex_max ex_holes ∧ is_allocated_ptr ex_holes 4104 = true ∧
    0 < 72 ∧ 72 ≤ ex_max ∧
    myrealloc ex_max 16 ex_holes 4104 72 = Outcome.ret (ex_grown, 4104) ∧
    get_payload_size ex_grown.mem (payload_to_header 4104) = 88 ∧
    ∃ (s1 : State) (hs1 fs rest l l1 : List Nat),
      (∀ fuel, (hs1 ++ payload_to_header 4104 :: (fs ++ rest)).length < fuel →
        heap_walk fuel ex_holes.mem ex_holes.segment_start
            (ex_holes.segment_start + ex_holes.segment_size)
          = some (hs1 ++ payload_to_header 4104 :: (fs ++ rest),
              ex_holes.segment_start + ex_holes.segment_size)) ∧
      (∀ f ∈ fs, is_free ex_holes.mem f = true) ∧
      (∀ c rest2, rest = c :: rest2 → is_free ex_holes.mem c = false) ∧
      (∀ fuel, l.length < fuel → free_list fuel ex_holes.mem ex_holes.first_free_ptr = some l) ∧
      (∀ fuel, fs.length < fuel →
        coalesce_loop fuel ex_holes (payload_to_header 4104) = Outcome.ret s1) ∧
      (∀ fuel, (hs1 ++ payload_to_header 4104 :: rest).length < fuel →
        heap_walk fuel s1.mem s1.segment_start (s1.segment_start + s1.segment_size)
          = some (hs1 ++ payload_to_header 4104 :: rest,
              s1.segment_start + s1.segment_size)) ∧
      is_free s1.mem (payload_to_header 4104) = false ∧
      get_payload_size s1.mem (payload_to_header 4104)
        = get_payload_size ex_holes.mem (payload_to_header 4104)
          + (fs.map (fun f => 8 + get_payload_size ex_holes.mem f)).sum ∧
      (∀ fuel, l1.length < fuel → free_list fuel s1.mem s1.first_free_ptr = some l1) ∧
      (∀ a, a ∈ l1 ↔ a ∈ l ∧ a ∉ fs) ∧
      (max 16 ((72 + 7) / 8 * 8) ≤ get_payload_size s1.mem (payload_to_header 4104) →
        ∃ s2 : State,
          (∀ fuel, fs.length < fuel →
            myrealloc ex_max fuel ex_holes 4104 72 = Outcome.ret (s2, 4104)) ∧
          is_allocated_ptr s2 4104 = true ∧
          72 ≤ get_payload_size s2.mem (payload_to_header 4104) ∧
          ∀ i, i < get_payload_size ex_holes.mem (payload_to_header 4104) →
            i < max 16 ((72 + 7) / 8 * 8) → s2.mem (4104 + i) = ex_holes.mem (4104 + i)) :=
  ⟨by decide, ex_holes_reachable, by decide, by decide, by decide, by rfl, by decide,
    resize_in_place ex_max (by decide) ex_holes ex_holes_reachable 4104 (by decide) 72
      (by decide) (by decide)⟩

/-- Witness for C16: in the state with two holes the first block, of payload
16, is followed by the free blocks at 4120 and 4144. `myfree(4104)` merges the
first of them only: the block has payload `16 + 8 + 16`, and the block at 4144
is still a free block of the walk and of the free list. -/
theorem one_merge_step_witness :
    Reachable ex_max ex_holes ∧ is_allocated_ptr ex_holes (header_to_payload 4096) = true ∧
    get_payload_size ex_holes.mem 4096 = 16 ∧ next_header ex_holes.mem 4096 = 4120 ∧
    is_free ex_holes.mem 4120 = true ∧ get_payload_size ex_holes.mem 4120 = 16 ∧
    next_header ex_holes.mem 4120 = 4144 ∧ is_free ex_holes.mem 4144 = true ∧
    get_payload_size ex_released.mem 4096 = 16 + 8 + 16 ∧
    is_free ex_released.mem 4144 = true ∧ get_payload_size ex_released.mem 4144 = 40 ∧
    free_list 16 ex_released.mem ex_released.first_free_ptr = some [4096, 4144, 4216] ∧
    heap_walk 16 ex_released.mem ex_released.segment_start
        (ex_released.segment_start + ex_released.segment_size)
      = some ([4096, 4144, 4192, 4216], 5120) ∧
    is_free (myfree ex_holes (header_to_payload 4096)).mem 4096 = true :=
  ⟨ex_holes_reachable, by decide, by decide, by decide, by decide, by decide, by decide,
    by decide, by decide, by decide, by decide, by decide, by decide,
    match one_merge_step ex_max ex_holes ex_holes_reachable 4096 (by decide) with
    | ⟨_, _, _, _, hfree, _⟩ => hfree⟩

/-! ## The heap validator -/

theorem walk_at_succ (m : Mem) (c k : Nat) :
    walk_at m c (k + 1) = walk_at m (next_header m c) k := by
  induction k with
  | zero => rfl
  | succ k ih =>
    show next_header m (walk_at m c (k + 1)) = next_header m (walk_at m (next_header m c) k)
    rw [ih]

theorem walk_sound_step {m : Mem} {c e k : Nat} (h1 : c < e) (h2 : 8 ≤ get_payload_size m c)
    (h3 : get_payload_size m c % 8 = 0) (h : walk_sound m (next_header m c) e k) :
    walk_sound m c e (k + 1) := by
  intro j hj
  cases j with
  | zero => exact ⟨h1, h2, h3⟩
  | succ j =>
    rw [walk_at_succ]
    exact h j (by omega)

theorem walk_sound_tail {m : Mem} {c e k : Nat} (h : walk_sound m c e (k + 1)) :
    walk_sound m (next_header m c) e k := by
  intro j hj
  rw [← walk_at_succ]
  exact h (j + 1) (by omega)

/-- One iteration of the loop of `validate_heap` on a sound block. -/
theorem validate_heap_loop_step (fuel : Nat) (m : Mem) (e c ta tf : Nat) (hc : c < e)
    (h8 : 8 ≤ get_payload_size m c) (hm : get_payload_size m c % 8 = 0) :
    ∃ ta2 tf2, validate_heap_loop (fuel + 1) m e c ta tf
      = validate_heap_loop fuel m e (next_header m c) ta2 tf2 := by
  conv => enter [1, ta2, 1, tf2, 1]; unfold validate_heap_loop
  rw [if_pos hc]
  dsimp only
  rw [if_neg (by omega), if_neg (by omega)]
  by_cases hfr : is_free m c = true
  · rw [if_pos hfr]; exact ⟨_, _, rfl⟩
  · rw [if_neg hfr]; exact ⟨_, _, rfl⟩

/-- The loop of `validate_heap` when the walk has stopped. -/
theorem validate_heap_loop_stop (fuel : Nat) (m : Mem) (e c ta tf : Nat)
    (h : ¬ (c < e ∧ 8 ≤ get_payload_size m c ∧ get_payload_size m c % 8 = 0)) :
    (c < e ∧ (get_payload_size m c < 8 ∨ get_payload_size m c % 8 ≠ 0) ∧
      validate_heap_loop (fuel + 1) m e c ta tf = Outcome.ret none) ∨
    (e ≤ c ∧ validate_heap_loop (fuel + 1) m e c ta tf = Outcome.ret (some (c, ta, tf))) := by
  unfold validate_heap_loop
  by_cases hc : c < e
  · left
    rw [if_pos hc]
    dsimp only
    by_cases h8 : get_payload_size m c < 8
    · rw [if_pos h8]
      exact ⟨hc, Or.inl h8, rfl⟩
    · rw [if_neg h8]
      have hm : get_payload_size m c % 8 ≠ 0 := fun hm => h ⟨hc, by omega, hm⟩
      rw [if_pos hm]
      exact ⟨hc, Or.inr hm, rfl⟩
  · right
    rw [if_neg hc]
    exact ⟨by omega, rfl⟩

/-- What a returning run of the loop of `validate_heap` has seen. -/
theorem validate_heap_loop_sound (m : Mem) (e : Nat) :
    ∀ fuel c ta tf res, validate_heap_loop fuel m e c ta tf = Outcome.ret res →
    ∃ k, walk_sound m c e k ∧
      ((res = none ∧ walk_at m c k < e ∧ (get_payload_size m (walk_at m c k) < 8 ∨
          get_payload_size m (walk_at m c k) % 8 ≠ 0)) ∨
        (∃ ta2 tf2, res = some (walk_at m c k, ta2, tf2) ∧ e ≤ walk_at m c k)) := by
  intro fuel
  induction fuel with
  | zero => intro c ta tf res h; cases h
  | succ f ih =>
    intro c ta tf res h
    by_cases hgood : c < e ∧ 8 ≤ get_payload_size m c ∧ get_payload_size m c % 8 = 0
    · obtain ⟨ta2, tf2, hstep⟩ := validate_heap_loop_step f m e c ta tf hgood.1 hgood.2.1 hgood.2.2
      rw [hstep] at h
      obtain ⟨k, hs, hres⟩ := ih _ _ _ res h
      refine ⟨k + 1, walk_sound_step hgood.1 hgood.2.1 hgood.2.2 hs, ?_⟩
      rw [walk_at_succ]
      exact hres
    · refine ⟨0, fun j hj => by omega, ?_⟩
      rcases validate_heap_loop_stop f m e c ta tf hgood with ⟨h1, h2, h3⟩ | ⟨h1, h3⟩
      · rw [h3] at h
        exact Or.inl ⟨(Outcome.ret.inj h).symm, h1, h2⟩
      · rw [h3] at h
        exact Or.inr ⟨ta, tf, (Outcome.ret.inj h).symm, h1⟩

/-- The loop of `validate_heap` returns when the walk stops after `k` blocks. -/
theorem validate_heap_loop_complete (m : Mem) (e : Nat) :
    ∀ k c ta tf, walk_sound m c e k →
    ¬ (walk_at m c k < e ∧ 8 ≤ get_payload_size m (walk_at m c k) ∧
      get_payload_size m (walk_at m c k) % 8 = 0) →
    ∀ fuel, k < fuel → ∃ res, validate_heap_loop fuel m e c ta tf = Outcome.ret res := by
  intro k
  induction k with
  | zero =>
    intro c ta tf _ hbad fuel hf
    obtain ⟨f, rfl⟩ : ∃ f, fuel = f + 1 := ⟨fuel - 1, by omega⟩
    rcases validate_heap_loop_stop f m e c ta tf hbad with ⟨_, _, h3⟩ | ⟨_, h3⟩
    · exact ⟨_, h3⟩
    · exact ⟨_, h3⟩
  | succ k ih =>
    intro c ta tf hs hbad fuel hf
    obtain ⟨f, rfl⟩ : ∃ f, fuel = f + 1 := ⟨fuel - 1, by omega⟩
    have h0 := hs 0 (by omega)
    obtain ⟨ta2, tf2, hstep⟩ := validate_heap_loop_step f m e c ta tf h0.1 h0.2.1 h0.2.2
    rw [hstep]
    rw [walk_at_succ] at hbad
    exact ih _ ta2 tf2 (walk_sound_tail hs) hbad f (by omega)

theorem walk_no_wrap_tail {m : Mem} {c e : Nat} (h : walk_no_wrap m c e) (h1 : c < e)
    (h2 : 8 ≤ get_payload_size m c) (h3 : get_payload_size m c % 8 = 0) :
    walk_no_wrap m (next_header m c) e := by
  intro k hs hlt
  have := h (k + 1) (walk_sound_step h1 h2 h3 hs)
  rw [walk_at_succ] at this
  exact this hlt

/-- When no step of the walk wraps around, the loop of `validate_heap` returns
within `heap_end - current + 1` iterations. -/
theorem validate_heap_loop_no_wrap (m : Mem) (e : Nat) :
    ∀ fuel c ta tf, e - c < fuel → walk_no_wrap m c e →
    ∃ res, validate_heap_loop fuel m e c ta tf = Outcome.ret res := by
  intro fuel
  induction fuel with
  | zero => intro c ta tf h; omega
  | succ f ih =>
    intro c ta tf hf hnw
    by_cases hgood : c < e ∧ 8 ≤ get_payload_size m c ∧ get_payload_size m c % 8 = 0
    · obtain ⟨ta2, tf2, hstep⟩ := validate_heap_loop_step f m e c ta tf hgood.1 hgood.2.1 hgood.2.2
      rw [hstep]
      have hn := next_header_eq m c (hnw 0 (fun j hj => by omega) hgood.1)
      exact ih _ ta2 tf2 (by rw [hn]; omega) (walk_no_wrap_tail hnw hgood.1 hgood.2.1 hgood.2.2)
    · rcases validate_heap_loop_stop f m e c ta tf hgood with ⟨_, _, h3⟩ | ⟨_, h3⟩
      · exact ⟨_, h3⟩
      · exact ⟨_, h3⟩

/-- A header whose successor is itself keeps the loop of `validate_heap` running. -/
theorem validate_heap_loop_cycle (m : Mem) (e c : Nat) (hc : c < e)
    (h8 : 8 ≤ get_payload_size m c) (hm : get_payload_size m c % 8 = 0)
    (hn : next_header m c = c) :
    ∀ fuel ta tf, validate_heap_loop fuel m e c ta tf = Outcome.timeout := by
  intro fuel
  induction fuel with
  | zero => intro ta tf; rfl
  | succ f ih =>
    intro ta tf
    obtain ⟨ta2, tf2, hstep⟩ := validate_heap_loop_step f m e c ta tf hc h8 hm
    rw [hstep, hn]
    exact ih ta2 tf2

/-- The place where the walk stops being sound is unique. -/
theorem walk_sound_unique {m : Mem} {c e k1 k2 : Nat} (h1 : walk_sound m c e k1)
    (h2 : walk_sound m c e k2)
    (b1 : ¬ (walk_at m c k1 < e ∧ 8 ≤ get_payload_size m (walk_at m c k1) ∧
      get_payload_size m (walk_at m c k1) % 8 = 0))
    (b2 : ¬ (walk_at m c k2 < e ∧ 8 ≤ get_payload_size m (walk_at m c k2) ∧
      get_payload_size m (walk_at m c k2) % 8 = 0)) : k1 = k2 := by
  rcases Nat.lt_trichotomy k1 k2 with h | h | h
  · exact absurd (h2 k1 h) b1
  · exact h
  · exact absurd (h1 k2 h) b2

/-- Function `validate_heap` returns what its loop returns: true exactly when
the loop has stopped on `heap_end`. -/
theorem validate_heap_of_loop (fuel : Nat) (s : State) (res : Option (Nat × Nat × Nat))
    (h : validate_heap_loop fuel s.mem (add64 s.segment_start s.segment_size)
      s.segment_start 0 0 = Outcome.ret res) :
    ∃ b d, validate_heap fuel s = Outcome.ret (s, b, d) ∧
      (b = true ↔ ∃ ta tf, res = some (add64 s.segment_start s.segment_size, ta, tf)) := by
  unfold validate_heap
  rw [h]
  cases res with
  | none =>
    refine ⟨false, false, rfl, ?_⟩
    constructor
    · intro hb; cases hb
    · rintro ⟨ta, tf, hr⟩; cases hr
  | some r =>
    obtain ⟨cur, ta, tf⟩ := r
    dsimp only
    by_cases hc : cur ≠ add64 s.segment_start s.segment_size
    · rw [if_pos hc]
      refine ⟨false, _, rfl, ?_⟩
      constructor
      · intro hb; cases hb
      · rintro ⟨ta2, tf2, hr⟩
        have := (Prod.mk.inj (Option.some.inj hr)).1
        exact absurd this hc
    · rw [if_neg hc]
      refine ⟨true, _, rfl, fun _ => ⟨ta, tf, ?_⟩, fun _ => rfl⟩
      have : cur = add64 s.segment_start s.segment_size := by omega
      rw [this]

/-- A returning call of `validate_heap` leaves the state as it is, and its loop
has returned. -/
theorem validate_heap_ret (fuel : Nat) (s s2 : State) (b d : Bool)
    (h : validate_heap fuel s = Outcome.ret (s2, b, d)) :
    s2 = s ∧ ∃ res, validate_heap_loop fuel s.mem (add64 s.segment_start s.segment_size)
        s.segment_start 0 0 = Outcome.ret res ∧
      (b = true ↔ ∃ ta tf, res = some (add64 s.segment_start s.segment_size, ta, tf)) := by
  cases hl : validate_heap_loop fuel s.mem (add64 s.segment_start s.segment_size)
      s.segment_start 0 0 with
  | timeout =>
    unfold validate_heap at h
    rw [hl] at h
    cases h
  | fault =>
    unfold validate_heap at h
    rw [hl] at h
    cases h
  | ret res =>
    obtain ⟨b2, d2, hrun, hb⟩ := validate_heap_of_loop fuel s res hl
    rw [hrun] at h
    obtain ⟨e1, e2⟩ := Prod.mk.inj (Outcome.ret.inj h)
    obtain ⟨e3, _⟩ := Prod.mk.inj e2
    rw [← e3]
    exact ⟨e1.symm, res, rfl, hb⟩

/-- Counterexample to C13 as stated: the call does not terminate for arbitrary
segment contents. In the 1024-byte segment at 4096 the first header holds the
word `2 ^ 64 - 8`; the decoded payload size passes both checks of the loop, and
the 64-bit address of the next header is `4096 + 8 + (2 ^ 64 - 8)` modulo
`2 ^ 64`, which is 4096 again: the loop of `validate_heap` never exits, for any
fuel. -/
theorem validator_result_counterexample :
    ex_cycle.segment_start = 4096 ∧ ex_cycle.segment_size = 1024 ∧
    get_payload_size ex_cycle.mem 4096 = 18446744073709551608 ∧
    ¬ get_payload_size ex_cycle.mem 4096 < 8 ∧ get_payload_size ex_cycle.mem 4096 % 8 = 0 ∧
    next_header ex_cycle.mem 4096 = 4096 ∧
    ∀ fuel, validate_heap fuel ex_cycle = Outcome.timeout := by
  refine ⟨rfl, rfl, by decide, by decide, by decide, by decide, fun fuel => ?_⟩
  unfold validate_heap
  rw [validate_heap_loop_cycle ex_cycle.mem (add64 ex_cycle.segment_start ex_cycle.segment_size)
    ex_cycle.segment_start (by decide) (by decide) (by decide) (by decide) fuel 0 0]

/-- Claim C13 (validator result), amended. For arbitrary segment contents and
counter values, with 64-bit pointer arithmetic in the physical walk:
every returning call of `validate_heap` leaves the state as it is and returns
false exactly when the walk has a structural defect (a block inside the segment
whose decoded payload size is below 8 or not a multiple of 8, or a step past
the segment end) and true exactly when the walk lands on the segment end, and
for every other value of `count_free` and `count_allocated` it returns the same
flag. The call returns exactly when the walk stops, with any fuel above the
number of blocks walked; it stops, within `segment_size` steps, whenever no
step of the walk wraps around the 64-bit address space. -/
theorem validator_result (s : State) :
    (∀ fuel s2 b d, validate_heap fuel s = Outcome.ret (s2, b, d) →
      s2 = s ∧
      (b = false ↔
        structural_defect s.mem s.segment_start (add64 s.segment_start s.segment_size)) ∧
      (b = true ↔
        ∃ k, walk_sound s.mem s.segment_start (add64 s.segment_start s.segment_size) k ∧
          walk_at s.mem s.segment_start k = add64 s.segment_start s.segment_size) ∧
      ∀ cf ca, ∃ d2, validate_heap fuel { s with count_free := cf, count_allocated := ca }
        = Outcome.ret ({ s with count_free := cf, count_allocated := ca }, b, d2)) ∧
    ((∃ fuel res, validate_heap fuel s = Outcome.ret res) ↔
      walk_stops s.mem s.segment_start (add64 s.segment_start s.segment_size)) ∧
    (∀ k, walk_sound s.mem s.segment_start (add64 s.segment_start s.segment_size) k →
      ¬ (walk_at s.mem s.segment_start k < add64 s.segment_start s.segment_size ∧
        8 ≤ get_payload_size s.mem (walk_at s.mem s.segment_start k) ∧
        get_payload_size s.mem (walk_at s.mem s.segment_start k) % 8 = 0) →
      ∀ fuel, k < fuel → ∃ b d, validate_heap fuel s = Outcome.ret (s, b, d)) ∧
    (walk_no_wrap s.mem s.segment_start (add64 s.segment_start s.segment_size) →
      ∀ fuel, s.segment_size < fuel → ∃ b d, validate_heap fuel s = Outcome.ret (s, b, d)) := by
  have hcomplete : ∀ k,
      walk_sound s.mem s.segment_start (add64 s.segment_start s.segment_size) k →
      ¬ (walk_at s.mem s.segment_start k < add64 s.segment_start s.segment_size ∧
        8 ≤ get_payload_size s.mem (walk_at s.mem s.segment_start k) ∧
        get_payload_size s.mem (walk_at s.mem s.segment_start k) % 8 = 0) →
      ∀ fuel, k < fuel → ∃ b d, validate_heap fuel s = Outcome.ret (s, b, d) := by
    intro k hs hbad fuel hf
    obtain ⟨res, hrun⟩ := validate_heap_loop_complete s.mem _ k s.segment_start 0 0 hs hbad fuel hf
    obtain ⟨b, d, h, _⟩ := validate_heap_of_loop fuel s res hrun
    exact ⟨b, d, h⟩
  refine ⟨?_, ⟨?_, ?_⟩, hcomplete, ?_⟩
  · intro fuel s2 b d h
    obtain ⟨e1, res, hrun, hb⟩ := validate_heap_ret fuel s s2 b d h
    obtain ⟨k, hs, hres⟩ := validate_heap_loop_sound s.mem _ fuel s.segment_start 0 0 res hrun
    have hland : b = true ↔
        ∃ k, walk_sound s.mem s.segment_start (add64 s.segment_start s.segment_size) k ∧
          walk_at s.mem s.segment_start k = add64 s.segment_start s.segment_size := by
      rw [hb]
      constructor
      · rintro ⟨ta, tf, hr⟩
        rcases hres with ⟨h1, _, _⟩ | ⟨ta2, tf2, h1, _⟩
        · rw [h1] at hr; cases hr
        · rw [h1] at hr
          exact ⟨k, hs, (Prod.mk.inj (Option.some.inj hr)).1⟩
      · rintro ⟨k2, hs2, hl2⟩
        rcases hres with ⟨h1, h2, h3⟩ | ⟨ta2, tf2, h1, h2⟩
        · have := walk_sound_unique hs hs2 (by omega) (by omega)
          subst this
          omega
        · have := walk_sound_unique hs hs2 (by omega) (by omega)
          subst this
          exact ⟨ta2, tf2, by rw [h1, hl2]⟩
    have hdef : b = false ↔
        structural_defect s.mem s.segment_start (add64 s.segment_start s.segment_size) := by
      constructor
      · intro hbf
        rcases hres with ⟨_, h2, h3⟩ | ⟨ta2, tf2, h1, h2⟩
        · exact ⟨k, hs, Or.inl ⟨h2, h3⟩⟩
        · refine ⟨k, hs, Or.inr ?_⟩
          rcases Nat.lt_or_ge (add64 s.segment_start s.segment_size)
            (walk_at s.mem s.segment_start k) with h | h
          · exact h
          · exfalso
            have : b = true := hland.2 ⟨k, hs, by omega⟩
            rw [hbf] at this
            cases this
      · rintro ⟨k2, hs2, hd⟩
        cases hbv : b with
        | false => rfl
        | true =>
          exfalso
          obtain ⟨k3, hs3, hl3⟩ := hland.1 hbv
          have := walk_sound_unique hs2 hs3 (by omega) (by omega)
          subst this
          omega
    refine ⟨e1, hdef, hland, ?_⟩
    intro cf ca
    obtain ⟨b2, d2, hrun2, hb2⟩ := validate_heap_of_loop fuel
      { s with count_free := cf, count_allocated := ca } res hrun
    have : b2 = b := by
      have h3 : b2 = true ↔ b = true := hb2.trans hb.symm
      cases b2 <;> cases b <;> simp_all
    rw [this] at hrun2
    exact ⟨d2, hrun2⟩
  · rintro ⟨fuel, ⟨s2, b, d⟩, h⟩
    obtain ⟨_, res, hrun, _⟩ := validate_heap_ret fuel s s2 b d h
    obtain ⟨k, hs, hres⟩ := validate_heap_loop_sound s.mem _ fuel s.segment_start 0 0 res hrun
    refine ⟨k, hs, ?_⟩
    rcases hres with ⟨_, _, h3⟩ | ⟨_, _, _, h2⟩
    · omega
    · omega
  · rintro ⟨k, hs, hbad⟩
    obtain ⟨b, d, h⟩ := hcomplete k hs hbad (k + 1) (by omega)
    exact ⟨k + 1, _, h⟩
  · intro hnw fuel hf
    have hle : add64 s.segment_start s.segment_size - s.segment_start < fuel := by
      have : add64 s.segment_start s.segment_size ≤ s.segment_start + s.segment_size :=
        Nat.mod_le _ _
      omega
    obtain ⟨res, hrun⟩ := validate_heap_loop_no_wrap s.mem _ fuel s.segment_start 0 0 hle hnw
    obtain ⟨b, d, h, _⟩ := validate_heap_of_loop fuel s res hrun
    exact ⟨b, d, h⟩

/-- Witness for C13 (amended): on the state with two holes `validate_heap`
returns true without the counter diagnostic, and the walk lands on the segment
end. -/
theorem validator_result_witness :
    validate_heap 16 ex_holes = Outcome.ret (ex_holes, true, false) ∧
    ∃ k, walk_sound ex_holes.mem ex_holes.segment_start
        (add64 ex_holes.segment_start ex_holes.segment_size) k ∧
      walk_at ex_holes.mem ex_holes.segment_start k
        = add64 ex_holes.segment_start ex_holes.segment_size :=
  ⟨by rfl, ((validator_result ex_holes).1 16 ex_holes true false (by rfl)).2.2.1.1 rfl⟩


end ExplicitHeap
